import Mathlib

/-!
# Verification of the network-transport simplex solver

Shallow embedding of the `network_transport` package (graph model, the six
pivoting strategies, the transport solver state machine, the phase-one
initializer with its union-find basis repair, and the step controller),
together with proofs settling the frozen claims about it.

Numeric conventions: Python floats are modelled by rationals `ℚ`; the float
value `inf` (used only for capacities and theta limits) is modelled by the
two-constructor type `Val` below.  Python dicts keyed by strings or string
pairs are modelled by insertion-ordered association lists; Python sets whose
iteration order never influences results are modelled by lists.
-/

namespace NetworkTransport

attribute [local semireducible] Rat.sub Rat.add Rat.mul Rat.inv

/-- `EPSILON = 1e-9` from `models/edge.py`. -/
def EPSILON : ℚ := 1 / 1000000000

/-- A float that is either a finite rational or `+inf` (Python `float('inf')`).
Used for capacities and theta limits. -/
inductive Val where
  | fin (q : ℚ)
  | inf
  deriving DecidableEq, Repr

namespace Val

/-- `v - q` where `inf - q = inf`. -/
def subQ : Val → ℚ → Val
  | fin a, q => fin (a - q)
  | inf, _ => inf

/-- `q >= v` (false when `v = inf`, as for floats with finite `q`). -/
def qGe (q : ℚ) : Val → Bool
  | fin a => decide (a ≤ q)
  | inf => false

/-- `abs (q - v) < e` (false when `v = inf`, as for floats with finite `q`). -/
def absSubLt (q : ℚ) (v : Val) (e : ℚ) : Bool :=
  match v with
  | fin a => decide (|q - a| < e)
  | inf => false

/-- Minimum of two float values. -/
def min : Val → Val → Val
  | fin a, fin b => fin (Min.min a b)
  | fin a, inf => fin a
  | inf, w => w

/-- `v == inf`. -/
def isInf : Val → Bool
  | fin _ => false
  | inf => true

end Val

/-- An edge id: the `(from, to)` pair of node ids. -/
abbrev EdgeId := String × String

/-- `models/edge.py` `Edge` (frozen dataclass). -/
structure EdgeRec where
  from_node : String
  to_node : String
  cost : ℚ
  capacity : Val
  deriving DecidableEq, Repr

/-- `edge.edge_id` property. -/
def EdgeRec.edge_id (e : EdgeRec) : EdgeId := (e.from_node, e.to_node)

/-- Error kinds raised by the package (Python `ValueError` / `RuntimeError`
instances, distinguished by their messages). -/
inductive Err where
  | duplicateNode
  | unknownNode
  | duplicateEdge
  /-- "Total balance is not zero" -/
  | unbalanced
  /-- "Problem is infeasible. Total artificial flow: ..." -/
  | infeasible
  /-- "Original graph is not connected." -/
  | disconnected
  /-- "Maximum iterations (1000) exceeded" -/
  | iterationLimit
  /-- "[ERROR] First phase doesn't have a solution" -/
  | phaseOneFailure
  /-- "Solver did not produce a solution" -/
  | noSolution
  /-- Python-level failures: assert failures, KeyError, StopIteration. -/
  | internalError
  deriving DecidableEq, Repr

instance {ε α : Type} [DecidableEq ε] [DecidableEq α] :
    DecidableEq (Except ε α) := fun a b =>
  match a, b with
  | .error e, .error e' =>
    if h : e = e' then .isTrue (by rw [h]) else .isFalse (by simp [h])
  | .error _, .ok _ => .isFalse (by simp)
  | .ok _, .error _ => .isFalse (by simp)
  | .ok v, .ok v' =>
    if h : v = v' then .isTrue (by rw [h]) else .isFalse (by simp [h])

/-- Association-list lookup (Python `dict.get`). -/
def alookup {α : Type} [DecidableEq α] {β : Type} (l : List (α × β)) (k : α) :
    Option β :=
  (l.find? (fun p => p.1 = k)).map Prod.snd

/-- Python `dict.get(k, d)`. -/
def alookupD {α : Type} [DecidableEq α] {β : Type} (l : List (α × β)) (k : α)
    (d : β) : β :=
  (alookup l k).getD d

/-- Python `d[k] = v`: replace in place if the key exists, else append
(insertion-ordered dict semantics). -/
def aset {α : Type} [DecidableEq α] {β : Type} :
    List (α × β) → α → β → List (α × β)
  | [], k, v => [(k, v)]
  | (k', v') :: rest, k, v =>
    if k' = k then (k, v) :: rest else (k', v') :: aset rest k v

/-- `models/graph.py` `Graph`: insertion-ordered node and edge maps. -/
structure Graph where
  nodes : List (String × ℚ)
  edges : List (EdgeId × EdgeRec)
  deriving DecidableEq, Repr

namespace Graph

def empty : Graph := ⟨[], []⟩

def nodeIds (g : Graph) : List String := g.nodes.map Prod.fst

def edgeIds (g : Graph) : List EdgeId := g.edges.map Prod.fst

/-- `Graph.add_node`. -/
def add_node (g : Graph) (node_id : String) (balance : ℚ) :
    Except Err Graph :=
  if (alookup g.nodes node_id).isSome then .error .duplicateNode
  else .ok ⟨g.nodes ++ [(node_id, balance)], g.edges⟩

/-- `Graph.add_edge`.  Note: the source validates only that both endpoints
exist and that the directed pair is not already present; the capacity value
is not inspected. -/
def add_edge (g : Graph) (from_node to_node : String) (cost : ℚ)
    (capacity : Val) : Except Err Graph :=
  if (alookup g.nodes from_node).isNone then .error .unknownNode
  else if (alookup g.nodes to_node).isNone then .error .unknownNode
  else if (alookup g.edges (from_node, to_node)).isSome then
    .error .duplicateEdge
  else
    .ok ⟨g.nodes,
      g.edges ++ [((from_node, to_node),
        ⟨from_node, to_node, cost, capacity⟩)]⟩

/-- `Graph.get_edge`. -/
def get_edge (g : Graph) (from_node to_node : String) : Option EdgeRec :=
  alookup g.edges (from_node, to_node)

/-- `Graph.get_node` (returns the balance). -/
def get_node (g : Graph) (node_id : String) : Option ℚ :=
  alookup g.nodes node_id

/-- Total balance, as summed in `check_balance_feasibility` and in
`PhaseOneInitializer.execute`. -/
def totalBalance (g : Graph) : ℚ :=
  (g.nodes.map Prod.snd).sum

end Graph

/-- Lexicographic strict comparison of char lists by code point, matching
Python string comparison (the Mathlib `String` order is avoided because its
`ltb` does not reduce in the kernel). -/
def listLtB : List Char → List Char → Bool
  | [], [] => false
  | [], _ :: _ => true
  | _ :: _, [] => false
  | a :: as, b :: bs =>
    if a.toNat < b.toNat then true
    else if b.toNat < a.toNat then false
    else listLtB as bs

/-- Python `a < b` on strings. -/
def strLtB (a b : String) : Bool := listLtB a.data b.data

/-- Python `a <= b` on strings. -/
def strLeB (a b : String) : Bool := !(strLtB b a)

theorem listLtB_irrefl : ∀ as, listLtB as as = false
  | [] => rfl
  | a :: as => by simp [listLtB, listLtB_irrefl as]

theorem listLtB_asymm : ∀ as bs, listLtB as bs = true → listLtB bs as = false
  | [], [] => by simp [listLtB]
  | [], _ :: _ => by simp [listLtB]
  | _ :: _, [] => by simp [listLtB]
  | a :: as, b :: bs => by
    simp only [listLtB]
    by_cases h1 : a.toNat < b.toNat
    · have h2 : ¬ b.toNat < a.toNat := by omega
      simp [h1, h2]
    · by_cases h2 : b.toNat < a.toNat
      · simp [h1, h2]
      · simp only [h1, h2, if_false, if_neg]
        exact listLtB_asymm as bs

theorem charToNat_inj {a b : Char} (h : a.toNat = b.toNat) : a = b := by
  have ha := Char.ofNat_toNat a
  have hb := Char.ofNat_toNat b
  rw [← ha, ← hb, h]

theorem listLtB_trichotomy : ∀ as bs,
    listLtB as bs = true ∨ as = bs ∨ listLtB bs as = true
  | [], [] => Or.inr (Or.inl rfl)
  | [], _ :: _ => Or.inl rfl
  | _ :: _, [] => Or.inr (Or.inr rfl)
  | a :: as, b :: bs => by
    by_cases h1 : a.toNat < b.toNat
    · exact Or.inl (by simp [listLtB, h1])
    · by_cases h2 : b.toNat < a.toNat
      · have : ¬ a.toNat < b.toNat := by omega
        exact Or.inr (Or.inr (by simp [listLtB, h2, this]))
      · have hab : a = b := charToNat_inj (by omega)
        subst hab
        rcases listLtB_trichotomy as bs with h | h | h
        · exact Or.inl (by simp [listLtB, h1, h2, h])
        · exact Or.inr (Or.inl (by rw [h]))
        · exact Or.inr (Or.inr (by simp [listLtB, h1, h2, h]))

theorem listLtB_trans : ∀ as bs cs, listLtB as bs = true →
    listLtB bs cs = true → listLtB as cs = true
  | [], [], _ :: _, _, _ => rfl
  | [], _ :: _, _ :: _, _, _ => rfl
  | [], [], [], h, _ => by simp [listLtB] at h
  | [], _ :: _, [], _, h => by simp [listLtB] at h
  | _ :: _, [], _, h, _ => by simp [listLtB] at h
  | _ :: _, _ :: _, [], _, h => by simp [listLtB] at h
  | a :: as, b :: bs, c :: cs, h1, h2 => by
    simp only [listLtB] at h1 h2 ⊢
    by_cases hab : a.toNat < b.toNat
    · by_cases hbc : b.toNat < c.toNat
      · have hac : a.toNat < c.toNat := by omega
        simp [hac]
      · by_cases hcb : c.toNat < b.toNat
        · simp [hbc, hcb] at h2
        · have hbceq : b = c := charToNat_inj (by omega)
          subst hbceq
          simp [hab]
    · by_cases hba : b.toNat < a.toNat
      · simp [hab, hba] at h1
      · have habeq : a = b := charToNat_inj (by omega)
        subst habeq
        simp only [lt_irrefl, if_false, if_neg] at h1
        by_cases hac : a.toNat < c.toNat
        · simp [hac]
        · by_cases hca : c.toNat < a.toNat
          · simp [hac, hca] at h2
          · simp only [hac, hca, if_false, if_neg] at h2 ⊢
            exact listLtB_trans as bs cs h1 h2

theorem string_data_inj {a b : String} (h : a.data = b.data) : a = b := by
  cases a; cases b; exact congrArg String.mk (by simpa using h)

theorem strLtB_trichotomy (a b : String) :
    strLtB a b = true ∨ a = b ∨ strLtB b a = true := by
  rcases listLtB_trichotomy a.data b.data with h | h | h
  · exact Or.inl h
  · exact Or.inr (Or.inl (string_data_inj h))
  · exact Or.inr (Or.inr h)

theorem strLtB_asymm {a b : String} (h : strLtB a b = true) :
    strLtB b a = false := listLtB_asymm a.data b.data h

theorem strLtB_trans {a b c : String} (h1 : strLtB a b = true)
    (h2 : strLtB b c = true) : strLtB a c = true :=
  listLtB_trans a.data b.data c.data h1 h2

theorem strLtB_irrefl (a : String) : strLtB a a = false :=
  listLtB_irrefl a.data

theorem strLeB_refl (a : String) : strLeB a a = true := by
  simp [strLeB, strLtB_irrefl]

theorem strLeB_trans {a b c : String} (h1 : strLeB a b = true)
    (h2 : strLeB b c = true) : strLeB a c = true := by
  simp only [strLeB, Bool.not_eq_true'] at h1 h2 ⊢
  by_contra hca
  rw [Bool.not_eq_false] at hca
  rcases strLtB_trichotomy a b with hab | hab | hab
  · rw [strLtB_trans hca hab] at h2; exact absurd h2 (by simp)
  · subst hab; rw [hca] at h2; exact absurd h2 (by simp)
  · rw [hab] at h1; exact absurd h1 (by simp)

/-- Lexicographic order on edge ids, matching Python tuple comparison of
string pairs. -/
def idLe (a b : EdgeId) : Prop :=
  strLtB a.1 b.1 = true ∨ (a.1 = b.1 ∧ strLeB a.2 b.2 = true)

instance : DecidableRel idLe := fun a b => by
  unfold idLe; infer_instance

instance : IsTotal EdgeId idLe where
  total a b := by
    rcases strLtB_trichotomy a.1 b.1 with h | h | h
    · exact Or.inl (Or.inl h)
    · rcases strLtB_trichotomy a.2 b.2 with h2 | h2 | h2
      · exact Or.inl (Or.inr ⟨h, by simp [strLeB, strLtB_asymm h2]⟩)
      · exact Or.inl (Or.inr ⟨h, by simp [strLeB, h2, strLtB_irrefl]⟩)
      · exact Or.inr (Or.inr ⟨h.symm, by simp [strLeB, strLtB_asymm h2]⟩)
    · exact Or.inr (Or.inl h)

instance : IsTrans EdgeId idLe where
  trans a b c hab hbc := by
    rcases hab with h | ⟨he, h2⟩
    · rcases hbc with h' | ⟨he', _⟩
      · exact Or.inl (strLtB_trans h h')
      · exact Or.inl (he' ▸ h)
    · rcases hbc with h' | ⟨he', h2'⟩
      · exact Or.inl (he ▸ h')
      · exact Or.inr ⟨he.trans he', strLeB_trans h2 h2'⟩

/-- Python `sorted` on a collection of edge ids. -/
def sortIds (l : List EdgeId) : List EdgeId := l.insertionSort idLe

/-! ## OptimalityChecker (`strategies/optimality_checker.py`) -/

/-- Improvement direction strings `"increase"` / `"decrease"`. -/
inductive Direction where
  | increase
  | decrease
  deriving DecidableEq, Repr

/-- `OptimalityResult` dataclass from `solver/utils.py`. -/
structure OptimalityResult where
  is_optimal : Bool
  deltas : List (EdgeId × ℚ)
  entering_edge : Option EdgeId
  improvement_direction : Option Direction
  violation_score : ℚ := 0
  deriving DecidableEq, Repr

/-- A violation triple `(score, edge_id, direction)`. -/
abbrev Viol := ℚ × EdgeId × Direction

/-- The sort key order used by `_select_best_violation`:
ascending in `(-score, from, to)` (direction is not part of the key). -/
def violLe (a b : Viol) : Prop :=
  b.1 < a.1 ∨ (a.1 = b.1 ∧ idLe a.2.1 b.2.1)

instance : DecidableRel violLe := fun a b => by
  unfold violLe; infer_instance

instance : IsTotal Viol violLe where
  total a b := by
    rcases lt_trichotomy a.1 b.1 with h | h | h
    · exact Or.inr (Or.inl h)
    · rcases IsTotal.total (r := idLe) a.2.1 b.2.1 with h2 | h2
      · exact Or.inl (Or.inr ⟨h, h2⟩)
      · exact Or.inr (Or.inr ⟨h.symm, h2⟩)
    · exact Or.inl (Or.inl h)

instance : IsTrans Viol violLe where
  trans a b c hab hbc := by
    rcases hab with h | ⟨he, h2⟩
    · rcases hbc with h' | ⟨he', _⟩
      · exact Or.inl (h'.trans h)
      · exact Or.inl (he' ▸ h)
    · rcases hbc with h' | ⟨he', h2'⟩
      · exact Or.inl (he ▸ h')
      · exact Or.inr ⟨he.trans he', Trans.trans h2 h2'⟩

namespace OptimalityChecker

/-- The reduced cost `delta = u_j - u_i - cost` of one edge, `none` when the
edge or either potential is missing (a Python `assert` / `KeyError`). -/
def deltaOf (g : Graph) (potentials : List (String × ℚ)) (id : EdgeId) :
    Option ℚ := do
  let e ← g.get_edge id.1 id.2
  let ui ← alookup potentials e.from_node
  let uj ← alookup potentials e.to_node
  pure (uj - ui - e.cost)

/-- Loop body of `_calculate_all_deltas`. -/
def calcDeltasAux (g : Graph) (potentials : List (String × ℚ)) :
    List EdgeId → List (EdgeId × ℚ) → Option (List (EdgeId × ℚ))
  | [], acc => some acc
  | id :: rest, acc =>
    match deltaOf g potentials id with
    | none => none
    | some d => calcDeltasAux g potentials rest (aset acc id d)

/-- `_calculate_all_deltas`: reduced costs for all non-basis edges, iterated
in sorted order. -/
def calculateAllDeltas (g : Graph) (non_basis : List EdgeId)
    (potentials : List (String × ℚ)) : Option (List (EdgeId × ℚ)) :=
  calcDeltasAux g potentials (sortIds non_basis) []

/-- `_check_single_violation`.  Outer `Option` is a Python crash (failed
assert); inner `Option` distinguishes "violation" from "no violation". -/
def checkSingleViolation (g : Graph) (id : EdgeId)
    (deltas : List (EdgeId × ℚ)) (flows : List (EdgeId × ℚ)) :
    Option (Option Viol) :=
  match g.get_edge id.1 id.2 with
  | none => none
  | some e =>
    match alookup deltas id with
    | none => some none
    | some delta =>
      let flow := alookupD flows id 0
      let is_empty : Bool := decide (flow ≤ EPSILON)
      let is_saturated : Bool := Val.qGe flow (Val.subQ e.capacity EPSILON)
      if is_empty && decide (delta > EPSILON) then
        some (some (delta, id, .increase))
      else if is_saturated && decide (delta < -EPSILON) then
        some (some (|delta|, id, .decrease))
      else
        some none

/-- Loop body of `_collect_violations`. -/
def collectViolationsAux (g : Graph) (deltas flows : List (EdgeId × ℚ)) :
    List EdgeId → List Viol → Option (List Viol)
  | [], acc => some acc
  | id :: rest, acc =>
    match checkSingleViolation g id deltas flows with
    | none => none
    | some none => collectViolationsAux g deltas flows rest acc
    | some (some v) => collectViolationsAux g deltas flows rest (acc ++ [v])

/-- `_collect_violations`, iterated in sorted order. -/
def collectViolations (g : Graph) (non_basis : List EdgeId)
    (deltas flows : List (EdgeId × ℚ)) : Option (List Viol) :=
  collectViolationsAux g deltas flows (sortIds non_basis) []

/-- `_select_best_violation`: sort by `(-score, from, to)` and take the head
(`none` models the `IndexError` on an empty list, which is unreachable). -/
def selectBestViolation (violations : List Viol) :
    Option (EdgeId × Direction × ℚ) :=
  match violations.insertionSort violLe with
  | [] => none
  | (score, edge_id, direction) :: _ => some (edge_id, direction, score)

/-- `OptimalityChecker.execute`. -/
def execute (g : Graph) (non_basis : List EdgeId)
    (potentials : List (String × ℚ)) (flows : List (EdgeId × ℚ)) :
    Option OptimalityResult :=
  match calculateAllDeltas g non_basis potentials with
  | none => none
  | some deltas =>
    match collectViolations g non_basis deltas flows with
    | none => none
    | some violations =>
      if violations.length = 0 then
        some ⟨true, deltas, none, none, 0⟩
      else
        match selectBestViolation violations with
        | none => none
        | some (edge_id, direction, score) =>
          some ⟨false, deltas, some edge_id, some direction, score⟩

end OptimalityChecker

/-! ## Basic lemmas about the dict/sort embedding -/

theorem alookup_cons {α β : Type} [DecidableEq α] (k₀ : α) (v₀ : β)
    (rest : List (α × β)) (k' : α) :
    alookup ((k₀, v₀) :: rest) k' =
      if k₀ = k' then some v₀ else alookup rest k' := by
  by_cases h : k₀ = k' <;> simp [alookup, List.find?, h]

theorem alookup_aset {α β : Type} [DecidableEq α] (l : List (α × β))
    (k k' : α) (v : β) :
    alookup (aset l k v) k' = if k' = k then some v else alookup l k' := by
  induction l with
  | nil =>
    show alookup [(k, v)] k' = _
    rw [alookup_cons]
    by_cases h : k' = k
    · simp [h]
    · have h' : ¬ k = k' := fun hc => h hc.symm
      simp [h, h', alookup]
  | cons p rest ih =>
    obtain ⟨k₀, v₀⟩ := p
    by_cases h0 : k₀ = k
    · simp only [aset, if_pos h0]
      subst h0
      rw [alookup_cons, alookup_cons]
      by_cases h : k' = k₀
      · simp [h]
      · have h' : ¬ k₀ = k' := fun hc => h hc.symm
        simp [h, h']
    · simp only [aset, if_neg h0]
      rw [alookup_cons, alookup_cons, ih]
      by_cases h1 : k₀ = k'
      · have h' : ¬ k' = k := fun hc => h0 (h1.trans hc)
        simp [h1, h']
      · simp [h1]

theorem mem_sortIds {l : List EdgeId} {id : EdgeId} :
    id ∈ sortIds l ↔ id ∈ l :=
  List.mem_insertionSort idLe

theorem idLe_refl (a : EdgeId) : idLe a a := Or.inr ⟨rfl, strLeB_refl _⟩

theorem violLe_refl (a : Viol) : violLe a a := Or.inr ⟨rfl, idLe_refl _⟩

/-- The head of an `insertionSort` is related to every member of the list. -/
theorem insertionSort_head_le {α : Type} (r : α → α → Prop) [DecidableRel r]
    [IsTotal α r] [IsTrans α r] (hrefl : ∀ a, r a a) (l : List α) (a : α)
    (t : List α) (h : l.insertionSort r = a :: t) :
    a ∈ l ∧ ∀ b ∈ l, r a b := by
  have hperm := List.perm_insertionSort r l
  have hmem : a ∈ l := hperm.mem_iff.mp (h ▸ List.mem_cons_self a t)
  refine ⟨hmem, fun b hb => ?_⟩
  have hb' : b ∈ l.insertionSort r := hperm.mem_iff.mpr hb
  rw [h] at hb'
  rcases List.mem_cons.mp hb' with hba | hbt
  · exact hba ▸ hrefl a
  · have hs := List.sorted_insertionSort r l
    rw [h] at hs
    exact List.rel_of_sorted_cons hs b hbt

theorem mem_filterMap_of_apply {α β : Type} (f : α → Option β) (l : List α)
    (x : α) (y : β) (hx : x ∈ l) (hfx : f x = some y) : y ∈ l.filterMap f :=
  List.mem_filterMap.mpr ⟨x, hx, hfx⟩

namespace OptimalityChecker

theorem calcDeltasAux_spec (g : Graph) (potentials : List (String × ℚ))
    (ids : List EdgeId) (acc out : List (EdgeId × ℚ))
    (h : calcDeltasAux g potentials ids acc = some out) :
    (∀ id ∈ ids, (deltaOf g potentials id).isSome) ∧
    (∀ id, alookup out id =
      if id ∈ ids then deltaOf g potentials id else alookup acc id) := by
  induction ids generalizing acc with
  | nil =>
    simp only [calcDeltasAux, Option.some.injEq] at h
    subst h
    exact ⟨by simp, fun id => by simp⟩
  | cons id0 rest ih =>
    simp only [calcDeltasAux] at h
    cases hd : deltaOf g potentials id0 with
    | none => rw [hd] at h; exact absurd h (by simp)
    | some d =>
      rw [hd] at h
      obtain ⟨hall, hlook⟩ := ih _ h
      constructor
      · intro id hid
        rcases List.mem_cons.mp hid with rfl | hmem
        · simp [hd]
        · exact hall id hmem
      · intro id
        rw [hlook id]
        by_cases hmem : id ∈ rest
        · simp [hmem, List.mem_cons.mpr (Or.inr hmem)]
        · rw [alookup_aset]
          by_cases heq : id = id0
          · subst heq
            simp [hmem, hd]
          · simp [hmem, heq, List.mem_cons]

theorem collectViolationsAux_spec (g : Graph)
    (deltas flows : List (EdgeId × ℚ)) (ids : List EdgeId)
    (acc out : List Viol)
    (h : collectViolationsAux g deltas flows ids acc = some out) :
    (∀ id ∈ ids, (checkSingleViolation g id deltas flows).isSome) ∧
    out = acc ++ ids.filterMap
      (fun id => (checkSingleViolation g id deltas flows).getD none) := by
  induction ids generalizing acc with
  | nil =>
    simp only [collectViolationsAux, Option.some.injEq] at h
    subst h
    exact ⟨by simp, by simp⟩
  | cons id0 rest ih =>
    simp only [collectViolationsAux] at h
    cases hc : checkSingleViolation g id0 deltas flows with
    | none => rw [hc] at h; exact absurd h (by simp)
    | some ov =>
      rw [hc] at h
      cases ov with
      | none =>
        obtain ⟨hall, hout⟩ := ih _ h
        refine ⟨?_, ?_⟩
        · intro id hid
          rcases List.mem_cons.mp hid with rfl | hm
          · simp [hc]
          · exact hall id hm
        · rw [hout]
          simp [List.filterMap_cons, hc]
      | some v =>
        obtain ⟨hall, hout⟩ := ih _ h
        refine ⟨?_, ?_⟩
        · intro id hid
          rcases List.mem_cons.mp hid with rfl | hm
          · simp [hc]
          · exact hall id hm
        · rw [hout]
          simp [List.filterMap_cons, hc]

/-- Any violation produced by `checkSingleViolation g id` carries `id` itself
and a score equal to the absolute reduced cost. -/
theorem checkSingleViolation_shape (g : Graph) (id : EdgeId)
    (deltas flows : List (EdgeId × ℚ)) (v : Viol)
    (h : checkSingleViolation g id deltas flows = some (some v)) :
    v.2.1 = id ∧ ∃ delta, alookup deltas id = some delta ∧ v.1 = |delta| ∧
      ((v.2.2 = .increase ∧ alookupD flows id 0 ≤ EPSILON ∧ delta > EPSILON) ∨
       (v.2.2 = .decrease ∧ (∃ e, g.get_edge id.1 id.2 = some e ∧
          Val.qGe (alookupD flows id 0) (Val.subQ e.capacity EPSILON) = true) ∧
          delta < -EPSILON)) := by
  unfold checkSingleViolation at h
  cases he : g.get_edge id.1 id.2 with
  | none => rw [he] at h; exact absurd h (by simp)
  | some e =>
    rw [he] at h
    dsimp only at h
    cases hdl : alookup deltas id with
    | none => rw [hdl] at h; dsimp only at h; simp at h
    | some delta =>
      rw [hdl] at h
      dsimp only at h
      by_cases h1 : (decide (alookupD flows id 0 ≤ EPSILON) &&
          decide (delta > EPSILON)) = true
      · rw [if_pos h1] at h
        simp only [Option.some.injEq] at h
        subst h
        simp only [Bool.and_eq_true, decide_eq_true_eq] at h1
        refine ⟨rfl, delta, rfl, ?_, Or.inl ⟨rfl, h1.1, h1.2⟩⟩
        have : (0:ℚ) < delta := lt_trans (by norm_num [EPSILON]) h1.2
        simp [abs_of_pos this]
      · rw [if_neg h1] at h
        by_cases h2 : (Val.qGe (alookupD flows id 0)
            (Val.subQ e.capacity EPSILON) && decide (delta < -EPSILON)) = true
        · rw [if_pos h2] at h
          simp only [Option.some.injEq] at h
          subst h
          simp only [Bool.and_eq_true, decide_eq_true_eq] at h2
          exact ⟨rfl, delta, rfl, rfl, Or.inr ⟨rfl, ⟨e, rfl, h2.1⟩, h2.2⟩⟩
        · rw [if_neg h2] at h
          simp at h

theorem deltaOf_eq_some_iff (g : Graph) (potentials : List (String × ℚ))
    (id : EdgeId) (d : ℚ) :
    deltaOf g potentials id = some d ↔
      ∃ e ui uj, g.get_edge id.1 id.2 = some e ∧
        alookup potentials e.from_node = some ui ∧
        alookup potentials e.to_node = some uj ∧ d = uj - ui - e.cost := by
  unfold deltaOf
  simp only [Option.bind_eq_bind, Option.bind_eq_some, Option.pure_def,
    Option.some.injEq]
  constructor
  · rintro ⟨e, he, ui, hi, uj, hj, hd⟩
    exact ⟨e, ui, uj, he, hi, hj, hd.symm⟩
  · rintro ⟨e, ui, uj, he, hi, hj, hd⟩
    exact ⟨e, he, ui, hi, uj, hj, hd.symm⟩

end OptimalityChecker

/-- The claim's violation predicate for a non-basis edge: at its lower bound
(`flow ≤ ε`) with reduced cost `delta > ε`, or at its upper bound
(`flow ≥ capacity − ε`) with `delta < −ε`. -/
def violSpec (g : Graph) (potentials : List (String × ℚ))
    (flows : List (EdgeId × ℚ)) (id : EdgeId) : Prop :=
  ∃ e delta, g.get_edge id.1 id.2 = some e ∧
    OptimalityChecker.deltaOf g potentials id = some delta ∧
    ((alookupD flows id 0 ≤ EPSILON ∧ delta > EPSILON) ∨
     (Val.qGe (alookupD flows id 0) (Val.subQ e.capacity EPSILON) = true ∧
       delta < -EPSILON))

namespace OptimalityChecker

theorem EPSILON_pos : (0:ℚ) < EPSILON := by norm_num [EPSILON]

/-- In a context where the deltas dict agrees with `deltaOf`,
`checkSingleViolation` flags a violation exactly when `violSpec` holds. -/
theorem checkSingle_viol_iff (g : Graph) (id : EdgeId)
    (potentials : List (String × ℚ))
    (deltas flows : List (EdgeId × ℚ)) (delta : ℚ)
    (hdl : alookup deltas id = some delta)
    (hdel : deltaOf g potentials id = some delta) :
    (∃ v, checkSingleViolation g id deltas flows = some (some v)) ↔
      violSpec g potentials flows id := by
  obtain ⟨e, ui, uj, he, -, -, -⟩ := (deltaOf_eq_some_iff g potentials id delta).mp hdel
  constructor
  · rintro ⟨v, hv⟩
    obtain ⟨-, d', hd', -, hcase⟩ := checkSingleViolation_shape g id deltas flows v hv
    rw [hdl] at hd'
    obtain rfl : delta = d' := Option.some.injEq .. ▸ hd'
    rcases hcase with ⟨-, hf, hd⟩ | ⟨-, ⟨e', he', hsat⟩, hd⟩
    · exact ⟨e, delta, he, hdel, Or.inl ⟨hf, hd⟩⟩
    · rw [he] at he'
      obtain rfl : e = e' := Option.some.injEq .. ▸ he'
      exact ⟨e, delta, he, hdel, Or.inr ⟨hsat, hd⟩⟩
  · rintro ⟨e', delta', he', hdel', hcase⟩
    rw [he] at he'
    obtain rfl : e = e' := Option.some.injEq .. ▸ he'
    rw [hdel] at hdel'
    obtain rfl : delta = delta' := Option.some.injEq .. ▸ hdel'
    unfold checkSingleViolation
    rw [he, hdl]
    dsimp only
    rcases hcase with ⟨hf, hd⟩ | ⟨hsat, hd⟩
    · rw [if_pos (by simp [hf, hd])]
      exact ⟨_, rfl⟩
    · have hnotpos : ¬ delta > EPSILON :=
        fun hc => absurd (lt_trans hd (lt_trans (by norm_num [EPSILON]) hc))
          (lt_irrefl _)
      rw [if_neg (by simp [hnotpos]), if_pos (by simp [hsat, hd])]
      exact ⟨_, rfl⟩

/-- `f id = some v` for the filterMap body used in `collectViolations`. -/
theorem checkSingle_getD_eq_some (g : Graph) (id : EdgeId)
    (deltas flows : List (EdgeId × ℚ)) (v : Viol) :
    (checkSingleViolation g id deltas flows).getD none = some v ↔
      checkSingleViolation g id deltas flows = some (some v) := by
  cases h : checkSingleViolation g id deltas flows with
  | none => simp
  | some o => simp

end OptimalityChecker

/-- The full functional contract of `OptimalityChecker.execute` asserted by
the claim: reduced costs, the violation criterion, and steepest-edge
selection with lexicographic tie-break. -/
def OptimalityConclusion (g : Graph) (nonBasis : List EdgeId)
    (potentials : List (String × ℚ)) (flows : List (EdgeId × ℚ))
    (result : OptimalityResult) : Prop :=
  (∀ id ∈ nonBasis, ∃ e ui uj, g.get_edge id.1 id.2 = some e ∧
      alookup potentials e.from_node = some ui ∧
      alookup potentials e.to_node = some uj ∧
      alookup result.deltas id = some (uj - ui - e.cost)) ∧
  (result.is_optimal = true ↔ result.entering_edge = none) ∧
  (result.entering_edge = none ↔
    ∀ id ∈ nonBasis, ¬ violSpec g potentials flows id) ∧
  (∀ id, result.entering_edge = some id →
    id ∈ nonBasis ∧ violSpec g potentials flows id ∧
    ∃ delta, OptimalityChecker.deltaOf g potentials id = some delta ∧
      result.violation_score = |delta| ∧
      ((result.improvement_direction = some .increase ∧
         alookupD flows id 0 ≤ EPSILON ∧ delta > EPSILON) ∨
       (result.improvement_direction = some .decrease ∧ delta < -EPSILON)) ∧
      (∀ id' ∈ nonBasis, violSpec g potentials flows id' →
        ∀ delta', OptimalityChecker.deltaOf g potentials id' = some delta' →
          |delta'| < |delta| ∨ (|delta'| = |delta| ∧ idLe id id')))

/-- C1: reduced costs, violation criterion, and steepest-edge entering-edge
selection of `OptimalityChecker.execute`, for every successful call. -/
theorem optimality_checker_contract (g : Graph) (nonBasis : List EdgeId)
    (potentials : List (String × ℚ)) (flows : List (EdgeId × ℚ))
    (result : OptimalityResult)
    (hexec : OptimalityChecker.execute g nonBasis potentials flows =
      some result) :
    OptimalityConclusion g nonBasis potentials flows result := by
  unfold OptimalityChecker.execute at hexec
  cases hcd : OptimalityChecker.calculateAllDeltas g nonBasis potentials with
  | none => rw [hcd] at hexec; simp at hexec
  | some deltas =>
  rw [hcd] at hexec
  dsimp only at hexec
  have hcd' := hcd
  unfold OptimalityChecker.calculateAllDeltas at hcd'
  obtain ⟨hallDelta, hlook⟩ :=
    OptimalityChecker.calcDeltasAux_spec g potentials _ [] deltas hcd'
  cases hcv : OptimalityChecker.collectViolations g nonBasis deltas flows with
  | none => rw [hcv] at hexec; simp at hexec
  | some viols =>
  rw [hcv] at hexec
  dsimp only at hexec
  have hcv' := hcv
  unfold OptimalityChecker.collectViolations at hcv'
  obtain ⟨hallCheck, hviols⟩ :=
    OptimalityChecker.collectViolationsAux_spec g deltas flows _ [] viols hcv'
  rw [List.nil_append] at hviols
  have hdelta_mem : ∀ id ∈ nonBasis,
      ∃ d, OptimalityChecker.deltaOf g potentials id = some d ∧
        alookup deltas id = some d := by
    intro id hid
    have hm : id ∈ sortIds nonBasis := mem_sortIds.mpr hid
    obtain ⟨d, hd⟩ := Option.isSome_iff_exists.mp (hallDelta id hm)
    exact ⟨d, hd, by rw [hlook id, if_pos hm, hd]⟩
  have hmem_viols : ∀ v : Viol, v ∈ viols ↔
      ∃ id ∈ sortIds nonBasis,
        OptimalityChecker.checkSingleViolation g id deltas flows =
          some (some v) := by
    intro v
    rw [hviols, List.mem_filterMap]
    constructor
    · rintro ⟨id, hid, hf⟩
      exact ⟨id, hid,
        (OptimalityChecker.checkSingle_getD_eq_some g id deltas flows v).mp hf⟩
    · rintro ⟨id, hid, hf⟩
      exact ⟨id, hid,
        (OptimalityChecker.checkSingle_getD_eq_some g id deltas flows v).mpr hf⟩
  have hc1 : ∀ id ∈ nonBasis, ∃ e ui uj, g.get_edge id.1 id.2 = some e ∧
      alookup potentials e.from_node = some ui ∧
      alookup potentials e.to_node = some uj ∧
      alookup deltas id = some (uj - ui - e.cost) := by
    intro id hid
    obtain ⟨d, hdel, hdl⟩ := hdelta_mem id hid
    obtain ⟨e, ui, uj, he, hi, hj, hd⟩ :=
      (OptimalityChecker.deltaOf_eq_some_iff g potentials id d).mp hdel
    exact ⟨e, ui, uj, he, hi, hj, by rw [hdl, hd]⟩
  have hviol_to_mem : ∀ id ∈ nonBasis, violSpec g potentials flows id →
      ∃ v : Viol, v ∈ viols ∧
        OptimalityChecker.checkSingleViolation g id deltas flows =
          some (some v) := by
    intro id hid hviol
    obtain ⟨d, hdel, hdl⟩ := hdelta_mem id hid
    obtain ⟨v, hv⟩ := (OptimalityChecker.checkSingle_viol_iff g id potentials
      deltas flows d hdl hdel).mpr hviol
    exact ⟨v, (hmem_viols v).mpr ⟨id, mem_sortIds.mpr hid, hv⟩, hv⟩
  by_cases hlen : viols.length = 0
  · rw [if_pos hlen] at hexec
    obtain rfl : OptimalityResult.mk true deltas none none 0 = result :=
      Option.some.injEq .. ▸ hexec
    have hnil : viols = [] := List.length_eq_zero.mp hlen
    refine ⟨hc1, by simp, ?_, by simp⟩
    simp only [true_iff]
    intro id hid hviol
    obtain ⟨v, hvmem, -⟩ := hviol_to_mem id hid hviol
    rw [hnil] at hvmem
    exact absurd hvmem (List.not_mem_nil v)
  · rw [if_neg hlen] at hexec
    cases hsel : OptimalityChecker.selectBestViolation viols with
    | none => rw [hsel] at hexec; simp at hexec
    | some sel =>
    have hsel' := hsel
    unfold OptimalityChecker.selectBestViolation at hsel'
    cases hsort : viols.insertionSort violLe with
    | nil => rw [hsort] at hsel'; simp at hsel'
    | cons head t =>
    rw [hsort] at hsel'
    obtain ⟨score₁, id₁, dir₁⟩ := head
    dsimp only at hsel'
    obtain rfl : sel = (id₁, dir₁, score₁) :=
      (Option.some.injEq .. ▸ hsel').symm
    rw [hsel] at hexec
    dsimp only at hexec
    obtain rfl :
        OptimalityResult.mk false deltas (some id₁) (some dir₁) score₁ =
          result := Option.some.injEq .. ▸ hexec
    obtain ⟨hheadmem, hmin⟩ := insertionSort_head_le violLe violLe_refl viols
      (score₁, id₁, dir₁) t hsort
    obtain ⟨idh, hidh, hcheck⟩ := (hmem_viols _).mp hheadmem
    obtain ⟨hvid, delta_h, hdlh, hscore, hdircase⟩ :=
      OptimalityChecker.checkSingleViolation_shape g idh deltas flows _ hcheck
    have hvid' : idh = id₁ := hvid.symm
    rw [hvid'] at hidh hcheck hdlh hdircase
    have hid₁ : id₁ ∈ nonBasis := mem_sortIds.mp hidh
    obtain ⟨d, hdel, hdl⟩ := hdelta_mem id₁ hid₁
    have hdh : delta_h = d := by
      rw [hdl] at hdlh
      exact (Option.some.injEq .. ▸ hdlh).symm
    subst hdh
    have hviol₁ : violSpec g potentials flows id₁ :=
      (OptimalityChecker.checkSingle_viol_iff g id₁ potentials deltas flows
        delta_h hdl hdel).mp ⟨_, hcheck⟩
    refine ⟨hc1, by simp, ?_, ?_⟩
    · constructor
      · intro h; simp at h
      · intro h
        exact absurd hviol₁ (h id₁ hid₁)
    · intro id hid
      have hideq : id = id₁ := by
        have := Option.some.injEq .. ▸ hid
        exact this.symm
      subst hideq
      refine ⟨hid₁, hviol₁, delta_h, hdel, hscore, ?_, ?_⟩
      · rcases hdircase with ⟨hd1, hf, hdd⟩ | ⟨hd1, -, hdd⟩
        · exact Or.inl ⟨by rw [show dir₁ = Direction.increase from hd1],
            hf, hdd⟩
        · exact Or.inr ⟨by rw [show dir₁ = Direction.decrease from hd1], hdd⟩
      · intro id' hid' hviol' delta' hdel'
        obtain ⟨d'', hdel'', hdl''⟩ := hdelta_mem id' hid'
        have hd2 : d'' = delta' := by
          rw [hdel''] at hdel'
          exact Option.some.injEq .. ▸ hdel'
        subst hd2
        obtain ⟨v', hv'mem, hv'check⟩ := hviol_to_mem id' hid' hviol'
        obtain ⟨hv'id, dv, hdlv, hv'score, -⟩ :=
          OptimalityChecker.checkSingleViolation_shape g id' deltas flows _
            hv'check
        have hdv : dv = d'' := by
          rw [hdl''] at hdlv
          exact (Option.some.injEq .. ▸ hdlv).symm
        subst hdv
        rcases hmin v' hv'mem with hlt | ⟨heq, hle⟩
        · left
          rw [← hv'score, ← hscore]
          exact hlt
        · right
          constructor
          · rw [← hv'score, ← heq, hscore]
          · rw [hv'id] at hle
            exact hle

/-- Concrete two-node instance used to witness the optimality-checker
contract. -/
def gC1W : Graph := ⟨[("a", 0), ("b", 0)], [(("a", "b"), ⟨"a", "b", 1, .inf⟩)]⟩

/-- Witness for `optimality_checker_contract` at a concrete input. -/
theorem optimality_checker_contract_witness :
    OptimalityConclusion gC1W [("a", "b")] [("a", 0), ("b", 5)] []
      ⟨false, [(("a", "b"), 4)], some ("a", "b"), some .increase, 4⟩ :=
  optimality_checker_contract gC1W [("a", "b")] [("a", 0), ("b", 5)] []
    ⟨false, [(("a", "b"), 4)], some ("a", "b"), some .increase, 4⟩ (by decide)

/-! ## ThetaCalculator (`strategies/theta_calculator.py`) -/

/-- The sign strings `"+"` / `"-"` of a cycle edge. -/
inductive Sign where
  | plus
  | minus
  deriving DecidableEq, Repr

/-- `CycleEdge` dataclass from `solver/utils.py`. -/
structure CycleEdge where
  edge : EdgeRec
  sign : Sign
  theta_limit : Val
  deriving DecidableEq, Repr

/-- `a ≤ b` on float values (everything is `≤ inf`). -/
def valLe (a b : Val) : Prop :=
  match a, b with
  | .fin x, .fin y => x ≤ y
  | _, .inf => True
  | .inf, .fin _ => False

namespace ThetaCalculator

/-- `min(ce.theta_limit for ce in cycle)` as a fold (the caller guarantees a
nonempty cycle, for which the fold equals Python's `min`). -/
def minLimit (cycle : List CycleEdge) : Val :=
  cycle.foldr (fun ce acc => Val.min ce.theta_limit acc) Val.inf

/-- `_find_minimum_theta`: minimum limit, with `inf` replaced by `0`. -/
def findMinimumTheta (cycle : List CycleEdge) : ℚ :=
  match minLimit cycle with
  | .inf => 0
  | .fin q => q

/-- Membership test of `_find_limiting_edges`:
`abs(ce.theta_limit - theta) < EPSILON`. -/
def isLimiting (theta : ℚ) (ce : CycleEdge) : Bool :=
  Val.absSubLt theta ce.theta_limit EPSILON

/-- `_find_limiting_edges`. -/
def findLimitingEdges (cycle : List CycleEdge) (theta : ℚ) :
    List CycleEdge :=
  cycle.filter (isLimiting theta)

/-- Sort key order of `_select_leaving_edge`: candidates not in the basis
rank after basis members, then ascending `(from, to)`. -/
def leavingLe (basis : List EdgeId) (a b : CycleEdge) : Prop :=
  (decide (a.edge.edge_id ∈ basis) = true ∧
    decide (b.edge.edge_id ∈ basis) = false) ∨
  (decide (a.edge.edge_id ∈ basis) = decide (b.edge.edge_id ∈ basis) ∧
    idLe a.edge.edge_id b.edge.edge_id)

instance (basis : List EdgeId) : DecidableRel (leavingLe basis) :=
  fun a b => by unfold leavingLe; infer_instance

instance (basis : List EdgeId) : IsTotal CycleEdge (leavingLe basis) where
  total a b := by
    unfold leavingLe
    cases ha : decide (a.edge.edge_id ∈ basis) <;>
      cases hb : decide (b.edge.edge_id ∈ basis)
    · rcases IsTotal.total (r := idLe) a.edge.edge_id b.edge.edge_id with h | h
      · exact Or.inl (Or.inr ⟨rfl, h⟩)
      · exact Or.inr (Or.inr ⟨rfl, h⟩)
    · exact Or.inr (Or.inl ⟨rfl, rfl⟩)
    · exact Or.inl (Or.inl ⟨rfl, rfl⟩)
    · rcases IsTotal.total (r := idLe) a.edge.edge_id b.edge.edge_id with h | h
      · exact Or.inl (Or.inr ⟨rfl, h⟩)
      · exact Or.inr (Or.inr ⟨rfl, h⟩)

instance (basis : List EdgeId) : IsTrans CycleEdge (leavingLe basis) where
  trans a b c hab hbc := by
    unfold leavingLe at hab hbc ⊢
    rcases hab with ⟨ha, hb⟩ | ⟨hab', h2⟩
    · rcases hbc with ⟨hb', -⟩ | ⟨hbc', -⟩
      · rw [hb] at hb'; exact absurd hb' (by simp)
      · exact Or.inl ⟨ha, hbc' ▸ hb⟩
    · rcases hbc with ⟨hb', hc⟩ | ⟨hbc', h2'⟩
      · exact Or.inl ⟨hab' ▸ hb', hc⟩
      · exact Or.inr ⟨hab'.trans hbc', Trans.trans h2 h2'⟩

theorem leavingLe_refl (basis : List EdgeId) (a : CycleEdge) :
    leavingLe basis a a := Or.inr ⟨rfl, idLe_refl _⟩

/-- `_select_leaving_edge`: sort the limiting edges by the preference key and
take the head. -/
def selectLeavingEdge (basis : List EdgeId) (cycle : List CycleEdge)
    (theta : ℚ) : Option EdgeId :=
  match (findLimitingEdges cycle theta).insertionSort (leavingLe basis) with
  | [] => none
  | ce :: _ => some ce.edge.edge_id

/-- `ThetaCalculator.execute`. -/
def execute (cycle : List CycleEdge) (basis : List EdgeId) :
    ℚ × Option EdgeId :=
  if cycle.isEmpty then (0, none)
  else
    let theta := findMinimumTheta cycle
    (theta, selectLeavingEdge basis cycle theta)

theorem valLe_min_left (a b : Val) : valLe (Val.min a b) a := by
  cases a <;> cases b <;> simp [Val.min, valLe, min_le_left]

theorem valLe_min_right (a b : Val) : valLe (Val.min a b) b := by
  cases a <;> cases b <;> simp [Val.min, valLe, min_le_right]

theorem valLe_trans {a b c : Val} (h1 : valLe a b) (h2 : valLe b c) :
    valLe a c := by
  cases a <;> cases b <;> cases c <;> simp_all [valLe]
  exact le_trans h1 h2

theorem minLimit_le (cycle : List CycleEdge) :
    ∀ ce ∈ cycle, valLe (minLimit cycle) ce.theta_limit := by
  induction cycle with
  | nil => simp
  | cons ce0 rest ih =>
    intro ce hce
    rcases List.mem_cons.mp hce with rfl | hmem
    · exact valLe_min_left _ _
    · exact valLe_trans (valLe_min_right ce0.theta_limit (minLimit rest))
        (ih ce hmem)

theorem minLimit_mem (cycle : List CycleEdge) (q : ℚ)
    (h : minLimit cycle = .fin q) :
    ∃ ce ∈ cycle, ce.theta_limit = .fin q := by
  induction cycle with
  | nil => exact absurd h (by simp [minLimit])
  | cons ce0 rest ih =>
    simp only [minLimit, List.foldr_cons] at h
    cases hl : ce0.theta_limit with
    | inf =>
      rw [hl] at h
      simp only [Val.min] at h
      obtain ⟨ce, hce, hq⟩ := ih h
      exact ⟨ce, List.mem_cons_of_mem _ hce, hq⟩
    | fin a =>
      rw [hl] at h
      cases hr : minLimit rest with
      | inf =>
        rw [show List.foldr (fun ce acc => Val.min ce.theta_limit acc)
          Val.inf rest = minLimit rest from rfl, hr] at h
        simp only [Val.min, Val.fin.injEq] at h
        exact ⟨ce0, List.mem_cons_self _ _, by rw [hl, h]⟩
      | fin b =>
        rw [show List.foldr (fun ce acc => Val.min ce.theta_limit acc)
          Val.inf rest = minLimit rest from rfl, hr] at h
        simp only [Val.min, Val.fin.injEq] at h
        rcases le_total a b with hab | hab
        · refine ⟨ce0, List.mem_cons_self _ _, ?_⟩
          rw [hl, ← h]
          simp [min_eq_left hab]
        · obtain ⟨ce, hce, hq⟩ := ih (by rw [hr, ← h, min_eq_right hab])
          exact ⟨ce, List.mem_cons_of_mem _ hce, hq⟩

end ThetaCalculator

/-- The functional contract of `ThetaCalculator.execute` asserted by the
claim: theta is the minimum limit (0 when all are infinite), candidates are
the limits within ε of theta, selection prefers basis membership then
lexicographic order, and an empty candidate set gives no leaving edge with
`theta = 0`. -/
def ThetaConclusion (cycle : List CycleEdge) (basis : List EdgeId)
    (result : ℚ × Option EdgeId) : Prop :=
  (cycle = [] → result = (0, none)) ∧
  (cycle ≠ [] →
    (((∀ ce ∈ cycle, ce.theta_limit = .inf) → result.1 = 0) ∧
     ((∃ ce ∈ cycle, ce.theta_limit ≠ .inf) →
        (∃ ce ∈ cycle, ce.theta_limit = .fin result.1) ∧
        ∀ ce ∈ cycle, valLe (.fin result.1) ce.theta_limit) ∧
     (∀ ce, (ce ∈ ThetaCalculator.findLimitingEdges cycle result.1 ↔
        ce ∈ cycle ∧ Val.absSubLt result.1 ce.theta_limit EPSILON = true)) ∧
     (result.2 = none ↔
        ThetaCalculator.findLimitingEdges cycle result.1 = []) ∧
     (result.2 = none → result.1 = 0) ∧
     (∀ id, result.2 = some id →
        ∃ ce ∈ ThetaCalculator.findLimitingEdges cycle result.1,
          ce.edge.edge_id = id ∧
          ∀ ce' ∈ ThetaCalculator.findLimitingEdges cycle result.1,
            ThetaCalculator.leavingLe basis ce ce')))

theorem minLimit_eq_inf_iff (cycle : List CycleEdge) :
    ThetaCalculator.minLimit cycle = .inf ↔
      ∀ ce ∈ cycle, ce.theta_limit = .inf := by
  induction cycle with
  | nil => simp [ThetaCalculator.minLimit]
  | cons ce0 rest ih =>
    simp only [ThetaCalculator.minLimit, List.foldr_cons]
    rw [show List.foldr (fun ce acc => Val.min ce.theta_limit acc)
      Val.inf rest = ThetaCalculator.minLimit rest from rfl]
    constructor
    · intro h ce hce
      have h0 : ce0.theta_limit = .inf ∧
          ThetaCalculator.minLimit rest = .inf := by
        cases hl : ce0.theta_limit <;>
          cases hr : ThetaCalculator.minLimit rest <;>
            rw [hl, hr] at h <;> simp_all [Val.min]
      rcases List.mem_cons.mp hce with rfl | hmem
      · exact h0.1
      · exact ih.mp h0.2 ce hmem
    · intro h
      have h1 : ce0.theta_limit = .inf := h ce0 (List.mem_cons_self _ _)
      have h2 : ThetaCalculator.minLimit rest = .inf :=
        ih.mpr (fun ce hce => h ce (List.mem_cons_of_mem _ hce))
      rw [h1, h2]
      rfl

/-- C2: theta selection and leaving-edge selection of
`ThetaCalculator.execute`, for every cycle and basis. -/
theorem theta_calculator_contract (cycle : List CycleEdge)
    (basis : List EdgeId) :
    ThetaConclusion cycle basis (ThetaCalculator.execute cycle basis) := by
  by_cases hempty : cycle.isEmpty
  · have hnil : cycle = [] := List.isEmpty_iff.mp hempty
    have hexec : ThetaCalculator.execute cycle basis = (0, none) := by
      unfold ThetaCalculator.execute
      rw [if_pos hempty]
    rw [hexec]
    exact ⟨fun _ => rfl, fun hne => absurd hnil hne⟩
  · have hne : cycle ≠ [] := fun h => hempty (by simp [h])
    have hexec : ThetaCalculator.execute cycle basis =
        (ThetaCalculator.findMinimumTheta cycle,
         ThetaCalculator.selectLeavingEdge basis cycle
           (ThetaCalculator.findMinimumTheta cycle)) := by
      unfold ThetaCalculator.execute
      rw [if_neg hempty]
    rw [hexec]
    refine ⟨fun h => absurd h hne, fun _ => ?_⟩
    refine ⟨?_, ?_, ?_, ?_, ?_, ?_⟩
    · intro hall
      show ThetaCalculator.findMinimumTheta cycle = 0
      unfold ThetaCalculator.findMinimumTheta
      rw [(minLimit_eq_inf_iff cycle).mpr hall]
    · intro hex
      have hninf : ThetaCalculator.minLimit cycle ≠ .inf := by
        intro hc
        obtain ⟨ce, hce, hl⟩ := hex
        exact hl ((minLimit_eq_inf_iff cycle).mp hc ce hce)
      cases hm : ThetaCalculator.minLimit cycle with
      | inf => exact absurd hm hninf
      | fin q =>
        have hth : ThetaCalculator.findMinimumTheta cycle = q := by
          unfold ThetaCalculator.findMinimumTheta
          rw [hm]
        constructor
        · obtain ⟨ce, hce, hl⟩ := ThetaCalculator.minLimit_mem cycle q hm
          exact ⟨ce, hce, by dsimp only; rw [hl, hth]⟩
        · intro ce hce
          have hle := ThetaCalculator.minLimit_le cycle ce hce
          rw [hm] at hle
          dsimp only
          rw [hth]
          exact hle
    · intro ce
      unfold ThetaCalculator.findLimitingEdges
      rw [List.mem_filter]
      exact Iff.rfl
    · show ThetaCalculator.selectLeavingEdge basis cycle
          (ThetaCalculator.findMinimumTheta cycle) = none ↔ _
      unfold ThetaCalculator.selectLeavingEdge
      cases hs : (ThetaCalculator.findLimitingEdges cycle
          (ThetaCalculator.findMinimumTheta cycle)).insertionSort
          (ThetaCalculator.leavingLe basis) with
      | nil =>
        have hp := List.perm_insertionSort (ThetaCalculator.leavingLe basis)
          (ThetaCalculator.findLimitingEdges cycle
            (ThetaCalculator.findMinimumTheta cycle))
        rw [hs] at hp
        simp only [true_iff]
        exact hp.symm.eq_nil
      | cons ce t =>
        constructor
        · intro h; exact absurd h (by simp)
        · intro h
          rw [h] at hs
          exact absurd hs (by simp [List.insertionSort])
    · intro hnone
      replace hnone : ThetaCalculator.selectLeavingEdge basis cycle
          (ThetaCalculator.findMinimumTheta cycle) = none := hnone
      have hlim : ThetaCalculator.findLimitingEdges cycle
          (ThetaCalculator.findMinimumTheta cycle) = [] := by
        unfold ThetaCalculator.selectLeavingEdge at hnone
        cases hs : (ThetaCalculator.findLimitingEdges cycle
            (ThetaCalculator.findMinimumTheta cycle)).insertionSort
            (ThetaCalculator.leavingLe basis) with
        | nil =>
          have hp := List.perm_insertionSort
            (ThetaCalculator.leavingLe basis)
            (ThetaCalculator.findLimitingEdges cycle
              (ThetaCalculator.findMinimumTheta cycle))
          rw [hs] at hp
          exact hp.symm.eq_nil
        | cons ce t => rw [hs] at hnone; exact absurd hnone (by simp)
      show ThetaCalculator.findMinimumTheta cycle = 0
      cases hm : ThetaCalculator.minLimit cycle with
      | inf =>
        unfold ThetaCalculator.findMinimumTheta
        rw [hm]
      | fin q =>
        exfalso
        have hth : ThetaCalculator.findMinimumTheta cycle = q := by
          unfold ThetaCalculator.findMinimumTheta
          rw [hm]
        obtain ⟨ce, hce, hl⟩ := ThetaCalculator.minLimit_mem cycle q hm
        have hmemf : ce ∈ ThetaCalculator.findLimitingEdges cycle
            (ThetaCalculator.findMinimumTheta cycle) := by
          unfold ThetaCalculator.findLimitingEdges
          rw [List.mem_filter]
          refine ⟨hce, ?_⟩
          unfold ThetaCalculator.isLimiting
          rw [hl, hth]
          simp [Val.absSubLt, EPSILON]
        rw [hlim] at hmemf
        exact absurd hmemf (List.not_mem_nil ce)
    · intro id hid
      replace hid : ThetaCalculator.selectLeavingEdge basis cycle
          (ThetaCalculator.findMinimumTheta cycle) = some id := hid
      unfold ThetaCalculator.selectLeavingEdge at hid
      cases hs : (ThetaCalculator.findLimitingEdges cycle
          (ThetaCalculator.findMinimumTheta cycle)).insertionSort
          (ThetaCalculator.leavingLe basis) with
      | nil => rw [hs] at hid; exact absurd hid (by simp)
      | cons ce t =>
        rw [hs] at hid
        obtain rfl : ce.edge.edge_id = id := Option.some.injEq .. ▸ hid
        obtain ⟨hmem, hmin⟩ := insertionSort_head_le
          (ThetaCalculator.leavingLe basis)
          (ThetaCalculator.leavingLe_refl basis) _ ce t hs
        exact ⟨ce, hmem, rfl, hmin⟩

/-- Witness for `theta_calculator_contract` at a concrete cycle. -/
theorem theta_calculator_contract_witness :
    ThetaConclusion
      [⟨⟨"a", "b", 0, .inf⟩, .plus, .fin 5⟩,
       ⟨⟨"b", "c", 0, .inf⟩, .minus, .fin 3⟩]
      [("b", "c")]
      (ThetaCalculator.execute
        [⟨⟨"a", "b", 0, .inf⟩, .plus, .fin 5⟩,
         ⟨⟨"b", "c", 0, .inf⟩, .minus, .fin 3⟩]
        [("b", "c")]) :=
  theta_calculator_contract
    [⟨⟨"a", "b", 0, .inf⟩, .plus, .fin 5⟩,
     ⟨⟨"b", "c", 0, .inf⟩, .minus, .fin 3⟩]
    [("b", "c")]


/-! ## FlowUpdater (`strategies/flow_updater.py`) -/

namespace FlowUpdater

/-- `_round_flow_value`: snap to `0` or to the capacity when within ε. -/
def roundFlowValue (flow : ℚ) (capacity : Val) : ℚ :=
  if |flow| < EPSILON then 0
  else
    match capacity with
    | .fin c => if |flow - c| < EPSILON then c else flow
    | .inf => flow

/-- One step of the `_adjust_flows` loop. -/
def adjustStep (theta : ℚ) (fl : List (EdgeId × ℚ)) (ce : CycleEdge) :
    List (EdgeId × ℚ) :=
  let id := ce.edge.edge_id
  let current := alookupD fl id 0
  let new_flow :=
    match ce.sign with
    | .plus => current + theta
    | .minus => current - theta
  aset fl id (roundFlowValue new_flow ce.edge.capacity)

/-- `_adjust_flows`. -/
def adjustFlows (cycle : List CycleEdge) (theta : ℚ)
    (current_flows : List (EdgeId × ℚ)) : List (EdgeId × ℚ) :=
  cycle.foldl (adjustStep theta) current_flows

/-- Python `set.remove` (raises `KeyError`, i.e. `none`, when absent). -/
def setRemove (l : List EdgeId) (x : EdgeId) : Option (List EdgeId) :=
  if x ∈ l then some (l.erase x) else none

/-- Python `set.add`. -/
def setAdd (l : List EdgeId) (x : EdgeId) : List EdgeId :=
  if x ∈ l then l else l ++ [x]

/-- `{edge.edge_id for edge in graph.edges.values()}`. -/
def allEdgeIds (g : Graph) : List EdgeId :=
  g.edges.map (fun p => p.2.edge_id)

/-- Python set difference `a - b`. -/
def setDiff (a b : List EdgeId) : List EdgeId :=
  a.filter (fun x => decide (x ∉ b))

/-- `_update_basis`. -/
def updateBasis (g : Graph) (entering : EdgeId) (leaving : Option EdgeId)
    (current_basis : List EdgeId) : Option (List EdgeId × List EdgeId) :=
  let all := allEdgeIds g
  if leaving = some entering then
    some (current_basis, setDiff all current_basis)
  else
    match leaving with
    | none => some (current_basis, setDiff all current_basis)
    | some f =>
      match setRemove current_basis f with
      | none => none
      | some removed =>
        let new_basis := setAdd removed entering
        some (new_basis, setDiff all new_basis)

/-- `FlowUpdater.execute`. -/
def execute (g : Graph) (cycle : List CycleEdge) (theta : ℚ)
    (entering : EdgeId) (leaving : Option EdgeId)
    (current_basis : List EdgeId) (current_flows : List (EdgeId × ℚ)) :
    Option (List EdgeId × List EdgeId × List (EdgeId × ℚ)) :=
  let new_flows := adjustFlows cycle theta current_flows
  match updateBasis g entering leaving current_basis with
  | none => none
  | some (b, nb) => some (b, nb, new_flows)

theorem adjustFlows_unchanged (cycle : List CycleEdge) (theta : ℚ)
    (flows : List (EdgeId × ℚ)) :
    ∀ id, id ∉ cycle.map (fun ce => ce.edge.edge_id) →
      alookup (adjustFlows cycle theta flows) id = alookup flows id := by
  induction cycle generalizing flows with
  | nil => intro id _; rfl
  | cons ce0 rest ih =>
    intro id hid
    simp only [List.map_cons, List.mem_cons, not_or] at hid
    obtain ⟨hne, hrest⟩ := hid
    show alookup (adjustFlows rest theta (adjustStep theta flows ce0)) id = _
    rw [ih _ id hrest]
    unfold adjustStep
    rw [alookup_aset, if_neg hne]

theorem adjustFlows_spec (cycle : List CycleEdge) (theta : ℚ)
    (flows : List (EdgeId × ℚ))
    (hnodup : (cycle.map (fun ce => ce.edge.edge_id)).Nodup) :
    ∀ ce ∈ cycle,
      alookup (adjustFlows cycle theta flows) ce.edge.edge_id =
        some (roundFlowValue
          (match ce.sign with
           | .plus => alookupD flows ce.edge.edge_id 0 + theta
           | .minus => alookupD flows ce.edge.edge_id 0 - theta)
          ce.edge.capacity) := by
  induction cycle generalizing flows with
  | nil => simp
  | cons ce0 rest ih =>
    intro ce hce
    simp only [List.map_cons, List.nodup_cons] at hnodup
    obtain ⟨hnotin, hnodup'⟩ := hnodup
    rcases List.mem_cons.mp hce with rfl | hmem
    · show alookup (adjustFlows rest theta (adjustStep theta flows ce)) _ = _
      rw [adjustFlows_unchanged rest theta _ ce.edge.edge_id hnotin]
      unfold adjustStep
      rw [alookup_aset, if_pos rfl]
    · have hne : ce.edge.edge_id ≠ ce0.edge.edge_id := by
        intro hc
        exact hnotin (hc ▸ List.mem_map_of_mem (fun c => c.edge.edge_id) hmem)
      show alookup (adjustFlows rest theta (adjustStep theta flows ce0)) _ = _
      rw [ih _ hnodup' ce hmem]
      unfold adjustStep
      rw [alookupD, alookup_aset, if_neg hne, ← alookupD]

theorem mem_setAdd (l : List EdgeId) (x y : EdgeId) :
    y ∈ setAdd l x ↔ y ∈ l ∨ y = x := by
  unfold setAdd
  by_cases h : x ∈ l
  · rw [if_pos h]
    constructor
    · exact Or.inl
    · rintro (hy | rfl)
      · exact hy
      · exact h
  · rw [if_neg h]
    simp

theorem mem_setDiff (a b : List EdgeId) (x : EdgeId) :
    x ∈ setDiff a b ↔ x ∈ a ∧ x ∉ b := by
  unfold setDiff
  rw [List.mem_filter]
  simp

end FlowUpdater

/-- The corrected functional contract of `FlowUpdater.execute`: flows are
adjusted by `±theta` per sign and snapped, the basis is unchanged both for a
degenerate self-pivot (`entering = leaving`) and when the leaving edge is
absent, otherwise the leaving edge is removed and the entering edge added;
the non-basis set is the complement of the new basis. -/
def FlowUpdaterConclusion (g : Graph) (cycle : List CycleEdge) (theta : ℚ)
    (entering : EdgeId) (leaving : Option EdgeId) (basis : List EdgeId)
    (flows : List (EdgeId × ℚ))
    (result : List EdgeId × List EdgeId × List (EdgeId × ℚ)) : Prop :=
  ((cycle.map (fun ce => ce.edge.edge_id)).Nodup →
    ∀ ce ∈ cycle, alookup result.2.2 ce.edge.edge_id =
      some (FlowUpdater.roundFlowValue
        (match ce.sign with
         | .plus => alookupD flows ce.edge.edge_id 0 + theta
         | .minus => alookupD flows ce.edge.edge_id 0 - theta)
        ce.edge.capacity)) ∧
  (∀ id, id ∉ cycle.map (fun ce => ce.edge.edge_id) →
    alookup result.2.2 id = alookup flows id) ∧
  (leaving = some entering → result.1 = basis) ∧
  (leaving = none → result.1 = basis) ∧
  (∀ f, leaving = some f → f ≠ entering → basis.Nodup →
    ∀ x, x ∈ result.1 ↔ ((x ∈ basis ∧ x ≠ f) ∨ x = entering)) ∧
  (∀ x, x ∈ result.2.1 ↔ x ∈ FlowUpdater.allEdgeIds g ∧ x ∉ result.1)

/-- C3 (amended): contract of `FlowUpdater.execute` on every successful
call. -/
theorem flow_updater_contract (g : Graph) (cycle : List CycleEdge)
    (theta : ℚ) (entering : EdgeId) (leaving : Option EdgeId)
    (basis : List EdgeId) (flows : List (EdgeId × ℚ))
    (result : List EdgeId × List EdgeId × List (EdgeId × ℚ))
    (hexec : FlowUpdater.execute g cycle theta entering leaving basis flows =
      some result) :
    FlowUpdaterConclusion g cycle theta entering leaving basis flows
      result := by
  unfold FlowUpdater.execute at hexec
  cases hub : FlowUpdater.updateBasis g entering leaving basis with
  | none => rw [hub] at hexec; exact absurd hexec (by simp)
  | some bnb =>
    obtain ⟨b, nb⟩ := bnb
    rw [hub] at hexec
    dsimp only at hexec
    obtain rfl : (b, nb, FlowUpdater.adjustFlows cycle theta flows) =
        result := Option.some.injEq .. ▸ hexec
    refine ⟨?_, ?_, ?_, ?_, ?_, ?_⟩
    · intro hnodup ce hce
      exact FlowUpdater.adjustFlows_spec cycle theta flows hnodup ce hce
    · intro id hid
      exact FlowUpdater.adjustFlows_unchanged cycle theta flows id hid
    · intro hl
      unfold FlowUpdater.updateBasis at hub
      rw [if_pos hl] at hub
      exact (congrArg Prod.fst (Option.some.injEq .. ▸ hub)).symm
    · intro hl
      subst hl
      unfold FlowUpdater.updateBasis at hub
      rw [if_neg (by simp)] at hub
      exact (congrArg Prod.fst (Option.some.injEq .. ▸ hub)).symm
    · intro f hl hne hbnodup x
      subst hl
      unfold FlowUpdater.updateBasis at hub
      rw [if_neg (by simpa using hne)] at hub
      dsimp only at hub
      cases hrm : FlowUpdater.setRemove basis f with
      | none => rw [hrm] at hub; exact absurd hub (by simp)
      | some removed =>
        rw [hrm] at hub
        dsimp only at hub
        have hb : FlowUpdater.setAdd removed entering = b :=
          congrArg Prod.fst (Option.some.injEq .. ▸ hub)
        unfold FlowUpdater.setRemove at hrm
        by_cases hfmem : f ∈ basis
        · rw [if_pos hfmem] at hrm
          have hrem : basis.erase f = removed :=
            Option.some.injEq .. ▸ hrm
          rw [← hb, FlowUpdater.mem_setAdd, ← hrem,
            List.Nodup.mem_erase_iff hbnodup]
          constructor
          · rintro (⟨hxf, hxb⟩ | rfl)
            · exact Or.inl ⟨hxb, hxf⟩
            · exact Or.inr rfl
          · rintro (⟨hxb, hxf⟩ | rfl)
            · exact Or.inl ⟨hxf, hxb⟩
            · exact Or.inr rfl
        · rw [if_neg hfmem] at hrm
          exact absurd hrm (by simp)
    · intro x
      have hnb : FlowUpdater.setDiff (FlowUpdater.allEdgeIds g) b = nb := by
        unfold FlowUpdater.updateBasis at hub
        by_cases h1 : leaving = some entering
        · rw [if_pos h1] at hub
          obtain ⟨hb', hnb'⟩ := Prod.mk.injEq .. ▸ (Option.some.injEq .. ▸ hub)
          rw [← hb']
          exact hnb'
        · rw [if_neg h1] at hub
          cases hlv : leaving with
          | none =>
            rw [hlv] at hub
            dsimp only at hub
            obtain ⟨hb', hnb'⟩ :=
              Prod.mk.injEq .. ▸ (Option.some.injEq .. ▸ hub)
            rw [← hb']
            exact hnb'
          | some f =>
            rw [hlv] at hub
            dsimp only at hub
            cases hrm : FlowUpdater.setRemove basis f with
            | none => rw [hrm] at hub; exact absurd hub (by simp)
            | some removed =>
              rw [hrm] at hub
              dsimp only at hub
              obtain ⟨hb', hnb'⟩ :=
                Prod.mk.injEq .. ▸ (Option.some.injEq .. ▸ hub)
              rw [← hb']
              exact hnb'
      rw [← hnb, FlowUpdater.mem_setDiff]

/-- Concrete graph for the flow-updater counterexample and witness. -/
def gC3 : Graph :=
  ⟨[("a", 0), ("b", 0)],
   [(("a", "b"), ⟨"a", "b", 0, .inf⟩), (("b", "a"), ⟨"b", "a", 0, .inf⟩)]⟩

/-- C3 counterexample: with an absent leaving edge (`None`) and an entering
edge different from it, the returned basis is unchanged and does **not**
contain the entering edge, contradicting the claim's "otherwise the returned
basis is the current basis with the leaving edge removed and the entering
edge added". -/
theorem flow_updater_claim_counterexample :
    (FlowUpdater.execute gC3 [⟨⟨"a", "b", 0, .inf⟩, .plus, .inf⟩] 0
        ("a", "b") none [("b", "a")] []).map (fun r => r.1) =
      some [("b", "a")] ∧
    (none : Option EdgeId) ≠ some ("a", "b") ∧
    ("a", "b") ∉ [(("b", "a") : EdgeId)] := by
  refine ⟨by decide, by decide, by decide⟩

/-- Witness for `flow_updater_contract` at a concrete swap pivot. -/
theorem flow_updater_contract_witness :
    FlowUpdaterConclusion gC3 [⟨⟨"a", "b", 0, .inf⟩, .plus, .fin 2⟩] 2
      ("a", "b") (some ("b", "a")) [("b", "a")] [(("b", "a"), 2)]
      ([("a", "b")], [("b", "a")], [(("b", "a"), 2), (("a", "b"), 2)]) :=
  flow_updater_contract gC3 [⟨⟨"a", "b", 0, .inf⟩, .plus, .fin 2⟩] 2
    ("a", "b") (some ("b", "a")) [("b", "a")] [(("b", "a"), 2)]
    ([("a", "b")], [("b", "a")], [(("b", "a"), 2), (("a", "b"), 2)])
    (by decide)

/-! ## C7: Graph.add_edge and capacity validation -/

/-- Base graph with two nodes used for the `add_edge` claims. -/
def gC7base : Graph := ⟨[("a", 0), ("b", 0)], []⟩

/-- C7 counterexample: `add_edge` with a negative capacity succeeds and
stores the edge (capacity is never inspected), contradicting the claim that
such calls fail. -/
theorem add_edge_negative_capacity_counterexample :
    gC7base.add_edge "a" "b" 0 (.fin (-1)) =
      .ok ⟨[("a", 0), ("b", 0)],
           [(("a", "b"), ⟨"a", "b", 0, .fin (-1)⟩)]⟩ ∧
    ((-1 : ℚ) < 0) := by
  refine ⟨by decide, by decide⟩

/-- The corrected contract of `Graph.add_edge`: the only rejections are
unknown endpoints and duplicate directed pairs; on success the edge is
stored with exactly the given capacity, whatever its sign. -/
def AddEdgeConclusion (g : Graph) (a b : String) (cost : ℚ) (cap : Val) :
    Prop :=
  ((alookup g.nodes a = none ∨ alookup g.nodes b = none) →
    g.add_edge a b cost cap = .error .unknownNode) ∧
  ((alookup g.nodes a).isSome → (alookup g.nodes b).isSome →
    ((alookup g.edges (a, b)).isSome →
      g.add_edge a b cost cap = .error .duplicateEdge) ∧
    (alookup g.edges (a, b) = none →
      g.add_edge a b cost cap =
        .ok ⟨g.nodes, g.edges ++ [((a, b), ⟨a, b, cost, cap⟩)]⟩))

/-- C7 (amended): `Graph.add_edge` validates only endpoint existence and
duplicate pairs; a negative capacity is accepted and stored unchanged. -/
theorem add_edge_contract (g : Graph) (a b : String) (cost : ℚ) (cap : Val) :
    AddEdgeConclusion g a b cost cap := by
  refine ⟨?_, ?_⟩
  · intro h
    unfold Graph.add_edge
    rcases h with h | h
    · rw [if_pos (by rw [h]; rfl)]
    · by_cases ha : (alookup g.nodes a).isNone
      · rw [if_pos ha]
      · rw [if_neg ha, if_pos (by rw [h]; rfl)]
  · intro ha hb
    have ha' : ¬ (alookup g.nodes a).isNone := by
      rw [Option.isNone_iff_eq_none]
      intro hc
      rw [hc] at ha
      exact absurd ha (by simp)
    have hb' : ¬ (alookup g.nodes b).isNone := by
      rw [Option.isNone_iff_eq_none]
      intro hc
      rw [hc] at hb
      exact absurd hb (by simp)
    constructor
    · intro hdup
      unfold Graph.add_edge
      rw [if_neg ha', if_neg hb', if_pos hdup]
    · intro hnew
      unfold Graph.add_edge
      rw [if_neg ha', if_neg hb', if_neg (by rw [hnew]; simp)]

/-- Witness for `add_edge_contract` with a concrete negative capacity. -/
theorem add_edge_contract_witness :
    AddEdgeConclusion gC7base "a" "b" 0 (.fin (-1)) :=
  add_edge_contract gC7base "a" "b" 0 (.fin (-1))
/-! ## PotentialCalculator (`strategies/potential_calculator.py`) -/

namespace PotentialCalculator

/-- The inner `for edge_id in basis_edges` scan of `_traverse_basis_tree`:
threads potentials, visited set and queue; `none` models the failed
`assert edge is not None`. -/
def processEdges (g : Graph) (current : String) (cp : ℚ) :
    List EdgeId → List (String × ℚ) → List String → List String →
    Option (List (String × ℚ) × List String × List String)
  | [], pots, vis, q => some (pots, vis, q)
  | id :: rest, pots, vis, q =>
    match g.get_edge id.1 id.2 with
    | none => none
    | some e =>
      if e.from_node = current ∧ e.to_node ∉ vis then
        processEdges g current cp rest (aset pots e.to_node (cp + e.cost))
          (e.to_node :: vis) (q ++ [e.to_node])
      else if e.to_node = current ∧ e.from_node ∉ vis then
        processEdges g current cp rest (aset pots e.from_node (cp - e.cost))
          (e.from_node :: vis) (q ++ [e.from_node])
      else
        processEdges g current cp rest pots vis q

/-- The `while queue` loop of `_traverse_basis_tree`, fuel-indexed.  Each
loop iteration pops one element; since every enqueued node is first added to
`visited`, the number of iterations is bounded and the fuel passed by
`execute` is sufficient, so the fuel is an implementation device only. -/
def bfsLoop (g : Graph) (basis : List EdgeId) :
    ℕ → List (String × ℚ) → List String → List String →
    Option (List (String × ℚ))
  | _, pots, _, [] => some pots
  | 0, _, _, _ :: _ => none
  | fuel + 1, pots, vis, current :: qrest =>
    match alookup pots current with
    | none => none
    | some cp =>
      match processEdges g current cp basis pots vis qrest with
      | none => none
      | some (pots', vis', q') => bfsLoop g basis fuel pots' vis' q'

/-- `PotentialCalculator.execute`: BFS from the first inserted node
(`next(iter(graph.nodes.keys()))`; `none` models the `StopIteration` on an
empty graph). -/
def execute (g : Graph) (basis : List EdgeId) :
    Option (List (String × ℚ)) :=
  match g.nodes with
  | [] => none
  | (root, _) :: _ =>
    bfsLoop g basis (g.nodes.length + 2 * basis.length + 1)
      [(root, 0)] [root] [root]

end PotentialCalculator

/-! ## CycleFinder (`strategies/cycle_finder.py`) -/

/-- The role of an edge inside `_get_sign_and_limit`:
`"entering"`, `"forward"` or `"backward"`. -/
inductive CEdgeType where
  | entering
  | forward
  | backward
  deriving DecidableEq, Repr

namespace CycleFinder

/-- An adjacency entry `(neighbor, edge, is_forward)`. -/
abbrev AdjEntry := String × EdgeRec × Bool

/-- Python `adjacency[k].append(x)` (`none` on a missing key). -/
def aappend (k : String) (x : AdjEntry) :
    List (String × List AdjEntry) → Option (List (String × List AdjEntry))
  | [] => none
  | (k', xs) :: rest =>
    if k' = k then some ((k', xs ++ [x]) :: rest)
    else (aappend k x rest).map ((k', xs) :: ·)

/-- `_build_adjacency`: dict keyed by every node, then one forward and one
backward entry per basis edge. -/
def buildAdjacency (g : Graph) (basis : List EdgeId) :
    Option (List (String × List AdjEntry)) :=
  let init := g.nodes.map (fun p => (p.1, ([] : List AdjEntry)))
  basis.foldl
    (fun acc id =>
      match acc with
      | none => none
      | some adj =>
        match g.get_edge id.1 id.2 with
        | none => none
        | some e =>
          match aappend e.from_node (e.to_node, e, true) adj with
          | none => none
          | some adj1 => aappend e.to_node (e.from_node, e, false) adj1)
    (some init)

/-- `_dfs_search`, fuel-indexed and defunctionalized: `.inl` is a call
`dfs(current, target)`, `.inr` is the neighbour loop over the remaining
adjacency entries.  The outer `Option` is fuel exhaustion or a `KeyError`;
the inner `Option` is "path found" vs "dead end".  The fuel passed by
`execute` dominates the number of Python-side calls and loop steps, so it is
an implementation device only. -/
def dfsGo (adj : List (String × List AdjEntry)) (target : String) :
    ℕ → (String × List String) ⊕ (List AdjEntry × List String) →
    Option (Option (List (EdgeRec × Bool)) × List String)
  | 0, _ => none
  | fuel + 1, .inl (current, vis) =>
    if current = target then some (some [], vis)
    else
      match alookup adj current with
      | none => none
      | some entries => dfsGo adj target fuel (.inr (entries, current :: vis))
  | _ + 1, .inr ([], vis) => some (none, vis)
  | fuel + 1, .inr ((nbr, e, fwd) :: rest, vis) =>
    if nbr ∈ vis then dfsGo adj target fuel (.inr (rest, vis))
    else
      match dfsGo adj target fuel (.inl (nbr, vis)) with
      | none => none
      | some (some p, vis') => some (some ((e, fwd) :: p), vis')
      | some (none, vis') => dfsGo adj target fuel (.inr (rest, vis'))

/-- Fuel bound used by `execute`. -/
def dfsFuel (g : Graph) (basis : List EdgeId) : ℕ :=
  (g.nodes.length + 2 * basis.length + 2) * (g.nodes.length + 2)

/-- `_find_tree_path`: DFS from the entering edge's `to` node toward its
`from` node; an unfound path is the empty list, as in the source where
`path` stays `[]` when `_dfs_search` returns `False`. -/
def findTreePath (g : Graph) (adj : List (String × List AdjEntry))
    (basis : List EdgeId) (entering : EdgeId) :
    Option (List (EdgeRec × Bool)) :=
  match dfsGo adj entering.1 (dfsFuel g basis) (.inl (entering.2, [])) with
  | none => none
  | some (some p, _) => some p
  | some (none, _) => some []

/-- `_get_sign_and_limit`. -/
def getSignAndLimit (e : EdgeRec) (ty : CEdgeType) (dir : Direction)
    (flows : List (EdgeId × ℚ)) : Sign × Val :=
  let flow := alookupD flows e.edge_id 0
  match dir with
  | .increase =>
    match ty with
    | .entering | .forward => (.plus, e.capacity.subQ flow)
    | .backward => (.minus, .fin flow)
  | .decrease =>
    match ty with
    | .entering | .forward => (.minus, .fin flow)
    | .backward => (.plus, e.capacity.subQ flow)

/-- `_create_entering_cycle_edge` / `_create_tree_cycle_edge`. -/
def mkCycleEdge (e : EdgeRec) (ty : CEdgeType) (dir : Direction)
    (flows : List (EdgeId × ℚ)) : CycleEdge :=
  let sl := getSignAndLimit e ty dir flows
  ⟨e, sl.1, sl.2⟩

/-- `CycleFinder.execute`. -/
def execute (g : Graph) (basis : List EdgeId) (entering : EdgeId)
    (dir : Direction) (flows : List (EdgeId × ℚ)) :
    Option (List CycleEdge) :=
  match buildAdjacency g basis with
  | none => none
  | some adj =>
    match findTreePath g adj basis entering with
    | none => none
    | some path =>
      match g.get_edge entering.1 entering.2 with
      | none => none
      | some e =>
        some (mkCycleEdge e .entering dir flows ::
          path.map (fun pe =>
            mkCycleEdge pe.1 (if pe.2 then .forward else .backward) dir
              flows))

end CycleFinder
/-! ## Solver state machine (`solver/utils.py`, `solver/transport_solver.py`)

`SolutionState` omits the purely cosmetic `description` string (float
formatting is not reproducible over `ℚ` and no claim mentions it). -/

inductive StepType where
  | INITIAL_STATE
  | INITIAL_BASIS
  | CALCULATE_POTENTIALS
  | CHECK_OPTIMALITY
  | FIND_CYCLE
  | CALCULATE_THETA
  | UPDATE_FLOWS
  | OPTIMAL
  deriving DecidableEq, Repr

structure SolutionState where
  step_type : StepType := .INITIAL_STATE
  iteration : Int := -1
  basis_edges : Option (List EdgeId) := none
  non_basis_edges : Option (List EdgeId) := none
  potentials : Option (List (String × ℚ)) := none
  deltas : Option (List (EdgeId × ℚ)) := none
  flows : Option (List (EdgeId × ℚ)) := none
  entering_edge : Option EdgeId := none
  leaving_edge : Option EdgeId := none
  improvement_direction : Option Direction := none
  cycle : Option (List CycleEdge) := none
  theta : Option ℚ := none
  objective_value : ℚ := 0
  deriving DecidableEq, Repr

/-- `BasisResult` dataclass. -/
structure BasisResult where
  basis_edges : List EdgeId
  non_basis_edges : List EdgeId
  flows : List (EdgeId × ℚ)
  deriving DecidableEq, Repr

namespace TransportSolver

def MAX_ITERATIONS : ℕ := 1000

/-- `_calculate_objective_value`: `Σ cost · flow` over the flows dict;
`none` models the `ValueError` for an edge missing from the graph. -/
def objAux (g : Graph) : List (EdgeId × ℚ) → ℚ → Option ℚ
  | [], acc => some acc
  | (id, fl) :: rest, acc =>
    match g.get_edge id.1 id.2 with
    | none => none
    | some e => objAux g rest (acc + e.cost * fl)

def calculateObjectiveValue (g : Graph) (flows : List (EdgeId × ℚ)) :
    Option ℚ :=
  objAux g flows 0

/-- `_execute_initialization`, parameterized by the initialization
strategy's `execute` (`initFn`). -/
def execInitialization (g : Graph)
    (initFn : Graph → Except Err BasisResult) :
    Except Err SolutionState := do
  let r ← initFn g
  match calculateObjectiveValue g r.flows with
  | none => .error .internalError
  | some obj =>
    .ok { step_type := .INITIAL_BASIS, iteration := 0,
          basis_edges := some r.basis_edges,
          non_basis_edges := some r.non_basis_edges,
          potentials := some [], deltas := some [],
          flows := some r.flows, objective_value := obj }

/-- `_execute_potential_calculation` (failed `assert`s are
`internalError`). -/
def execPotentials (g : Graph) (iteration : ℕ) (s : SolutionState) :
    Except Err SolutionState :=
  match s.basis_edges, s.flows with
  | some basis, some flows =>
    match PotentialCalculator.execute g basis with
    | none => .error .internalError
    | some pots =>
      match calculateObjectiveValue g flows with
      | none => .error .internalError
      | some obj =>
        .ok { step_type := .CALCULATE_POTENTIALS, iteration := iteration,
              basis_edges := s.basis_edges,
              non_basis_edges := s.non_basis_edges,
              potentials := some pots, deltas := some [],
              flows := s.flows, objective_value := obj }
  | _, _ => .error .internalError

/-- `_execute_optimality_check`. -/
def execOptimality (g : Graph) (iteration : ℕ) (s : SolutionState) :
    Except Err SolutionState :=
  match s.non_basis_edges, s.potentials, s.flows with
  | some nonBasis, some pots, some flows =>
    match OptimalityChecker.execute g nonBasis pots flows with
    | none => .error .internalError
    | some result =>
      match calculateObjectiveValue g flows with
      | none => .error .internalError
      | some obj =>
        if result.is_optimal then
          .ok { step_type := .OPTIMAL, iteration := iteration,
                basis_edges := s.basis_edges,
                non_basis_edges := s.non_basis_edges,
                potentials := s.potentials, deltas := some result.deltas,
                flows := s.flows, objective_value := obj }
        else
          match result.entering_edge, result.improvement_direction with
          | some edge, some dir =>
            match alookup result.deltas edge with
            | none => .error .internalError
            | some _ =>
              .ok { step_type := .CHECK_OPTIMALITY, iteration := iteration,
                    basis_edges := s.basis_edges,
                    non_basis_edges := s.non_basis_edges,
                    potentials := s.potentials,
                    deltas := some result.deltas, flows := s.flows,
                    entering_edge := some edge,
                    improvement_direction := some dir,
                    objective_value := obj }
          | _, _ => .error .internalError
  | _, _, _ => .error .internalError

/-- `_execute_cycle_finding`. -/
def execCycle (g : Graph) (iteration : ℕ) (s : SolutionState) :
    Except Err SolutionState :=
  match s.basis_edges, s.entering_edge, s.improvement_direction,
      s.flows with
  | some basis, some entering, some dir, some flows =>
    match CycleFinder.execute g basis entering dir flows with
    | none => .error .internalError
    | some cycle =>
      match calculateObjectiveValue g flows with
      | none => .error .internalError
      | some obj =>
        .ok { step_type := .FIND_CYCLE, iteration := iteration,
              basis_edges := s.basis_edges,
              non_basis_edges := s.non_basis_edges,
              potentials := s.potentials, deltas := s.deltas,
              flows := s.flows, entering_edge := s.entering_edge,
              improvement_direction := s.improvement_direction,
              cycle := some cycle, objective_value := obj }
  | _, _, _, _ => .error .internalError

/-- `_execute_theta_calculation` (`basis_edges or set()` makes a missing
basis an empty set). -/
def execTheta (g : Graph) (iteration : ℕ) (s : SolutionState) :
    Except Err SolutionState :=
  match s.cycle, s.flows with
  | some cycle, some flows =>
    let tl := ThetaCalculator.execute cycle (s.basis_edges.getD [])
    match calculateObjectiveValue g flows with
    | none => .error .internalError
    | some obj =>
      .ok { step_type := .CALCULATE_THETA, iteration := iteration,
            basis_edges := s.basis_edges,
            non_basis_edges := s.non_basis_edges,
            potentials := s.potentials, deltas := s.deltas,
            flows := s.flows, entering_edge := s.entering_edge,
            leaving_edge := tl.2,
            improvement_direction := s.improvement_direction,
            cycle := s.cycle, theta := some tl.1, objective_value := obj }
  | _, _ => .error .internalError

/-- `_execute_flow_update`. -/
def execFlowUpdate (g : Graph) (iteration : ℕ) (s : SolutionState) :
    Except Err SolutionState :=
  match s.cycle, s.theta, s.entering_edge, s.basis_edges, s.flows with
  | some cycle, some theta, some entering, some basis, some flows =>
    match FlowUpdater.execute g cycle theta entering s.leaving_edge basis
        flows with
    | none => .error .internalError
    | some (newBasis, newNonBasis, newFlows) =>
      match calculateObjectiveValue g newFlows with
      | none => .error .internalError
      | some obj =>
        .ok { step_type := .UPDATE_FLOWS, iteration := iteration,
              basis_edges := some newBasis,
              non_basis_edges := some newNonBasis,
              potentials := some [], deltas := some [],
              flows := some newFlows, entering_edge := s.entering_edge,
              leaving_edge := s.leaving_edge, theta := s.theta,
              objective_value := obj }
  | _, _, _, _, _ => .error .internalError

/-- `TransportSolver.step`: one transition, returning the new current state
and iteration counter. -/
def stepCore (g : Graph) (initFn : Graph → Except Err BasisResult)
    (iteration : ℕ) (s : SolutionState) :
    Except Err (SolutionState × ℕ) :=
  if s.step_type = .OPTIMAL then .ok (s, iteration)
  else if MAX_ITERATIONS ≤ iteration then .error .iterationLimit
  else
    match s.step_type with
    | .INITIAL_STATE =>
      (execInitialization g initFn).map (fun st => (st, iteration))
    | .INITIAL_BASIS | .UPDATE_FLOWS =>
      (execPotentials g iteration s).map (fun st => (st, iteration))
    | .CALCULATE_POTENTIALS =>
      (execOptimality g iteration s).map (fun st => (st, iteration))
    | .CHECK_OPTIMALITY =>
      (execCycle g iteration s).map (fun st => (st, iteration))
    | .FIND_CYCLE =>
      (execTheta g iteration s).map (fun st => (st, iteration))
    | .CALCULATE_THETA =>
      (execFlowUpdate g iteration s).map (fun st => (st, iteration + 1))
    | .OPTIMAL => .ok (s, iteration)

/-- The `while self.iteration < MAX_ITERATIONS` loop of
`solve_step_by_step`; the fuel is `MAX_ITERATIONS - iteration`, so fuel 0 is
exactly the loop condition failing. -/
def solveLoop (g : Graph) :
    ℕ → ℕ → SolutionState → Except Err (SolutionState × ℕ)
  | 0, iteration, s => .ok (s, iteration)
  | fuel + 1, iteration, s => do
    let s1 ← execPotentials g iteration s
    let s2 ← execOptimality g iteration s1
    if s2.step_type = .OPTIMAL then .ok (s2, iteration)
    else do
      let s3 ← execCycle g iteration s2
      let s4 ← execTheta g iteration s3
      let s5 ← execFlowUpdate g iteration s4
      solveLoop g fuel (iteration + 1) s5

/-- `TransportSolver(graph, init).solve_step_by_step()` for a fresh solver:
run initialization, loop to optimality, and fail with the iteration-limit
error when the cap is reached. -/
def solveStepByStep (g : Graph)
    (initFn : Graph → Except Err BasisResult) :
    Except Err (SolutionState × ℕ) := do
  let s0 ← execInitialization g initFn
  let r ← solveLoop g MAX_ITERATIONS 0 s0
  if MAX_ITERATIONS ≤ r.2 then .error .iterationLimit
  else .ok r

end TransportSolver
/-! ## Initialization strategies (`strategies/initialization.py`) -/

/-- `PrebuiltInitializer.execute`: fixed basis and flows, non-basis is the
complement over all edge keys. -/
def PrebuiltInitializer.execute (basis : List EdgeId)
    (flows : List (EdgeId × ℚ)) (g : Graph) : BasisResult :=
  ⟨basis, FlowUpdater.setDiff g.edgeIds basis, flows⟩

namespace DisjointSet

/-- `DisjointSet.__init__`: each element is its own parent. -/
def init (elements : List String) : List (String × String) :=
  elements.map (fun e => (e, e))

/-- `DisjointSet.find` with path compression, fuel-indexed (the parent
chain of a forest visits distinct elements, so the fuel passed by callers,
one more than the number of elements, is sufficient; `none` also models a
`KeyError` on a missing element). -/
def find (fuel : ℕ) (parent : List (String × String)) (x : String) :
    Option (String × List (String × String)) :=
  match fuel with
  | 0 => none
  | fuel + 1 =>
    match alookup parent x with
    | none => none
    | some px =>
      if px = x then some (x, parent)
      else
        match find fuel parent px with
        | none => none
        | some (r, p') => some (r, aset p' x r)

/-- `DisjointSet.union`. -/
def union (fuel : ℕ) (parent : List (String × String)) (x y : String) :
    Option (Bool × List (String × String)) :=
  match find fuel parent x with
  | none => none
  | some (rx, p1) =>
    match find fuel p1 y with
    | none => none
    | some (ry, p2) =>
      if rx = ry then some (false, p2)
      else some (true, aset p2 rx ry)

end DisjointSet

namespace PhaseOneInitializer

def ROOT_NODE_ID : String := "__artificial_root__"

/-- `try_add_candidate` from `_rebuild_basis`. -/
def tryAddCandidate (fuel : ℕ) (parent : List (String × String))
    (basis : List EdgeId) (id : EdgeId) :
    Option (List (String × String) × List EdgeId) :=
  match DisjointSet.union fuel parent id.1 id.2 with
  | none => none
  | some (true, p') => some (p', FlowUpdater.setAdd basis id)
  | some (false, p') => some (p', basis)

/-- The `for edge_id in partial_basis` loop (no size check). -/
def rebuildAddAll (fuel : ℕ) :
    List EdgeId → List (String × String) → List EdgeId →
    Option (List (String × String) × List EdgeId)
  | [], p, b => some (p, b)
  | id :: rest, p, b =>
    match tryAddCandidate fuel p b id with
    | none => none
    | some (p', b') => rebuildAddAll fuel rest p' b'

/-- The second and third candidate loops: stop once the basis is large
enough; when `checkMem` is set, skip ids already in the basis. -/
def rebuildAddUntil (fuel : ℕ) (required : ℕ) (checkMem : Bool) :
    List EdgeId → List (String × String) → List EdgeId →
    Option (List (String × String) × List EdgeId)
  | [], p, b => some (p, b)
  | id :: rest, p, b =>
    if required ≤ b.length then some (p, b)
    else if checkMem ∧ id ∈ b then
      rebuildAddUntil fuel required checkMem rest p b
    else
      match tryAddCandidate fuel p b id with
      | none => none
      | some (p', b') => rebuildAddUntil fuel required checkMem rest p' b'

/-- `_rebuild_basis`. -/
def rebuildBasis (g : Graph) (partialBasis : List EdgeId)
    (flows : List (EdgeId × ℚ)) : Except Err (List EdgeId) :=
  let required := g.nodes.length - 1
  let node_ids := g.nodeIds
  let fuel := node_ids.length + 1
  match rebuildAddAll fuel partialBasis (DisjointSet.init node_ids) [] with
  | none => .error .internalError
  | some (p1, b1) =>
    let step2 :=
      if b1.length < required then
        let candidates := g.edgeIds.filter
          (fun id => decide (id ∉ b1) &&
            decide (EPSILON < alookupD flows id 0))
        rebuildAddUntil fuel required false candidates p1 b1
      else some (p1, b1)
    match step2 with
    | none => .error .internalError
    | some (p2, b2) =>
      let step3 :=
        if b2.length < required then
          rebuildAddUntil fuel required true g.edgeIds p2 b2
        else some (p2, b2)
      match step3 with
      | none => .error .internalError
      | some (_, b3) =>
        if b3.length < required then .error .disconnected
        else .ok b3

/-- `sorted(graph.nodes.items())` (unique keys, so ordering is by id). -/
def sortNodeItems (l : List (String × ℚ)) : List (String × ℚ) :=
  l.insertionSort (fun a b => strLeB a.1 b.1 = true)

/-- `sorted(graph.edges.items())` (unique keys, so ordering is by id). -/
def sortEdgeItems (l : List (EdgeId × EdgeRec)) : List (EdgeId × EdgeRec) :=
  l.insertionSort (fun a b => idLe a.1 b.1)

/-- `_create_auxiliary_graph`. -/
def createAuxiliaryGraph (g : Graph) : Except Err Graph := do
  let aux ← Graph.empty.add_node ROOT_NODE_ID 0
  let aux ← (sortNodeItems g.nodes).foldlM
    (fun (acc : Graph) p => acc.add_node p.1 p.2) aux
  let aux ← (sortEdgeItems g.edges).foldlM
    (fun (acc : Graph) p =>
      acc.add_edge p.2.from_node p.2.to_node 0 p.2.capacity) aux
  let aux ← (sortNodeItems g.nodes).foldlM
    (fun (acc : Graph) p =>
      if EPSILON < p.2 then acc.add_edge p.1 ROOT_NODE_ID 1 .inf
      else acc.add_edge ROOT_NODE_ID p.1 1 .inf) aux
  pure aux

/-- `_setup_initial_state`. -/
def setupInitialState (g : Graph) : List EdgeId × List (EdgeId × ℚ) :=
  let flows0 := (sortIds g.edgeIds).map (fun id => (id, (0 : ℚ)))
  (sortNodeItems g.nodes).foldl
    (fun (acc : List EdgeId × List (EdgeId × ℚ)) p =>
      if EPSILON < p.2 then
        let id := (p.1, ROOT_NODE_ID)
        (FlowUpdater.setAdd acc.1 id, aset acc.2 id p.2)
      else
        let id := (ROOT_NODE_ID, p.1)
        (FlowUpdater.setAdd acc.1 id,
         if p.2 < -EPSILON then aset acc.2 id |p.2|
         else aset acc.2 id 0))
    ([], flows0)

/-- The nested phase-one solve: a fresh default solver over the auxiliary
graph, seeded by a `PrebuiltInitializer` with the artificial star basis. -/
def nestedSolve (aux : Graph) (initBasis : List EdgeId)
    (initFlows : List (EdgeId × ℚ)) : Except Err (SolutionState × ℕ) :=
  TransportSolver.solveStepByStep aux
    (fun ag => .ok (PrebuiltInitializer.execute initBasis initFlows ag))

/-- The bare `except:` around the nested solve: every error is replaced by
the single generic phase-one `RuntimeError`. -/
def handleNestedSolve (r : Except Err (SolutionState × ℕ)) :
    Except Err (SolutionState × ℕ) :=
  match r with
  | .error _ => .error .phaseOneFailure
  | .ok v => .ok v

/-- `_extract_original_solution`. -/
def extractOriginalSolution (g : Graph) (finalState : SolutionState) :
    Except Err BasisResult :=
  match finalState.flows with
  | none => .error .noSolution
  | some fflows =>
    let artificialFlow := fflows.foldl
      (fun acc p =>
        if p.1.1 = ROOT_NODE_ID ∨ p.1.2 = ROOT_NODE_ID then acc + p.2
        else acc) 0
    if EPSILON < artificialFlow then .error .infeasible
    else
      let originalEdges := g.edgeIds
      let flows := originalEdges.map (fun id => (id, alookupD fflows id 0))
      let basisPartial :=
        match finalState.basis_edges with
        | none => []
        | some bs =>
          bs.filter (fun id =>
            decide (¬ (id.1 = ROOT_NODE_ID ∨ id.2 = ROOT_NODE_ID)))
      match rebuildBasis g basisPartial flows with
      | .error e => .error e
      | .ok basis =>
        .ok ⟨basis, FlowUpdater.setDiff originalEdges basis, flows⟩

/-- `PhaseOneInitializer.execute`. -/
def execute (g : Graph) : Except Err BasisResult :=
  if EPSILON < |g.totalBalance| then .error .unbalanced
  else
    match createAuxiliaryGraph g with
    | .error e => .error e
    | .ok aux =>
      let bf := setupInitialState g
      match handleNestedSolve (nestedSolve aux bf.1 bf.2) with
      | .error e => .error e
      | .ok (finalState, _) => extractOriginalSolution g finalState

end PhaseOneInitializer

/-! ## Solver record and controller (`solver/controller.py`) -/

/-- The initialization strategy held by a solver: the default two-phase
initializer or a prebuilt (mock) one. -/
inductive InitStrategy where
  | phaseOne
  | prebuilt (basis : List EdgeId) (flows : List (EdgeId × ℚ))
  deriving DecidableEq, Repr

def initFnOf : InitStrategy → Graph → Except Err BasisResult
  | .phaseOne => PhaseOneInitializer.execute
  | .prebuilt b f => fun g => .ok (PrebuiltInitializer.execute b f g)

/-- The mutable state of a `TransportSolver` instance (the `history` list is
written only by `solve_step_by_step` and read by no claim, so it is
omitted). -/
structure Solver where
  graph : Graph
  init : InitStrategy
  iteration : ℕ
  current : SolutionState
  deriving DecidableEq, Repr

/-- `TransportSolver.__init__` with default strategies. -/
def Solver.mkDefault (g : Graph) : Solver := ⟨g, .phaseOne, 0, {}⟩

/-- `TransportSolver.step` acting on a solver record. -/
def Solver.step (s : Solver) : Except Err Solver :=
  (TransportSolver.stepCore s.graph (initFnOf s.init) s.iteration
    s.current).map (fun r => { s with current := r.1, iteration := r.2 })

/-- `SolverController`.  In the source, `_initial_solver` aliases the
externally supplied solver object, so after any number of (mutating) steps
`reset` reinstalls the very same object with its current state; the Boolean
`external_initial` plus the single `solver` field model exactly that
aliasing. -/
structure SolverController where
  graph : Graph
  external_initial : Bool
  solver : Solver
  states : List SolutionState
  current_step : Int
  deriving DecidableEq, Repr

/-- `SolverController.__init__`. -/
def SolverController.make (g : Graph) (ext : Option Solver) :
    SolverController :=
  ⟨g, ext.isSome, ext.getD (Solver.mkDefault g), [], -1⟩

namespace SolverController

def is_started (c : SolverController) : Bool := decide (0 ≤ c.current_step)

def is_solved (c : SolverController) : Bool :=
  match c.states.getLast? with
  | none => false
  | some st => decide (st.step_type = .OPTIMAL)

def can_go_next (c : SolverController) : Bool :=
  decide (c.current_step < (c.states.length : Int) - 1) || !(is_solved c)

def can_go_prev (c : SolverController) : Bool := decide (0 ≤ c.current_step)

def get_current_state (c : SolverController) : SolutionState :=
  if 0 ≤ c.current_step ∧ c.current_step < (c.states.length : Int) then
    c.states.getD c.current_step.toNat {}
  else {}

def get_step_count (c : SolverController) : ℕ := c.states.length

/-- `next_step` (the appended state is always truthy in Python, so the
`if state:` guard always passes). -/
def next_step (c : SolverController) : Except Err SolverController :=
  if ¬ can_go_next c then .ok c
  else if (c.states.length : Int) - 1 ≤ c.current_step then
    match c.solver.step with
    | .error e => .error e
    | .ok sv' =>
      .ok { c with
            solver := sv',
            states := c.states ++ [sv'.current],
            current_step := (c.states.length : Int) }
  else .ok { c with current_step := c.current_step + 1 }

def prev_step (c : SolverController) : SolverController :=
  if ¬ can_go_prev c then c
  else { c with current_step := c.current_step - 1 }

/-- `reset`: clear history and cursor; `self.solver = self._initial_solver
or TransportSolver(self.graph)` — with an external solver this reinstalls
the same (aliased, possibly already stepped) instance, otherwise it builds
a fresh default solver. -/
def reset (c : SolverController) : SolverController :=
  { c with
    states := [],
    current_step := -1,
    solver := if c.external_initial then c.solver
      else Solver.mkDefault c.graph }

end SolverController
/-! ## C5, C9, C10: phase-one gate, scenario, error collapsing -/

/-- C5 (amended): whenever `|Σ balance|` strictly exceeds ε, phase-one
initialization fails immediately with the `Unbalanced` error. -/
theorem unbalanced_gate (g : Graph)
    (h : EPSILON < |g.totalBalance|) :
    PhaseOneInitializer.execute g = .error .unbalanced := by
  unfold PhaseOneInitializer.execute
  rw [if_pos h]

/-- Single-node graph whose total balance is exactly ε. -/
def gC5eps : Except Err Graph := Graph.empty.add_node "a" EPSILON

/-- Witness for `unbalanced_gate` at a concrete unbalanced graph. -/
theorem unbalanced_gate_witness :
    PhaseOneInitializer.execute ⟨[("a", 1)], []⟩ = .error .unbalanced :=
  unbalanced_gate ⟨[("a", 1)], []⟩ (by decide)

/-- C5 counterexample: at `|Σ balance| = ε` exactly (so `≥ ε` as the claim
requires), the strict `>` test in the source does not fire and
initialization runs to completion without the `Unbalanced` error. -/
theorem unbalanced_boundary_counterexample :
    ∃ g r, gC5eps = .ok g ∧ EPSILON ≤ |g.totalBalance| ∧
      PhaseOneInitializer.execute g = .ok r := by
  refine ⟨⟨[("a", EPSILON)], []⟩, ⟨[], [], []⟩, by decide, by decide,
    by decide⟩

/-- The balanced 2×2 assignment graph of the scenario claim, built through
the construction API. -/
def gC9build : Except Err Graph := do
  let g ← Graph.empty.add_node "A1" 10
  let g ← g.add_node "A2" 10
  let g ← g.add_node "B1" (-10)
  let g ← g.add_node "B2" (-10)
  let g ← g.add_edge "A1" "B1" 1 .inf
  let g ← g.add_edge "A1" "B2" 4 .inf
  let g ← g.add_edge "A2" "B1" 4 .inf
  let g ← g.add_edge "A2" "B2" 1 .inf
  pure g

/-- C9: the balanced assignment scenario (supplies 10/10, demands 10/10,
costs `[[1,4],[4,1]]`, infinite capacities) solves to an `OPTIMAL` snapshot
with objective value 20 and a basis of exactly 3 edges. -/
theorem balanced_assignment_scenario :
    ∃ g final iters, gC9build = .ok g ∧
      TransportSolver.solveStepByStep g PhaseOneInitializer.execute =
        .ok (final, iters) ∧
      final.step_type = .OPTIMAL ∧ final.objective_value = 20 ∧
      final.basis_edges.map List.length = some 3 := by
  refine ⟨⟨[("A1", 10), ("A2", 10), ("B1", -10), ("B2", -10)],
    [(("A1", "B1"), ⟨"A1", "B1", 1, .inf⟩),
     (("A1", "B2"), ⟨"A1", "B2", 4, .inf⟩),
     (("A2", "B1"), ⟨"A2", "B1", 4, .inf⟩),
     (("A2", "B2"), ⟨"A2", "B2", 1, .inf⟩)]⟩, ?_⟩
  have h : (TransportSolver.solveStepByStep
        ⟨[("A1", 10), ("A2", 10), ("B1", -10), ("B2", -10)],
         [(("A1", "B1"), ⟨"A1", "B1", 1, .inf⟩),
          (("A1", "B2"), ⟨"A1", "B2", 4, .inf⟩),
          (("A2", "B1"), ⟨"A2", "B1", 4, .inf⟩),
          (("A2", "B2"), ⟨"A2", "B2", 1, .inf⟩)]⟩
        PhaseOneInitializer.execute).map
        (fun r => (r.1.step_type, r.1.objective_value,
          r.1.basis_edges.map List.length, r.2)) =
        .ok (.OPTIMAL, 20, some 3, 1) := by decide
  cases hs : TransportSolver.solveStepByStep
        ⟨[("A1", 10), ("A2", 10), ("B1", -10), ("B2", -10)],
         [(("A1", "B1"), ⟨"A1", "B1", 1, .inf⟩),
          (("A1", "B2"), ⟨"A1", "B2", 4, .inf⟩),
          (("A2", "B1"), ⟨"A2", "B1", 4, .inf⟩),
          (("A2", "B2"), ⟨"A2", "B2", 1, .inf⟩)]⟩
        PhaseOneInitializer.execute with
  | error e => rw [hs] at h; exact absurd h (by simp [Except.map])
  | ok r =>
    rw [hs] at h
    simp only [Except.map, Except.ok.injEq, Prod.mk.injEq] at h
    exact ⟨r.1, r.2, by decide, rfl, h.1, h.2.1, h.2.2.1⟩

/-- C10: the bare `except:` in `PhaseOneInitializer.execute` replaces every
error of the nested phase-one solve by the single generic phase-one failure,
so the caller cannot distinguish the original error kind. -/
theorem phase_one_error_collapsing (g aux : Graph)
    (hbal : ¬ EPSILON < |g.totalBalance|)
    (haux : PhaseOneInitializer.createAuxiliaryGraph g = .ok aux) :
    (PhaseOneInitializer.execute g =
      match PhaseOneInitializer.handleNestedSolve
          (PhaseOneInitializer.nestedSolve aux
            (PhaseOneInitializer.setupInitialState g).1
            (PhaseOneInitializer.setupInitialState g).2) with
      | .error e => .error e
      | .ok (fs, _) =>
        PhaseOneInitializer.extractOriginalSolution g fs) ∧
    (∀ e, PhaseOneInitializer.handleNestedSolve (.error e) =
      .error .phaseOneFailure) := by
  constructor
  · unfold PhaseOneInitializer.execute
    rw [if_neg hbal, haux]
  · intro e
    rfl

/-- Witness for `phase_one_error_collapsing` at the empty graph (whose
auxiliary graph is the artificial root alone), instantiating the collapsed
error with the iteration-limit kind. -/
theorem phase_one_error_collapsing_witness :
    ((PhaseOneInitializer.execute Graph.empty =
      match PhaseOneInitializer.handleNestedSolve
          (PhaseOneInitializer.nestedSolve
            ⟨[(PhaseOneInitializer.ROOT_NODE_ID, 0)], []⟩
            (PhaseOneInitializer.setupInitialState Graph.empty).1
            (PhaseOneInitializer.setupInitialState Graph.empty).2) with
      | .error e => .error e
      | .ok (fs, _) =>
        PhaseOneInitializer.extractOriginalSolution Graph.empty fs) ∧
    (∀ e, PhaseOneInitializer.handleNestedSolve (.error e) =
      .error .phaseOneFailure)) ∧
    PhaseOneInitializer.handleNestedSolve (.error .iterationLimit) =
      .error .phaseOneFailure := by
  have h := phase_one_error_collapsing Graph.empty
    ⟨[(PhaseOneInitializer.ROOT_NODE_ID, 0)], []⟩ (by decide) (by decide)
  exact ⟨h, h.2 .iterationLimit⟩

/-! ## C6: reset; C8: replay idempotence -/

/-- The corrected contract of `reset`: history cleared, cursor −1, sentinel
current state; the solver is rebuilt fresh only when no external solver was
supplied — an externally supplied solver is reinstalled as-is (aliased),
with whatever internal state it has reached. -/
def ResetConclusion (c : SolverController) : Prop :=
  c.reset.states = [] ∧
  c.reset.current_step = -1 ∧
  c.reset.get_current_state = {} ∧
  c.reset.get_current_state.step_type = .INITIAL_STATE ∧
  c.reset.solver =
    (if c.external_initial then c.solver else Solver.mkDefault c.graph) ∧
  (c.external_initial = false →
    c.reset.solver.current.step_type = .INITIAL_STATE ∧
    c.reset.solver.iteration = 0)

/-- C6 (amended): behaviour of `SolverController.reset`. -/
theorem reset_contract (c : SolverController) : ResetConclusion c := by
  refine ⟨rfl, rfl, ?_, ?_, rfl, ?_⟩
  · unfold SolverController.get_current_state SolverController.reset
    simp
  · unfold SolverController.get_current_state SolverController.reset
    simp
  · intro hext
    unfold SolverController.reset
    rw [hext]
    exact ⟨rfl, rfl⟩

/-- Two-node balanced graph used for the controller claims. -/
def gC6 : Graph :=
  ⟨[("a", 1), ("b", -1)], [(("a", "b"), ⟨"a", "b", 1, .inf⟩)]⟩

/-- C6 counterexample: a controller built around an externally supplied
solver that has already performed one step (reaching `INITIAL_BASIS`).
After `reset`, the very next `next_step` appends a `CALCULATE_POTENTIALS`
snapshot — the external solver resumed from its mutated state — whereas a
solver rebuilt from the initialization strategy would produce
`INITIAL_BASIS` first, as the fresh solver's first step shows. -/
theorem reset_external_counterexample :
    ((Solver.mkDefault gC6).step.map (fun sv1 =>
      ((SolverController.make gC6 (some sv1)).reset.next_step).map
        (fun c' => c'.states.map (fun s => s.step_type)))) =
      .ok (.ok [.CALCULATE_POTENTIALS]) ∧
    ((Solver.mkDefault gC6).step.map (fun svf =>
      svf.current.step_type)) = .ok .INITIAL_BASIS ∧
    StepType.CALCULATE_POTENTIALS ≠ StepType.INITIAL_BASIS := by
  refine ⟨by decide, by decide, by decide⟩

/-- Witness for `reset_contract` at a concrete controller with an external
solver. -/
theorem reset_contract_witness :
    ResetConclusion (SolverController.make gC6
      (some (Solver.mkDefault gC6))) :=
  reset_contract (SolverController.make gC6 (some (Solver.mkDefault gC6)))

/-- `k` applications of `prev_step`. -/
def prevIter : ℕ → SolverController → SolverController
  | 0, c => c
  | k + 1, c => prevIter k c.prev_step

/-- `k` applications of `next_step`, propagating solver errors. -/
def nextIterE : ℕ → SolverController → Except Err SolverController
  | 0, c => .ok c
  | k + 1, c =>
    match c.next_step with
    | .error e => .error e
    | .ok c' => nextIterE k c'

/-- Cursor update helper for the replay lemmas. -/
def setCursor (c : SolverController) (v : Int) : SolverController :=
  { c with current_step := v }

theorem prevIter_formula (k : ℕ) (c : SolverController)
    (hk : (k : Int) ≤ c.current_step + 1) :
    prevIter k c = setCursor c (c.current_step - k) := by
  induction k generalizing c with
  | zero =>
    show c = setCursor c (c.current_step - 0)
    unfold setCursor
    rw [sub_zero]
  | succ k ih =>
    have hpos : 0 ≤ c.current_step := by
      have : ((k : Int) + 1) ≤ c.current_step + 1 := by
        exact_mod_cast hk
      omega
    have hprev : c.prev_step = setCursor c (c.current_step - 1) := by
      unfold SolverController.prev_step SolverController.can_go_prev
      rw [if_neg (by simp [hpos])]
      rfl
    show prevIter k c.prev_step = _
    rw [hprev, ih]
    · unfold setCursor
      simp only
      congr 1
      push_cast
      ring
    · unfold setCursor
      simp only
      push_cast at hk ⊢
      omega

theorem nextIterE_formula (k : ℕ) (c : SolverController)
    (hlen : c.current_step + (k : Int) < c.states.length) :
    nextIterE k c = .ok (setCursor c (c.current_step + k)) := by
  induction k generalizing c with
  | zero =>
    show Except.ok c = Except.ok (setCursor c (c.current_step + (0 : ℕ)))
    unfold setCursor
    rw [Nat.cast_zero, add_zero]
  | succ k ih =>
    have hlt : c.current_step < (c.states.length : Int) - 1 := by
      push_cast at hlen
      omega
    have hnext : c.next_step = .ok (setCursor c (c.current_step + 1)) := by
      unfold SolverController.next_step SolverController.can_go_next
      rw [if_neg (by simp [hlt]), if_neg (by omega)]
      rfl
    show (match c.next_step with
      | Except.error e => Except.error e
      | Except.ok c' => nextIterE k c') = _
    rw [hnext]
    dsimp only
    rw [ih]
    · unfold setCursor
      simp only
      congr 2
      push_cast
      ring
    · unfold setCursor
      simp only
      push_cast at hlen ⊢
      omega

/-- C8: replay idempotence — from any well-formed controller position
`c ≥ 0`, `k ≤ c + 1` applications of `prev_step` followed by `k`
applications of `next_step` return the controller to exactly its previous
state (same cursor, same history, same snapshot from
`get_current_state`, and an untouched solver — no recomputation). -/
theorem replay_idempotence (c : SolverController) (k : ℕ)
    (_h0 : 0 ≤ c.current_step)
    (hwf : c.current_step < (c.states.length : Int))
    (hk : (k : Int) ≤ c.current_step + 1) :
    nextIterE k (prevIter k c) = .ok c := by
  rw [prevIter_formula k c hk]
  rw [nextIterE_formula k (setCursor c (c.current_step - k))
    (by unfold setCursor; simp only; omega)]
  unfold setCursor
  simp only [sub_add_cancel]

/-- Witness for `replay_idempotence` at a concrete controller. -/
theorem replay_idempotence_witness :
    nextIterE 1 (prevIter 1
      (SolverController.mk gC6 false (Solver.mkDefault gC6) [{}] 0)) =
      .ok (SolverController.mk gC6 false (Solver.mkDefault gC6) [{}] 0) :=
  replay_idempotence
    (SolverController.mk gC6 false (Solver.mkDefault gC6) [{}] 0) 1
    (by decide) (by decide) (by decide)

/-! ## Undirected reachability over edge-id sets (infrastructure for the
spanning-tree basis invariant) -/

/-- One undirected step along an edge of `E` (edge ids are directed pairs;
both orientations connect their endpoints). -/
def stepRel (E : List EdgeId) (a b : String) : Prop :=
  (a, b) ∈ E ∨ (b, a) ∈ E

/-- Undirected reachability over the edges of `E`. -/
def reach (E : List EdgeId) : String → String → Prop :=
  Relation.ReflTransGen (stepRel E)

/-- Removal of one edge id, with set semantics. -/
def edel (E : List EdgeId) (x : EdgeId) : List EdgeId :=
  E.filter (fun y => decide (¬ y = x))

theorem mem_edel {E : List EdgeId} {x y : EdgeId} :
    y ∈ edel E x ↔ y ∈ E ∧ y ≠ x := by
  unfold edel
  rw [List.mem_filter]
  simp

theorem stepRel_symm {E : List EdgeId} {a b : String}
    (h : stepRel E a b) : stepRel E b a := h.symm

theorem reach_refl (E : List EdgeId) (a : String) : reach E a a :=
  Relation.ReflTransGen.refl

theorem reach_symm {E : List EdgeId} {a b : String} (h : reach E a b) :
    reach E b a :=
  Relation.ReflTransGen.symmetric (fun _ _ hs => stepRel_symm hs) h

theorem reach_trans {E : List EdgeId} {a b c : String} (h1 : reach E a b)
    (h2 : reach E b c) : reach E a c :=
  Relation.ReflTransGen.trans h1 h2

theorem reach_step {E : List EdgeId} {a b : String} (h : stepRel E a b) :
    reach E a b :=
  Relation.ReflTransGen.single h

theorem reach_mono {E E' : List EdgeId} (hsub : ∀ y ∈ E, y ∈ E')
    {a b : String} (h : reach E a b) : reach E' a b := by
  refine Relation.ReflTransGen.mono ?_ h
  intro x y hxy
  rcases hxy with h1 | h2
  · exact Or.inl (hsub _ h1)
  · exact Or.inr (hsub _ h2)

theorem reach_congr {E E' : List EdgeId}
    (h : ∀ y, y ∈ E ↔ y ∈ E') {a b : String} :
    reach E a b ↔ reach E' a b :=
  ⟨reach_mono (fun y hy => (h y).mp hy),
   reach_mono (fun y hy => (h y).mpr hy)⟩

/-- The workhorse: any reachability either survives the removal of an edge
`x`, or both endpoints connect (without `x`) to an endpoint of `x`. -/
theorem reach_touch {E : List EdgeId} {x : EdgeId} {a b : String}
    (h : reach E a b) :
    reach (edel E x) a b ∨
      ((reach (edel E x) a x.1 ∨ reach (edel E x) a x.2) ∧
       (reach (edel E x) b x.1 ∨ reach (edel E x) b x.2)) := by
  induction h with
  | refl => exact Or.inl (reach_refl _ _)
  | tail _hcb hstep ih =>
    rename_i c b
    by_cases hx : stepRel (edel E x) c b
    · rcases ih with hr | ⟨ha, hc⟩
      · exact Or.inl (reach_trans hr (reach_step hx))
      · refine Or.inr ⟨ha, ?_⟩
        rcases hc with h1 | h1
        · exact Or.inl (reach_trans (reach_symm (reach_step hx)) h1)
        · exact Or.inr (reach_trans (reach_symm (reach_step hx)) h1)
    · -- the step c—b uses exactly the removed edge x
      have hcb : (c = x.1 ∧ b = x.2) ∨ (b = x.1 ∧ c = x.2) := by
        rcases hstep with hm | hm
        · by_cases hcx : (c, b) = x
          · exact Or.inl ⟨congrArg Prod.fst hcx, congrArg Prod.snd hcx⟩
          · exact absurd (Or.inl (mem_edel.mpr ⟨hm, hcx⟩)) hx
        · by_cases hcx : (b, c) = x
          · exact Or.inr ⟨congrArg Prod.fst hcx, congrArg Prod.snd hcx⟩
          · exact absurd (Or.inr (mem_edel.mpr ⟨hm, hcx⟩)) hx
      have hbside : reach (edel E x) b x.1 ∨ reach (edel E x) b x.2 := by
        rcases hcb with ⟨-, rfl⟩ | ⟨rfl, -⟩
        · exact Or.inr (reach_refl _ _)
        · exact Or.inl (reach_refl _ _)
      have hcside : reach (edel E x) c x.1 ∨ reach (edel E x) c x.2 := by
        rcases hcb with ⟨rfl, -⟩ | ⟨-, rfl⟩
        · exact Or.inl (reach_refl _ _)
        · exact Or.inr (reach_refl _ _)
      rcases ih with hr | ⟨ha, -⟩
      · refine Or.inr ⟨?_, hbside⟩
        rcases hcside with h1 | h1
        · exact Or.inl (reach_trans hr h1)
        · exact Or.inr (reach_trans hr h1)
      · exact Or.inr ⟨ha, hbside⟩

/-- Acyclicity: no edge's endpoints stay connected once it is removed. -/
def Acyclic (E : List EdgeId) : Prop :=
  ∀ x ∈ E, ¬ reach (edel E x) x.1 x.2

theorem Acyclic.of_mem_subset {E E' : List EdgeId}
    (hsub : ∀ y ∈ E', y ∈ E) (hE : Acyclic E) : Acyclic E' := by
  intro x hx hr
  refine hE x (hsub x hx) ?_
  refine reach_mono ?_ hr
  intro y hy
  obtain ⟨hyE', hyx⟩ := mem_edel.mp hy
  exact mem_edel.mpr ⟨hsub y hyE', hyx⟩

theorem reach_of_mem {E : List EdgeId} {x : EdgeId} (hx : x ∈ E) :
    reach E x.1 x.2 :=
  reach_step (Or.inl (by cases x; exact hx))

/-- Adding an edge between two previously unconnected vertices keeps the
edge set acyclic. -/
theorem acyclic_insert {E : List EdgeId} {u v : String}
    (hacy : Acyclic E) (hnr : ¬ reach E u v) {E' : List EdgeId}
    (hmem : ∀ y, y ∈ E' ↔ y ∈ E ∨ y = (u, v)) : Acyclic E' := by
  have huv_notmem : (u, v) ∉ E := by
    intro hc
    exact hnr (reach_of_mem hc)
  intro x hxE' hr
  rcases (hmem x).mp hxE' with hxE | rfl
  · -- x is an old edge
    have hdelmem : ∀ y, y ∈ edel E' x ↔ y ∈ edel E x ∨ y = (u, v) := by
      intro y
      constructor
      · intro hy
        obtain ⟨hyE', hyx⟩ := mem_edel.mp hy
        rcases (hmem y).mp hyE' with hyE | rfl
        · exact Or.inl (mem_edel.mpr ⟨hyE, hyx⟩)
        · exact Or.inr rfl
      · intro hy
        rcases hy with hy | rfl
        · obtain ⟨hyE, hyx⟩ := mem_edel.mp hy
          exact mem_edel.mpr ⟨(hmem y).mpr (Or.inl hyE), hyx⟩
        · refine mem_edel.mpr ⟨(hmem (u, v)).mpr (Or.inr rfl), ?_⟩
          intro hc
          exact huv_notmem (hc ▸ hxE)
    -- remove (u,v) from the reach witness via the touch lemma
    have hr' : reach ((u, v) :: edel E x) x.1 x.2 := by
      refine reach_mono ?_ hr
      intro y hy
      rcases (hdelmem y).mp hy with h1 | rfl
      · exact List.mem_cons_of_mem _ h1
      · exact List.mem_cons_self _ _
    have htouch := reach_touch (x := (u, v)) hr'
    have hdel2 : ∀ y, y ∈ edel ((u, v) :: edel E x) (u, v) ↔
        y ∈ edel E x := by
      intro y
      constructor
      · intro hy
        obtain ⟨hyE, hyx⟩ := mem_edel.mp hy
        rcases List.mem_cons.mp hyE with rfl | h1
        · exact absurd rfl hyx
        · exact h1
      · intro hy
        refine mem_edel.mpr ⟨List.mem_cons_of_mem _ hy, ?_⟩
        intro hc
        exact huv_notmem (hc ▸ mem_edel.mp hy |>.1)
    rcases htouch with hr2 | ⟨h1side, h2side⟩
    · exact hacy x hxE ((reach_congr hdel2).mp hr2)
    · -- both endpoints of x connect to u or v in `edel E x`
      have h1side' : reach (edel E x) x.1 u ∨ reach (edel E x) x.1 v := by
        rcases h1side with h | h
        · exact Or.inl ((reach_congr hdel2).mp h)
        · exact Or.inr ((reach_congr hdel2).mp h)
      have h2side' : reach (edel E x) x.2 u ∨ reach (edel E x) x.2 v := by
        rcases h2side with h | h
        · exact Or.inl ((reach_congr hdel2).mp h)
        · exact Or.inr ((reach_congr hdel2).mp h)
      have hEdel : ∀ y ∈ edel E x, y ∈ E := fun y hy =>
        (mem_edel.mp hy).1
      rcases h1side' with h1 | h1 <;> rcases h2side' with h2 | h2
      · exact hacy x hxE (reach_trans h1 (reach_symm h2))
      · exact hnr (reach_trans (reach_mono hEdel (reach_symm h1))
          (reach_trans (reach_of_mem hxE) (reach_mono hEdel h2)))
      · exact hnr (reach_trans (reach_mono hEdel (reach_symm h2))
          (reach_trans (reach_symm (reach_of_mem hxE))
            (reach_mono hEdel h1)))
      · exact hacy x hxE (reach_trans h1 (reach_symm h2))
  · -- x is the new edge (u,v) itself
    have hdel : ∀ y, y ∈ edel E' (u, v) ↔ y ∈ E ∧ y ≠ (u, v) := by
      intro y
      rw [mem_edel]
      constructor
      · rintro ⟨hyE', hyx⟩
        rcases (hmem y).mp hyE' with h1 | rfl
        · exact ⟨h1, hyx⟩
        · exact absurd rfl hyx
      · rintro ⟨hyE, hyx⟩
        exact ⟨(hmem y).mpr (Or.inl hyE), hyx⟩
    refine hnr (reach_mono ?_ hr)
    intro y hy
    exact ((hdel y).mp hy).1

/-! ## Spanning-tree exchange: swapping a leaving tree edge for an entering
edge whose tree path crosses it -/

/-- Connectivity of an edge set over a vertex list. -/
def connOn (nodes : List String) (E : List EdgeId) : Prop :=
  ∀ a ∈ nodes, ∀ b ∈ nodes, reach E a b

/-- Exchange lemma.  `T` is a spanning tree over `nodes`; `f ∈ T` leaves and
the entering edge `(u, v)` enters.  The hypotheses `hp`/`hq`/`hpq` say that
the tree path from `v` to `u` crosses `f` exactly once (it reaches one
endpoint of `f` from `v` and continues from the other endpoint to `u`
without using `f`).  Then the swapped edge set is again a spanning tree. -/
theorem tree_exchange {nodes : List String} {T : List EdgeId}
    {f : EdgeId} {u v p q : String} {New : List EdgeId}
    (hconn : connOn nodes T) (hacy : Acyclic T) (hf : f ∈ T)
    (hp : reach (edel T f) v p) (hq : reach (edel T f) q u)
    (hpq : (p = f.1 ∧ q = f.2) ∨ (p = f.2 ∧ q = f.1))
    (hmem : ∀ y, y ∈ New ↔ (y ∈ T ∧ y ≠ f) ∨ y = (u, v)) :
    connOn nodes New ∧ Acyclic New := by
  have hDNew : ∀ y ∈ edel T f, y ∈ New := by
    intro y hy
    obtain ⟨h1, h2⟩ := mem_edel.mp hy
    exact (hmem y).mpr (Or.inl ⟨h1, h2⟩)
  -- separation: u and v are not connected once f is removed
  have hsep : ¬ reach (edel T f) u v := by
    intro hr
    rcases hpq with ⟨rfl, rfl⟩ | ⟨rfl, rfl⟩
    · exact hacy f hf (reach_trans (reach_symm hp)
        (reach_trans (reach_symm hr) (reach_symm hq)))
    · exact hacy f hf (reach_trans hq (reach_trans hr hp))
  have hacyD : Acyclic (edel T f) :=
    Acyclic.of_mem_subset (fun y hy => (mem_edel.mp hy).1) hacy
  have hmem' : ∀ y, y ∈ New ↔ y ∈ edel T f ∨ y = (u, v) := by
    intro y
    rw [hmem y, mem_edel]
  have hacyNew : Acyclic New := acyclic_insert hacyD hsep hmem'
  -- the new edge set reconnects the two sides of f
  have huvNew : (u, v) ∈ New := (hmem (u, v)).mpr (Or.inr rfl)
  have hf12 : reach New f.1 f.2 := by
    have huv : reach New u v := reach_of_mem huvNew
    rcases hpq with ⟨rfl, rfl⟩ | ⟨rfl, rfl⟩
    · exact reach_trans (reach_symm (reach_mono hDNew hp))
        (reach_trans (reach_symm huv)
          (reach_symm (reach_mono hDNew hq)))
    · exact reach_trans (reach_mono hDNew hq)
        (reach_trans huv (reach_mono hDNew hp))
  have hlift : ∀ a b, reach T a b → reach New a b := by
    intro a b hab
    rcases reach_touch (x := f) hab with h | ⟨ha, hb⟩
    · exact reach_mono hDNew h
    · have ha' : reach New a f.1 := by
        rcases ha with h | h
        · exact reach_mono hDNew h
        · exact reach_trans (reach_mono hDNew h) (reach_symm hf12)
      have hb' : reach New b f.1 := by
        rcases hb with h | h
        · exact reach_mono hDNew h
        · exact reach_trans (reach_mono hDNew h) (reach_symm hf12)
      exact reach_trans ha' (reach_symm hb')
  exact ⟨fun a ha b hb => hlift a b (hconn a ha b hb), hacyNew⟩

/-! ## Graph well-formedness (invariants of the construction API) -/

theorem alookup_isSome_iff {α β : Type} [DecidableEq α]
    (l : List (α × β)) (k : α) :
    (alookup l k).isSome ↔ k ∈ l.map Prod.fst := by
  induction l with
  | nil => simp [alookup]
  | cons p rest ih =>
    obtain ⟨k₀, v₀⟩ := p
    rw [alookup_cons]
    by_cases h : k₀ = k
    · simp [h]
    · simp only [if_neg h, List.map_cons, List.mem_cons]
      rw [ih]
      constructor
      · exact Or.inr
      · rintro (rfl | hm)
        · exact absurd rfl h
        · exact hm

theorem alookup_eq_some_mem {α β : Type} [DecidableEq α]
    {l : List (α × β)} {k : α} {v : β} (h : alookup l k = some v) :
    (k, v) ∈ l := by
  induction l with
  | nil => exact absurd h (by simp [alookup])
  | cons p rest ih =>
    obtain ⟨k₀, v₀⟩ := p
    rw [alookup_cons] at h
    by_cases h0 : k₀ = k
    · rw [if_pos h0] at h
      obtain rfl := Option.some.injEq .. ▸ h
      exact h0 ▸ List.mem_cons_self _ _
    · rw [if_neg h0] at h
      exact List.mem_cons_of_mem _ (ih h)

theorem alookup_of_mem_nodup {α β : Type} [DecidableEq α]
    {l : List (α × β)} {k : α} {v : β} (hnd : (l.map Prod.fst).Nodup)
    (hm : (k, v) ∈ l) : alookup l k = some v := by
  induction l with
  | nil => exact absurd hm (by simp)
  | cons p rest ih =>
    obtain ⟨k₀, v₀⟩ := p
    simp only [List.map_cons, List.nodup_cons] at hnd
    rw [alookup_cons]
    rcases List.mem_cons.mp hm with heq | hm'
    · obtain ⟨rfl, rfl⟩ := Prod.mk.injEq .. ▸ heq
      rw [if_pos rfl]
    · have hne : k₀ ≠ k := by
        rintro rfl
        exact hnd.1 (List.mem_map_of_mem Prod.fst hm')
      rw [if_neg hne]
      exact ih hnd.2 hm'

/-- Well-formedness maintained by the `Graph` construction API: node and
edge keys are distinct, every edge record's endpoints agree with its key
and name existing nodes. -/
def GraphWf (g : Graph) : Prop :=
  (g.nodes.map Prod.fst).Nodup ∧ (g.edges.map Prod.fst).Nodup ∧
  ∀ p ∈ g.edges, p.2.from_node = p.1.1 ∧ p.2.to_node = p.1.2 ∧
    p.1.1 ∈ g.nodeIds ∧ p.1.2 ∈ g.nodeIds

instance (g : Graph) : Decidable (GraphWf g) := by
  unfold GraphWf
  infer_instance

theorem empty_wf : GraphWf Graph.empty := by
  refine ⟨List.nodup_nil, List.nodup_nil, ?_⟩
  intro p hp
  exact absurd hp (by simp [Graph.empty])

theorem add_node_wf {g : Graph} {id : String} {b : ℚ} {g' : Graph}
    (hwf : GraphWf g) (h : g.add_node id b = .ok g') :
    GraphWf g' ∧ g'.edges = g.edges ∧ g'.nodeIds = g.nodeIds ++ [id] ∧
      id ∉ g.nodeIds := by
  unfold Graph.add_node at h
  by_cases hdup : (alookup g.nodes id).isSome
  · rw [if_pos hdup] at h
    exact absurd h (by simp)
  · rw [if_neg hdup] at h
    obtain rfl := (Except.ok.injEq .. ▸ h).symm
    have hnotin : id ∉ g.nodeIds := by
      intro hc
      exact hdup ((alookup_isSome_iff g.nodes id).mpr hc)
    refine ⟨⟨?_, hwf.2.1, ?_⟩, rfl, by simp [Graph.nodeIds], hnotin⟩
    · show ((g.nodes ++ [(id, b)]).map Prod.fst).Nodup
      rw [List.map_append]
      simp only [List.map_cons, List.map_nil]
      rw [List.nodup_append]
      exact ⟨hwf.1, List.nodup_singleton id,
        fun a ha hb => hnotin ((List.mem_singleton.mp hb) ▸ ha)⟩
    · intro p hp
      obtain ⟨h1, h2, h3, h4⟩ := hwf.2.2 p hp
      refine ⟨h1, h2, ?_, ?_⟩
      · show p.1.1 ∈ (g.nodes ++ [(id, b)]).map Prod.fst
        rw [List.map_append]
        exact List.mem_append_left _ h3
      · show p.1.2 ∈ (g.nodes ++ [(id, b)]).map Prod.fst
        rw [List.map_append]
        exact List.mem_append_left _ h4

theorem add_edge_wf {g : Graph} {f t : String} {c : ℚ} {cap : Val}
    {g' : Graph} (hwf : GraphWf g) (h : g.add_edge f t c cap = .ok g') :
    GraphWf g' ∧ g'.nodes = g.nodes ∧
      g'.edges = g.edges ++ [((f, t), ⟨f, t, c, cap⟩)] ∧
      (f, t) ∉ g.edgeIds ∧ f ∈ g.nodeIds ∧ t ∈ g.nodeIds := by
  unfold Graph.add_edge at h
  by_cases hf : (alookup g.nodes f).isNone
  · rw [if_pos hf] at h
    exact absurd h (by simp)
  · rw [if_neg hf] at h
    by_cases ht : (alookup g.nodes t).isNone
    · rw [if_pos ht] at h
      exact absurd h (by simp)
    · rw [if_neg ht] at h
      by_cases hdup : (alookup g.edges (f, t)).isSome
      · rw [if_pos hdup] at h
        exact absurd h (by simp)
      · rw [if_neg hdup] at h
        obtain rfl := (Except.ok.injEq .. ▸ h).symm
        have hfmem : f ∈ g.nodeIds := (alookup_isSome_iff g.nodes f).mp
          (by cases hv : alookup g.nodes f
              · exact absurd (by rw [hv]; rfl) hf
              · rfl)
        have htmem : t ∈ g.nodeIds := (alookup_isSome_iff g.nodes t).mp
          (by cases hv : alookup g.nodes t
              · exact absurd (by rw [hv]; rfl) ht
              · rfl)
        have hnotin : (f, t) ∉ g.edgeIds := by
          intro hc
          exact hdup ((alookup_isSome_iff g.edges (f, t)).mpr hc)
        refine ⟨⟨hwf.1, ?_, ?_⟩, rfl, rfl, hnotin, hfmem, htmem⟩
        · show ((g.edges ++ [((f, t), _)]).map Prod.fst).Nodup
          rw [List.map_append]
          simp only [List.map_cons, List.map_nil]
          rw [List.nodup_append]
          exact ⟨hwf.2.1, List.nodup_singleton _,
            fun a ha hb => hnotin ((List.mem_singleton.mp hb) ▸ ha)⟩
        · intro p hp
          rcases List.mem_append.mp hp with hp1 | hp2
          · exact hwf.2.2 p hp1
          · obtain rfl := List.mem_singleton.mp hp2
            exact ⟨rfl, rfl, hfmem, htmem⟩

theorem get_edge_wf {g : Graph} (hwf : GraphWf g) {a b : String}
    {e : EdgeRec} (h : g.get_edge a b = some e) :
    e.from_node = a ∧ e.to_node = b ∧ (a, b) ∈ g.edgeIds ∧
      a ∈ g.nodeIds ∧ b ∈ g.nodeIds := by
  have hm : ((a, b), e) ∈ g.edges := alookup_eq_some_mem h
  obtain ⟨h1, h2, h3, h4⟩ := hwf.2.2 _ hm
  exact ⟨h1, h2, List.mem_map_of_mem Prod.fst hm, h3, h4⟩

theorem get_edge_isSome_of_mem {g : Graph} {id : EdgeId}
    (h : id ∈ g.edgeIds) : (g.get_edge id.1 id.2).isSome := by
  obtain ⟨a, b⟩ := id
  exact (alookup_isSome_iff g.edges (a, b)).mpr h

/-- Under well-formedness the record-derived edge-id set used by
`FlowUpdater` coincides with the key set. -/
theorem allEdgeIds_eq_edgeIds {g : Graph} (hwf : GraphWf g) :
    FlowUpdater.allEdgeIds g = g.edgeIds := by
  unfold FlowUpdater.allEdgeIds Graph.edgeIds
  refine List.map_congr_left ?_
  intro p hp
  obtain ⟨h1, h2, -, -⟩ := hwf.2.2 p hp
  show (p.2.from_node, p.2.to_node) = p.1
  rw [h1, h2]

/-! ## Oriented walks along `(edge record, is_forward)` steps, as produced
by the cycle-finder DFS -/

/-- Destination vertex of a DFS step. -/
def stepDst (pe : EdgeRec × Bool) : String :=
  if pe.2 then pe.1.to_node else pe.1.from_node

/-- The step starts at `x`. -/
def stepSrcOk (x : String) (pe : EdgeRec × Bool) : Prop :=
  if pe.2 then pe.1.from_node = x else pe.1.to_node = x

/-- Every step starts where the previous one ended. -/
def stepsOk : String → List (EdgeRec × Bool) → Prop
  | _, [] => True
  | x, pe :: rest => stepSrcOk x pe ∧ stepsOk (stepDst pe) rest

/-- Final vertex of a walk. -/
def walkEnd : String → List (EdgeRec × Bool) → String
  | x, [] => x
  | _, pe :: rest => walkEnd (stepDst pe) rest

/-- All vertices of a walk, in order. -/
def walkVerts : String → List (EdgeRec × Bool) → List String
  | x, [] => [x]
  | x, pe :: rest => x :: walkVerts (stepDst pe) rest

theorem mem_walkVerts_self (x : String) (pl : List (EdgeRec × Bool)) :
    x ∈ walkVerts x pl := by
  cases pl with
  | nil => exact List.mem_singleton.mpr rfl
  | cons pe rest => exact List.mem_cons_self _ _

theorem stepsOk_append (l₁ : List (EdgeRec × Bool)) :
    ∀ (x : String) (l₂ : List (EdgeRec × Bool)),
      stepsOk x (l₁ ++ l₂) ↔ stepsOk x l₁ ∧ stepsOk (walkEnd x l₁) l₂ := by
  induction l₁ with
  | nil => intro x l₂; simp [stepsOk, walkEnd]
  | cons pe rest ih =>
    intro x l₂
    show stepSrcOk x pe ∧ stepsOk (stepDst pe) (rest ++ l₂) ↔ _
    rw [ih]
    show _ ↔ (stepSrcOk x pe ∧ stepsOk (stepDst pe) rest) ∧
      stepsOk (walkEnd (stepDst pe) rest) l₂
    tauto

theorem walkEnd_append (l₁ : List (EdgeRec × Bool)) :
    ∀ (x : String) (l₂ : List (EdgeRec × Bool)),
      walkEnd x (l₁ ++ l₂) = walkEnd (walkEnd x l₁) l₂ := by
  induction l₁ with
  | nil => intro x l₂; rfl
  | cons pe rest ih => intro x l₂; exact ih (stepDst pe) l₂

/-- A well-formed walk whose edge ids lie in `E` witnesses undirected
reachability over `E`. -/
theorem steps_to_reach {E : List EdgeId} (pl : List (EdgeRec × Bool)) :
    ∀ x : String, stepsOk x pl → (∀ pe ∈ pl, pe.1.edge_id ∈ E) →
      reach E x (walkEnd x pl) := by
  induction pl with
  | nil => intro x _ _; exact reach_refl E x
  | cons pe rest ih =>
    intro x hok hE
    obtain ⟨hsrc, hrest⟩ := hok
    have hstep : stepRel E x (stepDst pe) := by
      have hid : (pe.1.from_node, pe.1.to_node) ∈ E :=
        hE pe (List.mem_cons_self _ _)
      cases hfw : pe.2 with
      | true =>
        simp [stepSrcOk, hfw] at hsrc
        have hd : stepDst pe = pe.1.to_node := by
          simp [stepDst, hfw]
        exact Or.inl (hsrc ▸ hd ▸ hid)
      | false =>
        simp [stepSrcOk, hfw] at hsrc
        have hd : stepDst pe = pe.1.from_node := by
          simp [stepDst, hfw]
        exact Or.inr (hsrc ▸ hd ▸ hid)
    exact reach_trans (reach_step hstep)
      (ih (stepDst pe) hrest (fun qe hqe => hE qe (List.mem_cons_of_mem _ hqe)))

/-- Both endpoints of any edge used by a walk appear among its vertices. -/
theorem walk_edge_endpoints {pl : List (EdgeRec × Bool)} :
    ∀ {x : String}, stepsOk x pl → ∀ {qe : EdgeRec × Bool}, qe ∈ pl →
      qe.1.from_node ∈ walkVerts x pl ∧ qe.1.to_node ∈ walkVerts x pl := by
  induction pl with
  | nil => intro x _ qe hqe; exact absurd hqe (List.not_mem_nil qe)
  | cons pe rest ih =>
    intro x hok qe hqe
    obtain ⟨hsrc, hrest⟩ := hok
    show _ ∈ x :: walkVerts (stepDst pe) rest ∧
      _ ∈ x :: walkVerts (stepDst pe) rest
    rcases List.mem_cons.mp hqe with rfl | hmem
    · cases hfw : qe.2 with
      | true =>
        simp [stepSrcOk, hfw] at hsrc
        have hd : stepDst qe = qe.1.to_node := by
          simp [stepDst, hfw]
        refine ⟨hsrc ▸ List.mem_cons_self _ _, List.mem_cons_of_mem _ ?_⟩
        exact hd ▸ mem_walkVerts_self (stepDst qe) rest
      | false =>
        simp [stepSrcOk, hfw] at hsrc
        have hd : stepDst qe = qe.1.from_node := by
          simp [stepDst, hfw]
        refine ⟨List.mem_cons_of_mem _ ?_, hsrc ▸ List.mem_cons_self _ _⟩
        exact hd ▸ mem_walkVerts_self (stepDst qe) rest
    · obtain ⟨h1, h2⟩ := ih hrest hmem
      exact ⟨List.mem_cons_of_mem _ h1, List.mem_cons_of_mem _ h2⟩

/-- On a vertex-distinct walk, any edge id occurring among the steps occurs
in exactly one position: the walk splits around it. -/
theorem walk_split {pl : List (EdgeRec × Bool)} :
    ∀ {x : String} {f : EdgeId}, stepsOk x pl →
      (walkVerts x pl).Nodup → f ∈ pl.map (fun pe => pe.1.edge_id) →
      ∃ pl₁ ef fw pl₂, pl = pl₁ ++ (ef, fw) :: pl₂ ∧ ef.edge_id = f ∧
        (∀ pe ∈ pl₁, pe.1.edge_id ≠ f) ∧ ∀ pe ∈ pl₂, pe.1.edge_id ≠ f := by
  induction pl with
  | nil => intro x f _ _ hf; exact absurd hf (by simp)
  | cons pe rest ih =>
    intro x f hok hnd hf
    obtain ⟨hsrc, hrest⟩ := hok
    have hnd' : (x :: walkVerts (stepDst pe) rest).Nodup := hnd
    rw [List.nodup_cons] at hnd'
    by_cases hpe : pe.1.edge_id = f
    · refine ⟨[], pe.1, pe.2, rest, by simp, hpe, by simp, ?_⟩
      intro qe hqe hqf
      obtain ⟨hq1, hq2⟩ := walk_edge_endpoints hrest hqe
      have hcomp : qe.1.from_node = pe.1.from_node ∧
          qe.1.to_node = pe.1.to_node := by
        have heq : (qe.1.from_node, qe.1.to_node) =
            (pe.1.from_node, pe.1.to_node) := hqf.trans hpe.symm
        exact ⟨congrArg Prod.fst heq, congrArg Prod.snd heq⟩
      cases hfw : pe.2 with
      | true =>
        simp [stepSrcOk, hfw] at hsrc
        exact hnd'.1 ((hcomp.1.trans hsrc : qe.1.from_node = x) ▸ hq1)
      | false =>
        simp [stepSrcOk, hfw] at hsrc
        exact hnd'.1 ((hcomp.2.trans hsrc : qe.1.to_node = x) ▸ hq2)
    · have hf' : f ∈ rest.map (fun pe => pe.1.edge_id) := by
        rw [List.map_cons] at hf
        rcases List.mem_cons.mp hf with h1 | h1
        · exact absurd h1.symm hpe
        · exact h1
      obtain ⟨pl₁, ef, fw, pl₂, heq, hid, hl, hr⟩ := ih hrest hnd'.2 hf'
      refine ⟨pe :: pl₁, ef, fw, pl₂, by rw [heq]; rfl, hid, ?_, hr⟩
      intro qe hqe
      rcases List.mem_cons.mp hqe with rfl | hm
      · exact hpe
      · exact hl qe hm

/-- The crossing decomposition used for the basis pivot: on a vertex-distinct
walk from `v` to `u` over edges of `B` that uses the edge `f`, `v` reaches
one endpoint of `f` and the other endpoint reaches `u`, both without `f`. -/
theorem walk_cross {B : List EdgeId} {u v : String}
    {pl : List (EdgeRec × Bool)} {f : EdgeId}
    (hok : stepsOk v pl) (hend : walkEnd v pl = u)
    (hnd : (walkVerts v pl).Nodup)
    (hB : ∀ pe ∈ pl, pe.1.edge_id ∈ B)
    (hf : f ∈ pl.map (fun pe => pe.1.edge_id)) :
    ∃ p q, ((p = f.1 ∧ q = f.2) ∨ (p = f.2 ∧ q = f.1)) ∧
      reach (edel B f) v p ∧ reach (edel B f) q u := by
  obtain ⟨pl₁, ef, fw, pl₂, heq, hid, hl, hr⟩ := walk_split hok hnd hf
  subst heq
  rw [stepsOk_append] at hok
  obtain ⟨hok₁, hok'⟩ := hok
  have hok'' : stepSrcOk (walkEnd v pl₁) (ef, fw) ∧
      stepsOk (stepDst (ef, fw)) pl₂ := hok'
  obtain ⟨hsrc, hok₂⟩ := hok''
  rw [walkEnd_append] at hend
  have hend₂ : walkEnd (stepDst (ef, fw)) pl₂ = u := hend
  have hr₁ : reach (edel B f) v (walkEnd v pl₁) := by
    refine steps_to_reach pl₁ v hok₁ ?_
    intro pe hpe
    exact mem_edel.mpr ⟨hB pe (List.mem_append_left _ hpe), hl pe hpe⟩
  have hr₂ : reach (edel B f) (stepDst (ef, fw)) u := by
    rw [← hend₂]
    refine steps_to_reach pl₂ _ hok₂ ?_
    intro pe hpe
    refine mem_edel.mpr ⟨hB pe (List.mem_append_right _
      (List.mem_cons_of_mem _ hpe)), hr pe hpe⟩
  have hf1 : f.1 = ef.from_node := by rw [← hid]; rfl
  have hf2 : f.2 = ef.to_node := by rw [← hid]; rfl
  cases fw with
  | true =>
    simp [stepSrcOk] at hsrc
    have hd : stepDst (ef, true) = ef.to_node := by
      simp [stepDst]
    exact ⟨walkEnd v pl₁, stepDst (ef, true),
      Or.inl ⟨by rw [hf1, hsrc], by rw [hf2, ← hd]⟩, hr₁, hr₂⟩
  | false =>
    simp [stepSrcOk] at hsrc
    have hd : stepDst (ef, false) = ef.from_node := by
      simp [stepDst]
    exact ⟨walkEnd v pl₁, stepDst (ef, false),
      Or.inr ⟨by rw [hf2, hsrc], by rw [hf1, ← hd]⟩, hr₁, hr₂⟩

/-! ## Adjacency correctness and DFS partial correctness -/

/-- Contract of one adjacency entry stored under key `c`. -/
def entryOK (B : List EdgeId) (c : String) (t : CycleFinder.AdjEntry) :
    Prop :=
  t.2.1.edge_id ∈ B ∧
  (t.2.2 = true → t.2.1.from_node = c ∧ t.2.1.to_node = t.1) ∧
  (t.2.2 = false → t.2.1.to_node = c ∧ t.2.1.from_node = t.1)

/-- Contract of the whole adjacency dict. -/
def adjOK (B : List EdgeId)
    (adj : List (String × List CycleFinder.AdjEntry)) : Prop :=
  ∀ c entr, alookup adj c = some entr → ∀ t ∈ entr, entryOK B c t

theorem aappend_lookup {k : String} {x : CycleFinder.AdjEntry} :
    ∀ {l l' : List (String × List CycleFinder.AdjEntry)},
      CycleFinder.aappend k x l = some l' →
      ∀ k', alookup l' k' =
        if k' = k then (alookup l k).map (fun xs => xs ++ [x])
        else alookup l k' := by
  intro l
  induction l with
  | nil => intro l' h; exact Option.noConfusion h
  | cons p rest ih =>
    obtain ⟨k₀, xs⟩ := p
    intro l' h k'
    unfold CycleFinder.aappend at h
    by_cases h0 : k₀ = k
    · rw [if_pos h0] at h
      obtain rfl := (Option.some.injEq .. ▸ h).symm
      subst h0
      by_cases hk : k₀ = k'
      · subst hk
        simp [alookup_cons]
      · have hk2 : ¬ k' = k₀ := fun hc => hk hc.symm
        simp [alookup_cons, hk, hk2]
    · rw [if_neg h0] at h
      cases hrec : CycleFinder.aappend k x rest with
      | none => rw [hrec] at h; exact Option.noConfusion h
      | some rest' =>
        rw [hrec] at h
        rw [Option.map_some'] at h
        obtain rfl := (Option.some.injEq .. ▸ h).symm
        by_cases hk0 : k₀ = k'
        · have hne : ¬ k' = k := fun hc => h0 (hk0.trans hc)
          rw [alookup_cons, if_pos hk0, if_neg hne, alookup_cons,
            if_pos hk0]
        · rw [alookup_cons, if_neg hk0, ih hrec k']
          by_cases hk : k' = k
          · rw [if_pos hk, if_pos hk, alookup_cons, if_neg h0]
          · rw [if_neg hk, if_neg hk, alookup_cons, if_neg hk0]

theorem aappend_adjOK {B : List EdgeId} {k : String}
    {x : CycleFinder.AdjEntry}
    {l l' : List (String × List CycleFinder.AdjEntry)}
    (hOK : adjOK B l) (hx : entryOK B k x)
    (h : CycleFinder.aappend k x l = some l') : adjOK B l' := by
  intro c entr hlk t ht
  rw [aappend_lookup h c] at hlk
  by_cases hc : c = k
  · rw [if_pos hc] at hlk
    cases hold : alookup l k with
    | none => rw [hold] at hlk; exact Option.noConfusion hlk
    | some xs =>
      rw [hold] at hlk
      rw [Option.map_some'] at hlk
      obtain rfl := (Option.some.injEq .. ▸ hlk).symm
      rcases List.mem_append.mp ht with h1 | h1
      · exact hc ▸ hOK k xs hold t h1
      · obtain rfl := List.mem_singleton.mp h1
        exact hc ▸ hx
  · rw [if_neg hc] at hlk
    exact hOK c entr hlk t ht

theorem buildAdj_fold_none (g : Graph) :
    ∀ (ids : List EdgeId),
    List.foldl
      (fun acc id =>
        match acc with
        | none => none
        | some adj =>
          match g.get_edge id.1 id.2 with
          | none => none
          | some e =>
            match CycleFinder.aappend e.from_node (e.to_node, e, true)
                adj with
            | none => none
            | some adj1 =>
              CycleFinder.aappend e.to_node (e.from_node, e, false) adj1)
      none ids = none := by
  intro ids
  induction ids with
  | nil => rfl
  | cons id rest ih => exact ih

theorem buildAdj_fold_ok (g : Graph) (hwf : GraphWf g) (B : List EdgeId) :
    ∀ (ids : List EdgeId) (acc : List (String × List CycleFinder.AdjEntry))
      (adj : List (String × List CycleFinder.AdjEntry)),
    (∀ id ∈ ids, id ∈ B) → adjOK B acc →
    List.foldl
      (fun acc id =>
        match acc with
        | none => none
        | some adj =>
          match g.get_edge id.1 id.2 with
          | none => none
          | some e =>
            match CycleFinder.aappend e.from_node (e.to_node, e, true)
                adj with
            | none => none
            | some adj1 =>
              CycleFinder.aappend e.to_node (e.from_node, e, false) adj1)
      (some acc) ids = some adj →
    adjOK B adj := by
  intro ids
  induction ids with
  | nil =>
    intro acc adj _ hOK h
    simp only [List.foldl_nil, Option.some.injEq] at h
    exact h ▸ hOK
  | cons id rest ih =>
    intro acc adj hids hOK h
    rw [List.foldl_cons] at h
    dsimp only at h
    cases hge : g.get_edge id.1 id.2 with
    | none =>
      rw [hge] at h
      dsimp only at h
      rw [buildAdj_fold_none] at h
      exact absurd h (by simp)
    | some e =>
      rw [hge] at h
      dsimp only at h
      obtain ⟨hfrom, hto, -, -, -⟩ := get_edge_wf hwf hge
      have hidB : e.edge_id ∈ B := by
        show (e.from_node, e.to_node) ∈ B
        rw [hfrom, hto]
        exact hids id (List.mem_cons_self _ _)
      cases ha1 : CycleFinder.aappend e.from_node (e.to_node, e, true)
          acc with
      | none =>
        rw [ha1] at h
        dsimp only at h
        rw [buildAdj_fold_none] at h
        exact absurd h (by simp)
      | some adj1 =>
        rw [ha1] at h
        dsimp only at h
        have hx1 : entryOK B e.from_node (e.to_node, e, true) :=
          ⟨hidB, fun _ => ⟨rfl, rfl⟩, fun hc => absurd hc (by simp)⟩
        have hOK1 : adjOK B adj1 := aappend_adjOK hOK hx1 ha1
        cases ha2 : CycleFinder.aappend e.to_node (e.from_node, e, false)
            adj1 with
        | none =>
          rw [ha2] at h
          rw [buildAdj_fold_none] at h
          exact absurd h (by simp)
        | some adj2 =>
          rw [ha2] at h
          have hx2 : entryOK B e.to_node (e.from_node, e, false) :=
            ⟨hidB, fun hc => absurd hc (by simp),
             fun _ => ⟨rfl, rfl⟩⟩
          have hOK2 : adjOK B adj2 := aappend_adjOK hOK1 hx2 ha2
          exact ih adj2 adj (fun i hi => hids i (List.mem_cons_of_mem _ hi))
            hOK2 h

theorem buildAdjacency_ok {g : Graph} {basis : List EdgeId}
    {adj : List (String × List CycleFinder.AdjEntry)} (hwf : GraphWf g)
    (h : CycleFinder.buildAdjacency g basis = some adj) :
    adjOK basis adj := by
  unfold CycleFinder.buildAdjacency at h
  refine buildAdj_fold_ok g hwf basis basis _ adj (fun i hi => hi) ?_ h
  intro c entr hlk t ht
  have hm := alookup_eq_some_mem hlk
  obtain ⟨p, -, hpe⟩ := List.mem_map.mp hm
  have : entr = [] := (Prod.mk.injEq .. ▸ hpe).2.symm
  subst this
  exact absurd ht (List.not_mem_nil t)

/-! DFS unfolding equations. -/

theorem dfsGo_inl_eq (adj : List (String × List CycleFinder.AdjEntry))
    (target : String) (fuel : ℕ) (current : String) (vis : List String) :
    CycleFinder.dfsGo adj target (fuel + 1) (.inl (current, vis)) =
      if current = target then some (some [], vis)
      else
        match alookup adj current with
        | none => none
        | some entries =>
          CycleFinder.dfsGo adj target fuel
            (.inr (entries, current :: vis)) := rfl

theorem dfsGo_inr_nil_eq (adj : List (String × List CycleFinder.AdjEntry))
    (target : String) (fuel : ℕ) (vis : List String) :
    CycleFinder.dfsGo adj target (fuel + 1) (.inr ([], vis)) =
      some (none, vis) := rfl

theorem dfsGo_inr_cons_eq (adj : List (String × List CycleFinder.AdjEntry))
    (target : String) (fuel : ℕ) (nbr : String) (e : EdgeRec) (fwd : Bool)
    (rest : List CycleFinder.AdjEntry) (vis : List String) :
    CycleFinder.dfsGo adj target (fuel + 1)
        (.inr ((nbr, e, fwd) :: rest, vis)) =
      if nbr ∈ vis then CycleFinder.dfsGo adj target fuel (.inr (rest, vis))
      else
        match CycleFinder.dfsGo adj target fuel (.inl (nbr, vis)) with
        | none => none
        | some (some p, vis') => some (some ((e, fwd) :: p), vis')
        | some (none, vis') =>
          CycleFinder.dfsGo adj target fuel (.inr (rest, vis')) := rfl

/-- Visited list of a DFS argument. -/
def dfsArgVis :
    (String × List String) ⊕ (List CycleFinder.AdjEntry × List String) →
      List String
  | .inl a => a.2
  | .inr a => a.2

/-- The visited set only grows, and the target is never added to it. -/
theorem dfsGo_mono (adj : List (String × List CycleFinder.AdjEntry))
    (target : String) :
    ∀ (fuel : ℕ) arg res vis2,
      CycleFinder.dfsGo adj target fuel arg = some (res, vis2) →
      (∀ w ∈ dfsArgVis arg, w ∈ vis2) ∧
      (target ∉ dfsArgVis arg → target ∉ vis2) := by
  intro fuel
  induction fuel with
  | zero =>
    intro arg res vis2 h
    exact absurd h (by cases arg <;> simp [CycleFinder.dfsGo])
  | succ fuel ih =>
    intro arg res vis2 h
    rcases arg with ⟨current, vis⟩ | ⟨entries, vis⟩
    · rw [dfsGo_inl_eq] at h
      by_cases hct : current = target
      · rw [if_pos hct] at h
        simp only [Option.some.injEq, Prod.mk.injEq] at h
        obtain ⟨-, rfl⟩ := h
        exact ⟨fun w hw => hw, fun ht => ht⟩
      · rw [if_neg hct] at h
        cases hlk : alookup adj current with
        | none => rw [hlk] at h; exact absurd h (by simp)
        | some entries =>
          rw [hlk] at h
          obtain ⟨hsub, htar⟩ := ih _ _ _ h
          refine ⟨fun w hw => hsub w (List.mem_cons_of_mem _ hw), ?_⟩
          intro ht
          refine htar ?_

          intro hc
          rcases List.mem_cons.mp hc with h1 | h1
          · exact hct h1.symm
          · exact ht h1
    · rcases entries with _ | ⟨⟨nbr, e, fwd⟩, rest⟩
      · rw [dfsGo_inr_nil_eq] at h
        simp only [Option.some.injEq, Prod.mk.injEq] at h
        obtain ⟨-, rfl⟩ := h
        exact ⟨fun w hw => hw, fun ht => ht⟩
      · rw [dfsGo_inr_cons_eq] at h
        by_cases hin : nbr ∈ vis
        · rw [if_pos hin] at h
          obtain ⟨h1, h2⟩ := ih _ _ _ h
          exact ⟨h1, h2⟩
        · rw [if_neg hin] at h
          cases hrec : CycleFinder.dfsGo adj target fuel
              (.inl (nbr, vis)) with
          | none => rw [hrec] at h; exact absurd h (by simp)
          | some pr =>
            obtain ⟨ores, vis'⟩ := pr
            rw [hrec] at h
            obtain ⟨hsub1, htar1⟩ := ih _ _ _ hrec
            cases ores with
            | some p =>
              dsimp only at h
              simp only [Option.some.injEq, Prod.mk.injEq] at h
              obtain ⟨-, rfl⟩ := h
              exact ⟨hsub1, htar1⟩
            | none =>
              dsimp only at h
              obtain ⟨hsub2, htar2⟩ := ih _ _ _ h
              exact ⟨fun w hw => hsub2 w (hsub1 w hw),
                fun ht => htar2 (htar1 ht)⟩

/-- Partial correctness of the DFS: a found path is a vertex-distinct walk
from the start vertex to the target whose steps use basis edges only (via
the adjacency contract). -/
theorem dfsGo_spec (adj : List (String × List CycleFinder.AdjEntry))
    (target : String) (B : List EdgeId) (hadj : adjOK B adj) :
    ∀ (fuel : ℕ),
    (∀ current vis p vis2, current ∉ vis → target ∉ vis →
      CycleFinder.dfsGo adj target fuel (.inl (current, vis)) =
        some (some p, vis2) →
      stepsOk current p ∧ walkEnd current p = target ∧
      (∀ pe ∈ p, pe.1.edge_id ∈ B) ∧ (walkVerts current p).Nodup ∧
      (∀ w ∈ walkVerts current p, w = target ∨ w ∉ vis)) ∧
    (∀ entries c vis p vis2, (∀ t ∈ entries, entryOK B c t) → c ∈ vis →
      target ∉ vis →
      CycleFinder.dfsGo adj target fuel (.inr (entries, vis)) =
        some (some p, vis2) →
      stepsOk c p ∧ walkEnd c p = target ∧
      (∀ pe ∈ p, pe.1.edge_id ∈ B) ∧ (walkVerts c p).Nodup ∧
      (∀ w ∈ walkVerts c p, w = target ∨ w = c ∨ w ∉ vis)) := by
  intro fuel
  induction fuel with
  | zero =>
    constructor
    · intro current vis p vis2 _ _ h
      exact absurd h (by simp [CycleFinder.dfsGo])
    · intro entries c vis p vis2 _ _ _ h
      exact absurd h (by simp [CycleFinder.dfsGo])
  | succ fuel ih =>
    constructor
    · intro current vis p vis2 hcv htv h
      rw [dfsGo_inl_eq] at h
      by_cases hct : current = target
      · rw [if_pos hct] at h
        simp only [Option.some.injEq, Prod.mk.injEq] at h
        obtain ⟨hp, -⟩ := h
        obtain rfl := hp.symm
        refine ⟨trivial, hct, by simp, List.nodup_singleton _, ?_⟩
        intro w hw
        obtain rfl := List.mem_singleton.mp hw
        exact Or.inl hct
      · rw [if_neg hct] at h
        cases hlk : alookup adj current with
        | none => rw [hlk] at h; exact absurd h (by simp)
        | some entries =>
          rw [hlk] at h
          have htv' : target ∉ current :: vis := by
            intro hc
            rcases List.mem_cons.mp hc with h1 | h1
            · exact hct h1.symm
            · exact htv h1
          obtain ⟨h1, h2, h3, h4, h5⟩ := ih.2 entries current
            (current :: vis) p vis2 (hadj current entries hlk)
            (List.mem_cons_self _ _) htv' h
          refine ⟨h1, h2, h3, h4, ?_⟩
          intro w hw
          rcases h5 w hw with ha | hb | hc
          · exact Or.inl ha
          · exact Or.inr (hb ▸ hcv)
          · exact Or.inr (fun hx => hc (List.mem_cons_of_mem _ hx))
    · intro entries c vis p vis2 hents hcv htv h
      rcases entries with _ | ⟨⟨nbr, e, fwd⟩, rest⟩
      · rw [dfsGo_inr_nil_eq] at h
        exact absurd h (by simp)
      · rw [dfsGo_inr_cons_eq] at h
        by_cases hin : nbr ∈ vis
        · rw [if_pos hin] at h
          exact ih.2 rest c vis p vis2
            (fun t ht => hents t (List.mem_cons_of_mem _ ht)) hcv htv h
        · rw [if_neg hin] at h
          cases hrec : CycleFinder.dfsGo adj target fuel
              (.inl (nbr, vis)) with
          | none => rw [hrec] at h; exact absurd h (by simp)
          | some pr =>
            obtain ⟨ores, vis'⟩ := pr
            rw [hrec] at h
            cases ores with
            | some p' =>
              dsimp only at h
              simp only [Option.some.injEq, Prod.mk.injEq] at h
              obtain ⟨hp, -⟩ := h
              obtain rfl := hp.symm
              obtain ⟨k1, k2, k3, k4, k5⟩ := ih.1 nbr vis p' vis' hin htv
                hrec
              obtain ⟨heB, hfwT, hfwF⟩ := hents (nbr, e, fwd)
                (List.mem_cons_self _ _)
              dsimp only at heB hfwT hfwF
              have hcne : c ≠ target := by
                intro hc
                exact htv (hc ▸ hcv)
              have hsrc : stepSrcOk c (e, fwd) ∧ stepDst (e, fwd) = nbr := by
                cases fwd with
                | true =>
                  obtain ⟨ha, hb⟩ := hfwT rfl
                  exact ⟨by simp [stepSrcOk, ha], by simp [stepDst, hb]⟩
                | false =>
                  obtain ⟨ha, hb⟩ := hfwF rfl
                  exact ⟨by simp [stepSrcOk, ha], by simp [stepDst, hb]⟩
              have hverts : walkVerts c ((e, fwd) :: p') =
                  c :: walkVerts nbr p' := by
                show c :: walkVerts (stepDst (e, fwd)) p' = _
                rw [hsrc.2]
              have hcnot : c ∉ walkVerts nbr p' := by
                intro hc
                rcases k5 c hc with h1 | h1
                · exact hcne h1
                · exact h1 hcv
              refine ⟨⟨hsrc.1, by rw [hsrc.2]; exact k1⟩, ?_, ?_, ?_, ?_⟩
              · show walkEnd (stepDst (e, fwd)) p' = target
                rw [hsrc.2]
                exact k2
              · intro pe hpe
                rcases List.mem_cons.mp hpe with rfl | hm
                · exact heB
                · exact k3 pe hm
              · rw [hverts, List.nodup_cons]
                exact ⟨hcnot, k4⟩
              · rw [hverts]
                intro w hw
                rcases List.mem_cons.mp hw with rfl | hm
                · exact Or.inr (Or.inl rfl)
                · rcases k5 w hm with h1 | h1
                  · exact Or.inl h1
                  · exact Or.inr (Or.inr h1)
            | none =>
              dsimp only at h
              obtain ⟨hsub1, htar1⟩ := dfsGo_mono adj target fuel
                (.inl (nbr, vis)) none vis' hrec
              obtain ⟨m1, m2, m3, m4, m5⟩ := ih.2 rest c vis' p vis2
                (fun t ht => hents t (List.mem_cons_of_mem _ ht))
                (hsub1 c hcv) (htar1 htv) h
              refine ⟨m1, m2, m3, m4, ?_⟩
              intro w hw
              rcases m5 w hw with h1 | h1 | h1
              · exact Or.inl h1
              · exact Or.inr (Or.inl h1)
              · exact Or.inr (Or.inr (fun hx => h1 (hsub1 w hx)))

/-! ## Structural contract of a found cycle, and where entering/leaving
edges come from -/

/-- Shape of the cycle list built by `CycleFinder.execute`: the entering
edge's record first, then tree edges along a path in the basis from the
entering edge's `to` node back to its `from` node (a vertex-distinct walk),
or no path at all when the DFS found none. -/
def CycleShape (g : Graph) (B : List EdgeId) (entering : EdgeId)
    (cycle : List CycleEdge) : Prop :=
  ∃ (e₀ : EdgeRec) (path : List (EdgeRec × Bool))
    (mkf : EdgeRec × Bool → CycleEdge) (c₀ : CycleEdge),
    g.get_edge entering.1 entering.2 = some e₀ ∧ c₀.edge = e₀ ∧
    cycle = c₀ :: path.map mkf ∧ (∀ pe, (mkf pe).edge = pe.1) ∧
    (path = [] ∨
      (stepsOk entering.2 path ∧ walkEnd entering.2 path = entering.1 ∧
       (∀ pe ∈ path, pe.1.edge_id ∈ B) ∧
       (walkVerts entering.2 path).Nodup))

theorem cycleFinder_shape {g : Graph} {basis : List EdgeId}
    {entering : EdgeId} {dir : Direction} {flows : List (EdgeId × ℚ)}
    {cycle : List CycleEdge} (hwf : GraphWf g)
    (h : CycleFinder.execute g basis entering dir flows = some cycle) :
    CycleShape g basis entering cycle := by
  unfold CycleFinder.execute at h
  cases hba : CycleFinder.buildAdjacency g basis with
  | none => rw [hba] at h; exact absurd h (by simp)
  | some adj =>
    rw [hba] at h
    dsimp only at h
    cases hfp : CycleFinder.findTreePath g adj basis entering with
    | none => rw [hfp] at h; exact absurd h (by simp)
    | some path =>
      rw [hfp] at h
      dsimp only at h
      cases hge : g.get_edge entering.1 entering.2 with
      | none => rw [hge] at h; exact absurd h (by simp)
      | some e₀ =>
        rw [hge] at h
        dsimp only at h
        obtain rfl := (Option.some.injEq .. ▸ h).symm
        refine ⟨e₀, path,
          (fun pe => CycleFinder.mkCycleEdge pe.1
            (if pe.2 then .forward else .backward) dir flows),
          CycleFinder.mkCycleEdge e₀ .entering dir flows,
          hge, rfl, rfl, fun pe => rfl, ?_⟩
        unfold CycleFinder.findTreePath at hfp
        cases hdfs : CycleFinder.dfsGo adj entering.1
            (CycleFinder.dfsFuel g basis) (.inl (entering.2, [])) with
        | none => rw [hdfs] at hfp; exact absurd hfp (by simp)
        | some pr =>
          obtain ⟨ores, vis⟩ := pr
          rw [hdfs] at hfp
          cases ores with
          | some p =>
            dsimp only at hfp
            have hpp : p = path := Option.some.injEq .. ▸ hfp
            rw [hpp] at hdfs
            obtain ⟨h1, h2, h3, h4, -⟩ :=
              (dfsGo_spec adj entering.1 basis
                (buildAdjacency_ok hwf hba)
                (CycleFinder.dfsFuel g basis)).1 entering.2 [] path vis
                (List.not_mem_nil _) (List.not_mem_nil _) hdfs
            exact Or.inr ⟨h1, h2, h3, h4⟩
          | none =>
            dsimp only at hfp
            obtain rfl := (Option.some.injEq .. ▸ hfp).symm
            exact Or.inl rfl

/-- A leaving edge chosen by the theta calculator is the id of some cycle
edge. -/
theorem theta_leaving_mem {cycle : List CycleEdge} {basis : List EdgeId}
    {f : EdgeId}
    (h : (ThetaCalculator.execute cycle basis).2 = some f) :
    ∃ ce ∈ cycle, ce.edge.edge_id = f := by
  unfold ThetaCalculator.execute at h
  by_cases hemp : cycle.isEmpty
  · rw [if_pos hemp] at h
    exact absurd h (by simp)
  · rw [if_neg hemp] at h
    dsimp only at h
    unfold ThetaCalculator.selectLeavingEdge at h
    cases hs : (ThetaCalculator.findLimitingEdges cycle
        (ThetaCalculator.findMinimumTheta cycle)).insertionSort
        (ThetaCalculator.leavingLe basis) with
    | nil => rw [hs] at h; exact absurd h (by simp)
    | cons ce tl =>
      rw [hs] at h
      obtain rfl := (Option.some.injEq .. ▸ h).symm
      have hmem : ce ∈ ThetaCalculator.findLimitingEdges cycle
          (ThetaCalculator.findMinimumTheta cycle) :=
        (List.perm_insertionSort (ThetaCalculator.leavingLe basis)
          _).mem_iff.mp (hs ▸ List.mem_cons_self _ _)
      exact ⟨ce, List.mem_of_mem_filter hmem, rfl⟩

/-- An entering edge chosen by the optimality checker is a non-basis
edge. -/
theorem optimality_entering_mem {g : Graph} {nb : List EdgeId}
    {pots : List (String × ℚ)} {flows : List (EdgeId × ℚ)}
    {r : OptimalityResult} {id : EdgeId}
    (h : OptimalityChecker.execute g nb pots flows = some r)
    (hent : r.entering_edge = some id) : id ∈ nb := by
  unfold OptimalityChecker.execute at h
  cases hd : OptimalityChecker.calculateAllDeltas g nb pots with
  | none => rw [hd] at h; exact absurd h (by simp)
  | some deltas =>
    rw [hd] at h
    dsimp only at h
    cases hv : OptimalityChecker.collectViolations g nb deltas flows with
    | none => rw [hv] at h; exact absurd h (by simp)
    | some viols =>
      rw [hv] at h
      dsimp only at h
      by_cases hlen : viols.length = 0
      · rw [if_pos hlen] at h
        obtain rfl := (Option.some.injEq .. ▸ h).symm
        exact absurd hent (by simp)
      · rw [if_neg hlen] at h
        cases hsel : OptimalityChecker.selectBestViolation viols with
        | none => rw [hsel] at h; exact absurd h (by simp)
        | some tri =>
          obtain ⟨eid, dir, score⟩ := tri
          rw [hsel] at h
          dsimp only at h
          obtain rfl := (Option.some.injEq .. ▸ h).symm
          have hid : id = eid := by
            have : some eid = some id := hent
            exact (Option.some.injEq .. ▸ this).symm
          subst hid
          unfold OptimalityChecker.selectBestViolation at hsel
          cases hsort : viols.insertionSort violLe with
          | nil => rw [hsort] at hsel; exact absurd hsel (by simp)
          | cons v vrest =>
            obtain ⟨vs, vid, vdir⟩ := v
            rw [hsort] at hsel
            dsimp only at hsel
            have hvv : id = vid := by
              have := (Option.some.injEq .. ▸ hsel).symm
              exact congrArg (fun t => t.1) this
            subst hvv
            have hvm : (vs, id, vdir) ∈ viols :=
              (List.perm_insertionSort violLe viols).mem_iff.mp
                (hsort ▸ List.mem_cons_self _ _)
            unfold OptimalityChecker.collectViolations at hv
            obtain ⟨-, hout⟩ := OptimalityChecker.collectViolationsAux_spec
              g deltas flows (sortIds nb) [] viols hv
            rw [hout] at hvm
            simp only [List.nil_append] at hvm
            obtain ⟨id₀, hid₀, hck⟩ := List.mem_filterMap.mp hvm
            have hck' : OptimalityChecker.checkSingleViolation g id₀ deltas
                flows = some (some (vs, id, vdir)) := by
              cases hc : OptimalityChecker.checkSingleViolation g id₀
                  deltas flows with
              | none => rw [hc] at hck; exact absurd hck (by simp)
              | some ov =>
                rw [hc] at hck
                simp only [Option.getD_some] at hck
                rw [hck]
            obtain ⟨hshape, -⟩ := OptimalityChecker.checkSingleViolation_shape
              g id₀ deltas flows _ hck'
            have : id = id₀ := hshape
            subst this
            exact mem_sortIds.mp hid₀

/-! ## The spanning-tree basis invariant and its preservation by the basis
pivot -/

/-- The basis-shape invariant of claim C4 for a pair of basis/non-basis edge
sets: `|B| = |nodes| − 1` (truncated subtraction covers the empty graph),
basis and non-basis partition the edge set, and the basis is a connected,
acyclic undirected graph over all nodes. -/
def BasisProps (g : Graph) (B N : List EdgeId) : Prop :=
  B.Nodup ∧ (∀ id ∈ B, id ∈ g.edgeIds) ∧
  (∀ id, id ∈ N ↔ (id ∈ g.edgeIds ∧ id ∉ B)) ∧
  B.length = g.nodes.length - 1 ∧
  connOn g.nodeIds B ∧ Acyclic B

/-- A state exposes well-formed basis and non-basis sets. -/
def BaseInv (g : Graph) (s : SolutionState) : Prop :=
  ∃ B N, s.basis_edges = some B ∧ s.non_basis_edges = some N ∧
    BasisProps g B N

/-- Full stage invariant: outside the initial state the basis sets satisfy
`BasisProps`, and the stage-specific fields (entering edge, cycle, leaving
edge) carry the facts each later stage relies on. -/
def StateInv (g : Graph) (s : SolutionState) : Prop :=
  s.step_type ≠ .INITIAL_STATE →
  ∃ B N, s.basis_edges = some B ∧ s.non_basis_edges = some N ∧
    BasisProps g B N ∧
    ((s.step_type = .CHECK_OPTIMALITY ∨ s.step_type = .FIND_CYCLE ∨
      s.step_type = .CALCULATE_THETA) →
      ∀ id, s.entering_edge = some id → id ∈ N) ∧
    ((s.step_type = .FIND_CYCLE ∨ s.step_type = .CALCULATE_THETA) →
      ∀ C, s.cycle = some C → ∀ ent, s.entering_edge = some ent →
        CycleShape g B ent C) ∧
    (s.step_type = .CALCULATE_THETA →
      ∀ l, s.leaving_edge = some l → ∀ C, s.cycle = some C →
        l ∈ C.map (fun ce => ce.edge.edge_id))

theorem setAdd_nodup {l : List EdgeId} {x : EdgeId} (hnd : l.Nodup) :
    (FlowUpdater.setAdd l x).Nodup := by
  unfold FlowUpdater.setAdd
  by_cases hx : x ∈ l
  · rw [if_pos hx]; exact hnd
  · rw [if_neg hx]
    rw [List.nodup_append]
    exact ⟨hnd, List.nodup_singleton _,
      fun a ha hb => hx ((List.mem_singleton.mp hb) ▸ ha)⟩

theorem setAdd_length_of_not_mem {l : List EdgeId} {x : EdgeId}
    (hx : x ∉ l) : (FlowUpdater.setAdd l x).length = l.length + 1 := by
  unfold FlowUpdater.setAdd
  rw [if_neg hx, List.length_append]
  rfl

/-- Preservation of `BasisProps` by `_update_basis`: degenerate pivots keep
the basis, a real pivot swaps the leaving tree edge for the entering edge
whose tree path crosses it once. -/
theorem updateBasis_props {g : Graph} (hwf : GraphWf g)
    {B N newB newN : List EdgeId} {entering : EdgeId}
    {leaving : Option EdgeId}
    (hbp : BasisProps g B N) (hentN : entering ∈ N)
    (hcross : ∀ f, leaving = some f → f ≠ entering →
      f ∈ B ∧ ∃ p q, ((p = f.1 ∧ q = f.2) ∨ (p = f.2 ∧ q = f.1)) ∧
        reach (edel B f) entering.2 p ∧ reach (edel B f) q entering.1)
    (h : FlowUpdater.updateBasis g entering leaving B =
      some (newB, newN)) : BasisProps g newB newN := by
  obtain ⟨hnd, hsub, hchar, hlen, hconn, hacy⟩ := hbp
  have hkeep : ∀ nn, nn = FlowUpdater.setDiff (FlowUpdater.allEdgeIds g) B →
      BasisProps g B nn := by
    intro nn hnn
    refine ⟨hnd, hsub, ?_, hlen, hconn, hacy⟩
    intro id
    rw [hnn, FlowUpdater.mem_setDiff, allEdgeIds_eq_edgeIds hwf]
  unfold FlowUpdater.updateBasis at h
  by_cases hle : leaving = some entering
  · rw [if_pos hle] at h
    simp only [Option.some.injEq, Prod.mk.injEq] at h
    have h1 := h.1.symm
    have h2 := h.2.symm
    subst h1
    subst h2
    exact hkeep _ rfl
  · rw [if_neg hle] at h
    cases hlv : leaving with
    | none =>
      rw [hlv] at h
      dsimp only at h
      simp only [Option.some.injEq, Prod.mk.injEq] at h
      have h1 := h.1.symm
      have h2 := h.2.symm
      subst h1
      subst h2
      exact hkeep _ rfl
    | some f =>
      rw [hlv] at h
      dsimp only at h
      have hne : f ≠ entering := by
        intro hc
        exact hle (hlv.trans (by rw [hc]))
      unfold FlowUpdater.setRemove at h
      by_cases hfB : f ∈ B
      · rw [if_pos hfB] at h
        dsimp only at h
        simp only [Option.some.injEq, Prod.mk.injEq] at h
        have h1 := h.1.symm
        have h2 := h.2.symm
        subst h1
        subst h2
        obtain ⟨-, p, q, hpq, hp, hq⟩ := hcross f hlv hne
        have hentE : entering ∈ g.edgeIds ∧ entering ∉ B :=
          (hchar entering).mp hentN
        have hmemNew : ∀ y, y ∈ FlowUpdater.setAdd (B.erase f) entering ↔
            (y ∈ B ∧ y ≠ f) ∨ y = (entering.1, entering.2) := by
          intro y
          rw [FlowUpdater.mem_setAdd, List.Nodup.mem_erase_iff hnd]
          constructor
          · rintro (⟨h1, h2⟩ | rfl)
            · exact Or.inl ⟨h2, h1⟩
            · exact Or.inr (Prod.mk.eta).symm
          · rintro (⟨h1, h2⟩ | hy)
            · exact Or.inl ⟨h2, h1⟩
            · exact Or.inr (hy.trans Prod.mk.eta)
        obtain ⟨hconn', hacy'⟩ := tree_exchange hconn hacy hfB hp hq hpq
          hmemNew
        have hentNotErase : entering ∉ B.erase f := by
          intro hc
          exact hentE.2 (List.mem_of_mem_erase hc)
        have hBpos : 0 < B.length := List.length_pos.mpr
          (fun hc => List.not_mem_nil f (hc ▸ hfB))
        refine ⟨setAdd_nodup (hnd.erase f), ?_, ?_, ?_, hconn', hacy'⟩
        · intro id hid
          rcases (FlowUpdater.mem_setAdd _ _ _).mp hid with h1 | rfl
          · exact hsub id (List.mem_of_mem_erase h1)
          · exact hentE.1
        · intro id
          rw [FlowUpdater.mem_setDiff, allEdgeIds_eq_edgeIds hwf]
        · rw [setAdd_length_of_not_mem hentNotErase,
            List.length_erase_of_mem hfB]
          omega
      · rw [if_neg hfB] at h
        dsimp only at h
        exact Option.noConfusion h

/-! ## Invariant preservation along every solver transition -/

theorem exceptMap_ok {ε α β : Type} {x : Except ε α} {f : α → β} {b : β}
    (h : x.map f = .ok b) : ∃ a, x = .ok a ∧ f a = b := by
  cases x with
  | error e => exact Except.noConfusion h
  | ok a =>
    have h' : Except.ok (f a) = Except.ok b := h
    exact ⟨a, rfl, Except.ok.injEq .. ▸ h'⟩

theorem execInitialization_eq (g : Graph)
    (initFn : Graph → Except Err BasisResult) :
    TransportSolver.execInitialization g initFn =
      match initFn g with
      | .error e => .error e
      | .ok r =>
        match TransportSolver.calculateObjectiveValue g r.flows with
        | none => .error .internalError
        | some obj =>
          .ok { step_type := .INITIAL_BASIS, iteration := 0,
                basis_edges := some r.basis_edges,
                non_basis_edges := some r.non_basis_edges,
                potentials := some [], deltas := some [],
                flows := some r.flows, objective_value := obj } := by
  unfold TransportSolver.execInitialization
  cases initFn g <;> rfl

theorem execInitialization_inv {g : Graph}
    {initFn : Graph → Except Err BasisResult} {s' : SolutionState}
    (hinit : ∀ br, initFn g = .ok br →
      BasisProps g br.basis_edges br.non_basis_edges)
    (h : TransportSolver.execInitialization g initFn = .ok s') :
    StateInv g s' ∧ s'.step_type = .INITIAL_BASIS := by
  rw [execInitialization_eq] at h
  cases hr : initFn g with
  | error e => rw [hr] at h; exact Except.noConfusion h
  | ok r =>
    rw [hr] at h
    dsimp only at h
    cases hobj : TransportSolver.calculateObjectiveValue g r.flows with
    | none => rw [hobj] at h; exact Except.noConfusion h
    | some obj =>
      rw [hobj] at h
      dsimp only at h
      have hs' := (Except.ok.injEq .. ▸ h)
      subst hs'
      refine ⟨?_, rfl⟩
      intro _
      exact ⟨r.basis_edges, r.non_basis_edges, rfl, rfl, hinit r hr,
        fun hor => absurd hor (by simp),
        fun hor => absurd hor (by simp),
        fun hor => absurd hor (by simp)⟩

theorem execPotentials_inv {g : Graph} {it : ℕ} {s s' : SolutionState}
    {B N : List EdgeId}
    (hb : s.basis_edges = some B) (hn : s.non_basis_edges = some N)
    (hbp : BasisProps g B N)
    (h : TransportSolver.execPotentials g it s = .ok s') :
    StateInv g s' ∧ s'.step_type = .CALCULATE_POTENTIALS := by
  unfold TransportSolver.execPotentials at h
  rw [hb] at h
  cases hf : s.flows with
  | none => rw [hf] at h; exact Except.noConfusion h
  | some flows =>
    rw [hf] at h
    dsimp only at h
    cases hpc : PotentialCalculator.execute g B with
    | none => rw [hpc] at h; exact Except.noConfusion h
    | some pots =>
      rw [hpc] at h
      dsimp only at h
      cases hobj : TransportSolver.calculateObjectiveValue g flows with
      | none => rw [hobj] at h; exact Except.noConfusion h
      | some obj =>
        rw [hobj] at h
        dsimp only at h
        have hs' := (Except.ok.injEq .. ▸ h)
        subst hs'
        refine ⟨?_, rfl⟩
        intro _
        exact ⟨B, N, rfl, hn, hbp,
          fun hor => absurd hor (by simp),
          fun hor => absurd hor (by simp),
          fun hor => absurd hor (by simp)⟩

theorem execOptimality_inv {g : Graph} {it : ℕ} {s s' : SolutionState}
    {B N : List EdgeId}
    (hb : s.basis_edges = some B) (hn : s.non_basis_edges = some N)
    (hbp : BasisProps g B N)
    (h : TransportSolver.execOptimality g it s = .ok s') :
    StateInv g s' ∧
      (s'.step_type = .OPTIMAL ∨ s'.step_type = .CHECK_OPTIMALITY) := by
  unfold TransportSolver.execOptimality at h
  rw [hn] at h
  cases hp : s.potentials with
  | none => rw [hp] at h; exact Except.noConfusion h
  | some pots =>
    rw [hp] at h
    cases hf : s.flows with
    | none => rw [hf] at h; exact Except.noConfusion h
    | some flows =>
      rw [hf] at h
      dsimp only at h
      cases hoe : OptimalityChecker.execute g N pots flows with
      | none => rw [hoe] at h; exact Except.noConfusion h
      | some result =>
        rw [hoe] at h
        dsimp only at h
        cases hobj : TransportSolver.calculateObjectiveValue g flows with
        | none => rw [hobj] at h; exact Except.noConfusion h
        | some obj =>
          rw [hobj] at h
          dsimp only at h
          by_cases hio : result.is_optimal = true
          · rw [if_pos hio] at h
            have hs' := (Except.ok.injEq .. ▸ h)
            subst hs'
            refine ⟨?_, Or.inl rfl⟩
            intro _
            exact ⟨B, N, hb, rfl, hbp,
              fun hor => absurd hor (by simp),
              fun hor => absurd hor (by simp),
              fun hor => absurd hor (by simp)⟩
          · rw [if_neg hio] at h
            cases hre : result.entering_edge with
            | none => rw [hre] at h; exact Except.noConfusion h
            | some edge =>
              rw [hre] at h
              cases hrd : result.improvement_direction with
              | none => rw [hrd] at h; exact Except.noConfusion h
              | some dir =>
                rw [hrd] at h
                dsimp only at h
                cases halk : alookup result.deltas edge with
                | none => rw [halk] at h; exact Except.noConfusion h
                | some d =>
                  rw [halk] at h
                  dsimp only at h
                  have hs' := (Except.ok.injEq .. ▸ h)
                  subst hs'
                  refine ⟨?_, Or.inr rfl⟩
                  intro _
                  refine ⟨B, N, hb, rfl, hbp, ?_,
                    fun hor => absurd hor (by simp),
                    fun hor => absurd hor (by simp)⟩
                  intro _ id hid
                  have : edge = id := Option.some.injEq .. ▸ hid
                  subst this
                  exact optimality_entering_mem hoe hre

theorem execCycle_inv {g : Graph} {it : ℕ} {s s' : SolutionState}
    {B N : List EdgeId} (hwf : GraphWf g)
    (hb : s.basis_edges = some B) (hn : s.non_basis_edges = some N)
    (hbp : BasisProps g B N)
    (hent : ∀ id, s.entering_edge = some id → id ∈ N)
    (h : TransportSolver.execCycle g it s = .ok s') :
    StateInv g s' ∧ s'.step_type = .FIND_CYCLE := by
  unfold TransportSolver.execCycle at h
  rw [hb] at h
  cases he : s.entering_edge with
  | none => rw [he] at h; exact Except.noConfusion h
  | some entering =>
    rw [he] at h
    cases hd : s.improvement_direction with
    | none => rw [hd] at h; exact Except.noConfusion h
    | some dir =>
      rw [hd] at h
      cases hf : s.flows with
      | none => rw [hf] at h; exact Except.noConfusion h
      | some flows =>
        rw [hf] at h
        dsimp only at h
        cases hcf : CycleFinder.execute g B entering dir flows with
        | none => rw [hcf] at h; exact Except.noConfusion h
        | some cycle =>
          rw [hcf] at h
          dsimp only at h
          cases hobj : TransportSolver.calculateObjectiveValue g flows with
          | none => rw [hobj] at h; exact Except.noConfusion h
          | some obj =>
            rw [hobj] at h
            dsimp only at h
            have hs' := (Except.ok.injEq .. ▸ h)
            subst hs'
            refine ⟨?_, rfl⟩
            intro _
            refine ⟨B, N, rfl, hn, hbp, ?_, ?_,
              fun hor => absurd hor (by simp)⟩
            · intro _ id hid
              have hie : entering = id :=
                Option.some.injEq .. ▸ (hid : some entering = some id)
              exact hie ▸ hent entering he
            · intro _ C hC ent hentEq
              have hC' : some cycle = some C := hC
              have hCc : cycle = C := Option.some.injEq .. ▸ hC'
              subst hCc
              have hee : entering = ent :=
                Option.some.injEq .. ▸ (hentEq : some entering = some ent)
              subst hee
              exact cycleFinder_shape hwf hcf

theorem execTheta_inv {g : Graph} {it : ℕ} {s s' : SolutionState}
    {B N : List EdgeId}
    (hb : s.basis_edges = some B) (hn : s.non_basis_edges = some N)
    (hbp : BasisProps g B N)
    (hent : ∀ id, s.entering_edge = some id → id ∈ N)
    (hcyc : ∀ C, s.cycle = some C → ∀ ent, s.entering_edge = some ent →
      CycleShape g B ent C)
    (h : TransportSolver.execTheta g it s = .ok s') :
    StateInv g s' ∧ s'.step_type = .CALCULATE_THETA := by
  unfold TransportSolver.execTheta at h
  cases hc : s.cycle with
  | none => rw [hc] at h; exact Except.noConfusion h
  | some cycle =>
    rw [hc] at h
    cases hf : s.flows with
    | none => rw [hf] at h; exact Except.noConfusion h
    | some flows =>
      rw [hf] at h
      dsimp only at h
      cases hobj : TransportSolver.calculateObjectiveValue g flows with
      | none => rw [hobj] at h; exact Except.noConfusion h
      | some obj =>
        rw [hobj] at h
        dsimp only at h
        have hs' := (Except.ok.injEq .. ▸ h)
        subst hs'
        refine ⟨?_, rfl⟩
        intro _
        refine ⟨B, N, hb, hn, hbp, fun _ => hent, ?_, ?_⟩
        · intro _ C hC ent hentEq
          have hC' : some cycle = some C := hC
          have hCc : cycle = C := Option.some.injEq .. ▸ hC'
          subst hCc
          exact hcyc cycle hc ent hentEq
        · intro _ l hl C hC
          have hC' : some cycle = some C := hC
          have hCc : cycle = C := Option.some.injEq .. ▸ hC'
          subst hCc
          have hl' : (ThetaCalculator.execute cycle
              (s.basis_edges.getD [])).2 = some l := hl
          obtain ⟨ce, hcem, hceid⟩ := theta_leaving_mem hl'
          exact List.mem_map.mpr ⟨ce, hcem, hceid⟩

theorem execFlowUpdate_inv {g : Graph} {it : ℕ} {s s' : SolutionState}
    {B N : List EdgeId} (hwf : GraphWf g)
    (hb : s.basis_edges = some B) (_hn : s.non_basis_edges = some N)
    (hbp : BasisProps g B N)
    (hent : ∀ id, s.entering_edge = some id → id ∈ N)
    (hcyc : ∀ C, s.cycle = some C → ∀ ent, s.entering_edge = some ent →
      CycleShape g B ent C)
    (hleav : ∀ l, s.leaving_edge = some l → ∀ C, s.cycle = some C →
      l ∈ C.map (fun ce => ce.edge.edge_id))
    (h : TransportSolver.execFlowUpdate g it s = .ok s') :
    StateInv g s' ∧ s'.step_type = .UPDATE_FLOWS := by
  unfold TransportSolver.execFlowUpdate at h
  cases hc : s.cycle with
  | none => rw [hc] at h; exact Except.noConfusion h
  | some cycle =>
    rw [hc] at h
    cases ht : s.theta with
    | none => rw [ht] at h; exact Except.noConfusion h
    | some theta =>
      rw [ht] at h
      cases he : s.entering_edge with
      | none => rw [he] at h; exact Except.noConfusion h
      | some entering =>
        rw [he] at h
        rw [hb] at h
        cases hf : s.flows with
        | none => rw [hf] at h; exact Except.noConfusion h
        | some flows =>
          rw [hf] at h
          dsimp only at h
          cases hfu : FlowUpdater.execute g cycle theta entering
              s.leaving_edge B flows with
          | none => rw [hfu] at h; exact Except.noConfusion h
          | some triple =>
            obtain ⟨newB, newN, newFl⟩ := triple
            rw [hfu] at h
            dsimp only at h
            cases hobj : TransportSolver.calculateObjectiveValue g
                newFl with
            | none => rw [hobj] at h; exact Except.noConfusion h
            | some obj =>
              rw [hobj] at h
              dsimp only at h
              have hs' := (Except.ok.injEq .. ▸ h)
              subst hs'
              -- recover the updateBasis call from FlowUpdater.execute
              unfold FlowUpdater.execute at hfu
              cases hub : FlowUpdater.updateBasis g entering
                  s.leaving_edge B with
              | none =>
                rw [hub] at hfu
                simp at hfu
              | some bnb =>
                obtain ⟨b₀, nb₀⟩ := bnb
                rw [hub] at hfu
                simp only [Option.some.injEq, Prod.mk.injEq] at hfu
                obtain ⟨hb₀, hnb₀, -⟩ := hfu
                subst hb₀
                subst hnb₀
                have hentN : entering ∈ N := hent entering he
                have hcross : ∀ f, s.leaving_edge = some f →
                    f ≠ entering → f ∈ B ∧ ∃ p q,
                      ((p = f.1 ∧ q = f.2) ∨ (p = f.2 ∧ q = f.1)) ∧
                      reach (edel B f) entering.2 p ∧
                      reach (edel B f) q entering.1 := by
                  intro f hlf hfne
                  have hlel := hleav f hlf cycle hc
                  obtain ⟨e₀, path, mkf, c₀, hge, hc₀, hcycEq, hmkf,
                    hpathd⟩ := hcyc cycle hc entering he
                  obtain ⟨hfrom, hto, -, -, -⟩ := get_edge_wf hwf hge
                  have he₀id : e₀.edge_id = entering := by
                    show (e₀.from_node, e₀.to_node) = entering
                    rw [hfrom, hto]
                  rw [hcycEq] at hlel
                  rw [List.map_cons] at hlel
                  have hfpath : f ∈ path.map (fun pe => pe.1.edge_id) := by
                    rcases List.mem_cons.mp hlel with h1 | h1
                    · rw [hc₀, he₀id] at h1
                      exact absurd h1 hfne
                    · rw [List.map_map] at h1
                      have : path.map
                          ((fun ce => ce.edge.edge_id) ∘ mkf) =
                          path.map (fun pe => pe.1.edge_id) := by
                        refine List.map_congr_left ?_
                        intro pe _
                        show (mkf pe).edge.edge_id = pe.1.edge_id
                        rw [hmkf pe]
                      rw [this] at h1
                      exact h1
                  have hpath_ne : path ≠ [] := by
                    intro hnil
                    rw [hnil] at hfpath
                    exact List.not_mem_nil f hfpath
                  rcases hpathd with hnil | ⟨hok, hen, hB, hndw⟩
                  · exact absurd hnil hpath_ne
                  · have hfB : f ∈ B := by
                      obtain ⟨pe, hpe, hpeid⟩ := List.mem_map.mp hfpath
                      exact hpeid ▸ hB pe hpe
                    exact ⟨hfB, walk_cross hok hen hndw hB hfpath⟩
                have hbp' := updateBasis_props hwf hbp hentN hcross hub
                refine ⟨?_, rfl⟩
                intro _
                exact ⟨b₀, nb₀, rfl, rfl, hbp',
                  fun hor => absurd hor (by simp),
                  fun hor => absurd hor (by simp),
                  fun hor => absurd hor (by simp)⟩

/-! ## Invariant preservation by `step`, the solve loop, and the full
solve -/

theorem stepCore_inv {g : Graph} {initFn : Graph → Except Err BasisResult}
    {it : ℕ} {s s' : SolutionState} {it' : ℕ} (hwf : GraphWf g)
    (hinit : ∀ br, initFn g = .ok br →
      BasisProps g br.basis_edges br.non_basis_edges)
    (hinv : StateInv g s)
    (h : TransportSolver.stepCore g initFn it s = .ok (s', it')) :
    StateInv g s' := by
  unfold TransportSolver.stepCore at h
  by_cases hopt : s.step_type = .OPTIMAL
  · rw [if_pos hopt] at h
    have hp := (Except.ok.injEq .. ▸ h)
    have hss : s = s' := congrArg (fun t => t.1) hp
    exact hss ▸ hinv
  · rw [if_neg hopt] at h
    by_cases hcap : TransportSolver.MAX_ITERATIONS ≤ it
    · rw [if_pos hcap] at h
      exact Except.noConfusion h
    · rw [if_neg hcap] at h
      cases hst : s.step_type with
      | INITIAL_STATE =>
        rw [hst] at h
        dsimp only at h
        obtain ⟨st, hex, hpair⟩ := exceptMap_ok h
        have hss : st = s' := congrArg (fun t => t.1) hpair
        exact hss ▸ (execInitialization_inv hinit hex).1
      | INITIAL_BASIS =>
        rw [hst] at h
        dsimp only at h
        obtain ⟨B, N, hb, hn, hbp, -, -, -⟩ := hinv (by rw [hst]; simp)
        obtain ⟨st, hex, hpair⟩ := exceptMap_ok h
        have hss : st = s' := congrArg (fun t => t.1) hpair
        exact hss ▸ (execPotentials_inv hb hn hbp hex).1
      | UPDATE_FLOWS =>
        rw [hst] at h
        dsimp only at h
        obtain ⟨B, N, hb, hn, hbp, -, -, -⟩ := hinv (by rw [hst]; simp)
        obtain ⟨st, hex, hpair⟩ := exceptMap_ok h
        have hss : st = s' := congrArg (fun t => t.1) hpair
        exact hss ▸ (execPotentials_inv hb hn hbp hex).1
      | CALCULATE_POTENTIALS =>
        rw [hst] at h
        dsimp only at h
        obtain ⟨B, N, hb, hn, hbp, -, -, -⟩ := hinv (by rw [hst]; simp)
        obtain ⟨st, hex, hpair⟩ := exceptMap_ok h
        have hss : st = s' := congrArg (fun t => t.1) hpair
        exact hss ▸ (execOptimality_inv hb hn hbp hex).1
      | CHECK_OPTIMALITY =>
        rw [hst] at h
        dsimp only at h
        obtain ⟨B, N, hb, hn, hbp, hentc, -, -⟩ := hinv (by rw [hst]; simp)
        obtain ⟨st, hex, hpair⟩ := exceptMap_ok h
        have hss : st = s' := congrArg (fun t => t.1) hpair
        exact hss ▸ (execCycle_inv hwf hb hn hbp
          (hentc (Or.inl hst)) hex).1
      | FIND_CYCLE =>
        rw [hst] at h
        dsimp only at h
        obtain ⟨B, N, hb, hn, hbp, hentc, hcycc, -⟩ :=
          hinv (by rw [hst]; simp)
        obtain ⟨st, hex, hpair⟩ := exceptMap_ok h
        have hss : st = s' := congrArg (fun t => t.1) hpair
        exact hss ▸ (execTheta_inv hb hn hbp (hentc (Or.inr (Or.inl hst)))
          (hcycc (Or.inl hst)) hex).1
      | CALCULATE_THETA =>
        rw [hst] at h
        dsimp only at h
        obtain ⟨B, N, hb, hn, hbp, hentc, hcycc, hleavc⟩ :=
          hinv (by rw [hst]; simp)
        obtain ⟨st, hex, hpair⟩ := exceptMap_ok h
        have hss : st = s' := congrArg (fun t => t.1) hpair
        exact hss ▸ (execFlowUpdate_inv hwf hb hn hbp
          (hentc (Or.inr (Or.inr hst))) (hcycc (Or.inr hst))
          (hleavc hst) hex).1
      | OPTIMAL => exact absurd hst hopt

theorem solveLoop_succ_eq (g : Graph) (fuel it : ℕ) (s : SolutionState) :
    TransportSolver.solveLoop g (fuel + 1) it s =
      match TransportSolver.execPotentials g it s with
      | .error e => .error e
      | .ok s1 =>
        match TransportSolver.execOptimality g it s1 with
        | .error e => .error e
        | .ok s2 =>
          if s2.step_type = .OPTIMAL then .ok (s2, it)
          else
            match TransportSolver.execCycle g it s2 with
            | .error e => .error e
            | .ok s3 =>
              match TransportSolver.execTheta g it s3 with
              | .error e => .error e
              | .ok s4 =>
                match TransportSolver.execFlowUpdate g it s4 with
                | .error e => .error e
                | .ok s5 =>
                  TransportSolver.solveLoop g fuel (it + 1) s5 := by
  show Except.bind (TransportSolver.execPotentials g it s) (fun s1 =>
      Except.bind (TransportSolver.execOptimality g it s1) (fun s2 =>
        if s2.step_type = .OPTIMAL then .ok (s2, it)
        else Except.bind (TransportSolver.execCycle g it s2) (fun s3 =>
          Except.bind (TransportSolver.execTheta g it s3) (fun s4 =>
            Except.bind (TransportSolver.execFlowUpdate g it s4)
              (fun s5 =>
                TransportSolver.solveLoop g fuel (it + 1) s5))))) = _
  cases TransportSolver.execPotentials g it s with
  | error e => rfl
  | ok s1 =>
    show Except.bind (TransportSolver.execOptimality g it s1) (fun s2 =>
        if s2.step_type = .OPTIMAL then .ok (s2, it)
        else Except.bind (TransportSolver.execCycle g it s2) (fun s3 =>
          Except.bind (TransportSolver.execTheta g it s3) (fun s4 =>
            Except.bind (TransportSolver.execFlowUpdate g it s4)
              (fun s5 => TransportSolver.solveLoop g fuel (it + 1) s5)))) =
      (match TransportSolver.execOptimality g it s1 with
      | .error e => .error e
      | .ok s2 =>
        if s2.step_type = .OPTIMAL then .ok (s2, it)
        else
          match TransportSolver.execCycle g it s2 with
          | .error e => .error e
          | .ok s3 =>
            match TransportSolver.execTheta g it s3 with
            | .error e => .error e
            | .ok s4 =>
              match TransportSolver.execFlowUpdate g it s4 with
              | .error e => .error e
              | .ok s5 => TransportSolver.solveLoop g fuel (it + 1) s5)
    cases TransportSolver.execOptimality g it s1 with
    | error e => rfl
    | ok s2 =>
      show (if s2.step_type = .OPTIMAL then Except.ok (s2, it)
        else Except.bind (TransportSolver.execCycle g it s2) (fun s3 =>
          Except.bind (TransportSolver.execTheta g it s3) (fun s4 =>
            Except.bind (TransportSolver.execFlowUpdate g it s4)
              (fun s5 =>
                TransportSolver.solveLoop g fuel (it + 1) s5)))) =
        (if s2.step_type = .OPTIMAL then Except.ok (s2, it)
         else
          match TransportSolver.execCycle g it s2 with
          | .error e => .error e
          | .ok s3 =>
            match TransportSolver.execTheta g it s3 with
            | .error e => .error e
            | .ok s4 =>
              match TransportSolver.execFlowUpdate g it s4 with
              | .error e => .error e
              | .ok s5 => TransportSolver.solveLoop g fuel (it + 1) s5)
      by_cases h2 : s2.step_type = .OPTIMAL
      · rw [if_pos h2, if_pos h2]
      · rw [if_neg h2, if_neg h2]
        cases TransportSolver.execCycle g it s2 with
        | error e => rfl
        | ok s3 =>
          show Except.bind (TransportSolver.execTheta g it s3) (fun s4 =>
              Except.bind (TransportSolver.execFlowUpdate g it s4)
                (fun s5 => TransportSolver.solveLoop g fuel (it + 1) s5)) =
            (match TransportSolver.execTheta g it s3 with
            | .error e => .error e
            | .ok s4 =>
              match TransportSolver.execFlowUpdate g it s4 with
              | .error e => .error e
              | .ok s5 => TransportSolver.solveLoop g fuel (it + 1) s5)
          cases TransportSolver.execTheta g it s3 with
          | error e => rfl
          | ok s4 =>
            show Except.bind (TransportSolver.execFlowUpdate g it s4)
                (fun s5 =>
                  TransportSolver.solveLoop g fuel (it + 1) s5) =
              (match TransportSolver.execFlowUpdate g it s4 with
              | .error e => .error e
              | .ok s5 => TransportSolver.solveLoop g fuel (it + 1) s5)
            cases TransportSolver.execFlowUpdate g it s4 with
            | error e => rfl
            | ok s5 => rfl

/-- A state satisfying the full invariant away from the initial stage also
satisfies the basis invariant. -/
theorem baseInv_of_stateInv {g : Graph} {s : SolutionState}
    (hinv : StateInv g s) (hne : s.step_type ≠ .INITIAL_STATE) :
    BaseInv g s := by
  obtain ⟨B, N, hb, hn, hbp, -, -, -⟩ := hinv hne
  exact ⟨B, N, hb, hn, hbp⟩

theorem solveLoop_inv {g : Graph} (hwf : GraphWf g) :
    ∀ (fuel it : ℕ) (s : SolutionState) (s' : SolutionState) (it' : ℕ),
      StateInv g s → BaseInv g s →
      TransportSolver.solveLoop g fuel it s = .ok (s', it') →
      StateInv g s' ∧ BaseInv g s' := by
  intro fuel
  induction fuel with
  | zero =>
    intro it s s' it' hinv hbase h
    have hp := (Except.ok.injEq .. ▸ h)
    have hss : s = s' := congrArg (fun t => t.1) hp
    exact hss ▸ ⟨hinv, hbase⟩
  | succ fuel ih =>
    intro it s s' it' hinv hbase h
    rw [solveLoop_succ_eq] at h
    obtain ⟨B, N, hb, hn, hbp⟩ := hbase
    cases h1 : TransportSolver.execPotentials g it s with
    | error e => rw [h1] at h; exact Except.noConfusion h
    | ok s1 =>
      rw [h1] at h
      dsimp only at h
      obtain ⟨hinv1, hst1⟩ := execPotentials_inv hb hn hbp h1
      obtain ⟨B1, N1, hb1, hn1, hbp1⟩ :=
        baseInv_of_stateInv hinv1 (by rw [hst1]; simp)
      cases h2 : TransportSolver.execOptimality g it s1 with
      | error e => rw [h2] at h; exact Except.noConfusion h
      | ok s2 =>
        rw [h2] at h
        dsimp only at h
        obtain ⟨hinv2, hst2⟩ := execOptimality_inv hb1 hn1 hbp1 h2
        have hne2 : s2.step_type ≠ .INITIAL_STATE := by
          rcases hst2 with h' | h' <;> rw [h'] <;> simp
        by_cases hopt2 : s2.step_type = .OPTIMAL
        · rw [if_pos hopt2] at h
          have hp := (Except.ok.injEq .. ▸ h)
          have hss : s2 = s' := congrArg (fun t => t.1) hp
          exact hss ▸ ⟨hinv2, baseInv_of_stateInv hinv2 hne2⟩
        · rw [if_neg hopt2] at h
          have hst2' : s2.step_type = .CHECK_OPTIMALITY := by
            rcases hst2 with h' | h'
            · exact absurd h' hopt2
            · exact h'
          obtain ⟨B2, N2, hb2, hn2, hbp2, hentc2, -, -⟩ := hinv2 hne2
          cases h3 : TransportSolver.execCycle g it s2 with
          | error e => rw [h3] at h; exact Except.noConfusion h
          | ok s3 =>
            rw [h3] at h
            dsimp only at h
            obtain ⟨hinv3, hst3⟩ := execCycle_inv hwf hb2 hn2 hbp2
              (hentc2 (Or.inl hst2')) h3
            obtain ⟨B3, N3, hb3, hn3, hbp3, hentc3, hcycc3, -⟩ :=
              hinv3 (by rw [hst3]; simp)
            cases h4 : TransportSolver.execTheta g it s3 with
            | error e => rw [h4] at h; exact Except.noConfusion h
            | ok s4 =>
              rw [h4] at h
              dsimp only at h
              obtain ⟨hinv4, hst4⟩ := execTheta_inv hb3 hn3 hbp3
                (hentc3 (Or.inr (Or.inl hst3))) (hcycc3 (Or.inl hst3)) h4
              obtain ⟨B4, N4, hb4, hn4, hbp4, hentc4, hcycc4, hleavc4⟩ :=
                hinv4 (by rw [hst4]; simp)
              cases h5 : TransportSolver.execFlowUpdate g it s4 with
              | error e => rw [h5] at h; exact Except.noConfusion h
              | ok s5 =>
                rw [h5] at h
                dsimp only at h
                obtain ⟨hinv5, hst5⟩ := execFlowUpdate_inv hwf hb4 hn4
                  hbp4 (hentc4 (Or.inr (Or.inr hst4)))
                  (hcycc4 (Or.inr hst4)) (hleavc4 hst4) h5
                exact ih (it + 1) s5 s' it' hinv5
                  (baseInv_of_stateInv hinv5 (by rw [hst5]; simp)) h

theorem solveStepByStep_eq (g : Graph)
    (initFn : Graph → Except Err BasisResult) :
    TransportSolver.solveStepByStep g initFn =
      match TransportSolver.execInitialization g initFn with
      | .error e => .error e
      | .ok s0 =>
        match TransportSolver.solveLoop g TransportSolver.MAX_ITERATIONS
            0 s0 with
        | .error e => .error e
        | .ok r =>
          if TransportSolver.MAX_ITERATIONS ≤ r.2 then
            .error .iterationLimit
          else .ok r := by
  unfold TransportSolver.solveStepByStep
  cases TransportSolver.execInitialization g initFn with
  | error e => rfl
  | ok s0 =>
    show Except.bind (TransportSolver.solveLoop g
        TransportSolver.MAX_ITERATIONS 0 s0) (fun r =>
        if TransportSolver.MAX_ITERATIONS ≤ r.2 then
          .error .iterationLimit else .ok r) =
      (match TransportSolver.solveLoop g TransportSolver.MAX_ITERATIONS
          0 s0 with
      | .error e => .error e
      | .ok r =>
        if TransportSolver.MAX_ITERATIONS ≤ r.2 then
          .error .iterationLimit
        else .ok r)
    cases TransportSolver.solveLoop g TransportSolver.MAX_ITERATIONS
        0 s0 with
    | error e => rfl
    | ok r => rfl

theorem solveStepByStep_inv {g : Graph}
    {initFn : Graph → Except Err BasisResult} {final : SolutionState}
    {iters : ℕ} (hwf : GraphWf g)
    (hinit : ∀ br, initFn g = .ok br →
      BasisProps g br.basis_edges br.non_basis_edges)
    (h : TransportSolver.solveStepByStep g initFn = .ok (final, iters)) :
    StateInv g final ∧ BaseInv g final := by
  rw [solveStepByStep_eq] at h
  cases hex : TransportSolver.execInitialization g initFn with
  | error e => rw [hex] at h; exact Except.noConfusion h
  | ok s0 =>
    rw [hex] at h
    dsimp only at h
    obtain ⟨hinv0, hst0⟩ := execInitialization_inv hinit hex
    cases hlp : TransportSolver.solveLoop g
        TransportSolver.MAX_ITERATIONS 0 s0 with
    | error e => rw [hlp] at h; exact Except.noConfusion h
    | ok r =>
      rw [hlp] at h
      dsimp only at h
      obtain ⟨sf, itf⟩ := r
      obtain ⟨hinvf, hbasef⟩ := solveLoop_inv hwf _ _ _ _ _ hinv0
        (baseInv_of_stateInv hinv0 (by rw [hst0]; simp)) hlp
      by_cases hcap : TransportSolver.MAX_ITERATIONS ≤ itf
      · rw [if_pos hcap] at h
        exact Except.noConfusion h
      · rw [if_neg hcap] at h
        have hp := (Except.ok.injEq .. ▸ h)
        have hss : sf = final := congrArg (fun t => t.1) hp
        exact hss ▸ ⟨hinvf, hbasef⟩

/-! ## Verification of the union-find used by `_rebuild_basis` -/

/-- Parent function of the DSU dict (`parent.get(x, x)` view; the Python
code raises on a missing key, which the fuel-`Option` models). -/
def parentFun (p : List (String × String)) (x : String) : String :=
  (alookup p x).getD x

def keysOf (p : List (String × String)) : List String := p.map Prod.fst

def IsFix (p : List (String × String)) (x : String) : Prop :=
  parentFun p x = x

instance (p : List (String × String)) (x : String) :
    Decidable (IsFix p x) := by
  unfold IsFix
  infer_instance

/-- `r` is the representative of `x`: a fixpoint reached by iterating the
parent map. -/
def Root (p : List (String × String)) (x r : String) : Prop :=
  IsFix p r ∧ ∃ k, (parentFun p)^[k] x = r

theorem iterate_fix {p : List (String × String)} {r : String}
    (h : IsFix p r) : ∀ k, (parentFun p)^[k] r = r := by
  intro k
  induction k with
  | zero => rfl
  | succ k ih => rw [Function.iterate_succ_apply, h, ih]

theorem iterate_stab {p : List (String × String)} {x r : String} {k : ℕ}
    (hk : (parentFun p)^[k] x = r) (hfix : IsFix p r) :
    ∀ m, k ≤ m → (parentFun p)^[m] x = r := by
  intro m hm
  have : m = (m - k) + k := by omega
  rw [this, Function.iterate_add_apply, hk, iterate_fix hfix]

theorem Root_unique {p : List (String × String)} {x r₁ r₂ : String}
    (h1 : Root p x r₁) (h2 : Root p x r₂) : r₁ = r₂ := by
  obtain ⟨hf1, k1, hk1⟩ := h1
  obtain ⟨hf2, k2, hk2⟩ := h2
  rcases le_total k1 k2 with h | h
  · rw [← iterate_stab hk1 hf1 k2 h, hk2]
  · rw [← iterate_stab hk2 hf2 k1 h, hk1]

theorem Root_step {p : List (String × String)} {x y r : String}
    (hxy : parentFun p x = y) (h : Root p y r) : Root p x r := by
  obtain ⟨hf, k, hk⟩ := h
  exact ⟨hf, k + 1, by rw [Function.iterate_succ_apply, hxy, hk]⟩

theorem Root_of_fix {p : List (String × String)} {r : String}
    (h : IsFix p r) : Root p r r := ⟨h, 0, rfl⟩

theorem fix_iff_root_self {p : List (String × String)} {z : String} :
    IsFix p z ↔ Root p z z :=
  ⟨Root_of_fix, fun h => h.1⟩

theorem root_parent_iff {p : List (String × String)} {z q : String}
    (hnf : ¬ IsFix p z) :
    Root p z q ↔ Root p (parentFun p z) q := by
  constructor
  · rintro ⟨hq, m, hm⟩
    cases m with
    | zero =>
      have hm' : z = q := hm
      subst hm'
      exact absurd hq hnf
    | succ m =>
      exact ⟨hq, m, by rw [← Function.iterate_succ_apply]; exact hm⟩
  · exact Root_step rfl

/-- The DSU invariant: keys are exactly the element set, the parent map is
closed over it, and some rank function strictly decreases along parent
links (the parent structure is a forest). -/
def DsuInv (elems : List String) (p : List (String × String)) : Prop :=
  (∀ x, x ∈ keysOf p ↔ x ∈ elems) ∧
  (∀ x ∈ elems, parentFun p x ∈ elems) ∧
  ∃ rank : String → ℕ, ∀ x ∈ elems,
    parentFun p x = x ∨ rank (parentFun p x) < rank x

theorem iterate_mem {elems : List String} {p : List (String × String)}
    (hcl : ∀ x ∈ elems, parentFun p x ∈ elems) {x : String}
    (hx : x ∈ elems) : ∀ k, (parentFun p)^[k] x ∈ elems := by
  intro k
  induction k with
  | zero => exact hx
  | succ k ih =>
    rw [Function.iterate_succ_apply']
    exact hcl _ ih

theorem rank_iterate {elems : List String} {p : List (String × String)}
    {rank : String → ℕ}
    (hcl : ∀ x ∈ elems, parentFun p x ∈ elems)
    (hrk : ∀ x ∈ elems, parentFun p x = x ∨
      rank (parentFun p x) < rank x) :
    ∀ (k : ℕ) (x : String), x ∈ elems →
      (parentFun p)^[k] x = x ∨ rank ((parentFun p)^[k] x) < rank x := by
  intro k
  induction k with
  | zero => intro x _; exact Or.inl rfl
  | succ k ih =>
    intro x hx
    rw [Function.iterate_succ_apply]
    rcases hrk x hx with hfix | hlt
    · rw [hfix]
      exact ih x hx
    · rcases ih (parentFun p x) (hcl x hx) with h1 | h1
      · rw [h1]
        exact Or.inr hlt
      · exact Or.inr (lt_trans h1 hlt)

/-- Pigeonhole: iterating the parent map stabilizes within `|elems|`
steps. -/
theorem stab_exists {elems : List String} {p : List (String × String)}
    (hinv : DsuInv elems p) {x : String} (hx : x ∈ elems) :
    ∃ k ≤ elems.length, IsFix p ((parentFun p)^[k] x) := by
  obtain ⟨-, hcl, rank, hrk⟩ := hinv
  by_contra hcon
  push_neg at hcon
  -- with no fixpoint in the first |elems| iterates, ranks strictly
  -- decrease along them
  have hstrict : ∀ b ≤ elems.length + 1, ∀ a < b,
      rank ((parentFun p)^[b] x) < rank ((parentFun p)^[a] x) := by
    intro b
    induction b with
    | zero => intro _ a ha; omega
    | succ b ihb =>
      intro hble a hab
      have hbfix : ¬ IsFix p ((parentFun p)^[b] x) :=
        hcon b (by omega)
      have hstep : rank ((parentFun p)^[b + 1] x) <
          rank ((parentFun p)^[b] x) := by
        rw [Function.iterate_succ_apply']
        rcases hrk _ (iterate_mem hcl hx b) with h1 | h1
        · exact absurd h1 hbfix
        · exact h1
      rcases Nat.lt_or_ge a b with h2 | h2
      · exact lt_trans hstep (ihb (by omega) a h2)
      · have hab' : a = b := by omega
        rw [hab']
        exact hstep
  -- but two of the first |elems|+1 iterates coincide
  have hmaps : ∀ k ∈ Finset.range (elems.length + 1),
      (parentFun p)^[k] x ∈ elems.toFinset := by
    intro k _
    exact List.mem_toFinset.mpr (iterate_mem hcl hx k)
  have hcard : elems.toFinset.card < (Finset.range
      (elems.length + 1)).card := by
    rw [Finset.card_range]
    exact Nat.lt_succ_of_le elems.toFinset_card_le
  obtain ⟨i, hi, j, hj, hij, heq⟩ :=
    Finset.exists_ne_map_eq_of_card_lt_of_maps_to hcard hmaps
  rw [Finset.mem_range] at hi hj
  rcases Nat.lt_or_ge i j with hlt | hge
  · have := hstrict j (by omega) i hlt
    rw [heq] at this
    exact absurd this (lt_irrefl _)
  · have hji : j < i := by omega
    have := hstrict i (by omega) j hji
    rw [heq] at this
    exact absurd this (lt_irrefl _)

theorem root_exists {elems : List String} {p : List (String × String)}
    (hinv : DsuInv elems p) {x : String} (hx : x ∈ elems) :
    ∃ r, Root p x r := by
  obtain ⟨k, -, hfix⟩ := stab_exists hinv hx
  exact ⟨(parentFun p)^[k] x, hfix, k, rfl⟩

theorem root_mem {elems : List String} {p : List (String × String)}
    (hcl : ∀ x ∈ elems, parentFun p x ∈ elems) {x r : String}
    (hx : x ∈ elems) (hr : Root p x r) : r ∈ elems := by
  obtain ⟨-, k, hk⟩ := hr
  exact hk ▸ iterate_mem hcl hx k

theorem root_rank {elems : List String} {p : List (String × String)}
    {rank : String → ℕ}
    (hcl : ∀ x ∈ elems, parentFun p x ∈ elems)
    (hrk : ∀ x ∈ elems, parentFun p x = x ∨
      rank (parentFun p x) < rank x)
    {x r : String} (hx : x ∈ elems) (hr : Root p x r) :
    r = x ∨ rank r < rank x := by
  obtain ⟨-, k, hk⟩ := hr
  rcases rank_iterate hcl hrk k x hx with h1 | h1
  · exact Or.inl (hk ▸ h1)
  · exact Or.inr (hk ▸ h1)

theorem parentFun_not_mem {p : List (String × String)} {x : String}
    (hx : x ∉ keysOf p) : parentFun p x = x := by
  unfold parentFun
  cases hlk : alookup p x with
  | none => rfl
  | some v =>
    exact absurd ((alookup_isSome_iff p x).mp (by rw [hlk]; rfl)) hx

theorem parentFun_aset {p : List (String × String)} {x r : String} :
    ∀ z, parentFun (aset p x r) z = if z = x then r else parentFun p z := by
  intro z
  unfold parentFun
  rw [alookup_aset]
  by_cases hz : z = x
  · rw [if_pos hz, if_pos hz]
    rfl
  · rw [if_neg hz, if_neg hz]

theorem keysOf_aset_mem {p : List (String × String)} {x r : String}
    (hx : x ∈ keysOf p) : ∀ z, z ∈ keysOf (aset p x r) ↔ z ∈ keysOf p := by
  intro z
  constructor
  · intro hz
    obtain ⟨pr, hpr, hfst⟩ := List.mem_map.mp hz
    have := alookup_isSome_iff (aset p x r) z
    rw [alookup_aset] at this
    by_cases hzx : z = x
    · exact hzx ▸ hx
    · rw [if_neg hzx] at this
      exact (alookup_isSome_iff p z).mp (this.mpr hz)
  · intro hz
    have := alookup_isSome_iff (aset p x r) z
    rw [alookup_aset] at this
    by_cases hzx : z = x
    · refine this.mp ?_
      rw [if_pos hzx]
      rfl
    · refine this.mp ?_
      rw [if_neg hzx]
      exact (alookup_isSome_iff p z).mpr hz

/-! ## Specifications of `DisjointSet.find` and `DisjointSet.union` -/

/-- Path compression (re-pointing `x` to its own representative) preserves
representatives. -/
theorem compress_roots {elems : List String} {p : List (String × String)}
    (hinv : DsuInv elems p) {x r : String} (hx : x ∈ elems)
    (hroot : Root p x r) :
    ∀ z ∈ elems, ∀ q, Root p z q ↔ Root (aset p x r) z q := by
  have hfixP' : ∀ w, IsFix p w → IsFix (aset p x r) w := by
    intro w hw
    unfold IsFix
    rw [parentFun_aset]
    by_cases hwx : w = x
    · rw [if_pos hwx]
      subst hwx
      exact (Root_unique hroot (Root_of_fix hw)).symm ▸ rfl
    · rw [if_neg hwx]
      exact hw
  have hfwd : ∀ (m : ℕ) (z : String), ∀ q, IsFix p q →
      (parentFun p)^[m] z = q → Root (aset p x r) z q := by
    intro m
    induction m with
    | zero =>
      intro z q hq hm
      have hzq : z = q := hm
      subst hzq
      exact Root_of_fix (hfixP' z hq)
    | succ m ih =>
      intro z q hq hm
      by_cases hzx : z = x
      · subst hzx
        have hzq : q = r := Root_unique ⟨hq, m + 1, hm⟩ hroot
        subst hzq
        refine Root_step (y := q) ?_ (Root_of_fix ?_)
        · rw [parentFun_aset, if_pos rfl]
        · exact hfixP' q hroot.1
      · have hstep : (parentFun p)^[m] (parentFun p z) = q := by
          rw [← Function.iterate_succ_apply]
          exact hm
        refine Root_step (y := parentFun p z) ?_ (ih (parentFun p z) q hq
          hstep)
        rw [parentFun_aset, if_neg hzx]
  intro z hz q
  constructor
  · rintro ⟨hq, m, hm⟩
    exact hfwd m z q hq hm
  · intro hP'
    obtain ⟨q₀, hq₀⟩ := root_exists hinv hz
    obtain ⟨hq₀f, m, hm⟩ := hq₀
    have := hfwd m z q₀ hq₀f hm
    have heq : q = q₀ := Root_unique hP' this
    exact heq ▸ ⟨hq₀f, m, hm⟩

/-- Path compression preserves the whole DSU invariant. -/
theorem compress_inv {elems : List String} {p : List (String × String)}
    (hinv : DsuInv elems p) {x r : String} (hx : x ∈ elems)
    (hroot : Root p x r) : DsuInv elems (aset p x r) := by
  obtain ⟨hkeys, hcl, rank, hrk⟩ := hinv
  have hrmem : r ∈ elems := root_mem hcl hx hroot
  refine ⟨?_, ?_, ?_⟩
  · intro z
    rw [keysOf_aset_mem ((hkeys x).mpr hx)]
    exact hkeys z
  · intro z hz
    rw [parentFun_aset]
    by_cases hzx : z = x
    · rw [if_pos hzx]
      exact hrmem
    · rw [if_neg hzx]
      exact hcl z hz
  · refine ⟨rank, ?_⟩
    intro z hz
    rw [parentFun_aset]
    by_cases hzx : z = x
    · rw [if_pos hzx]
      subst hzx
      rcases root_rank hcl hrk hz hroot with h1 | h1
      · exact Or.inl h1
      · exact Or.inr h1
    · rw [if_neg hzx]
      exact hrk z hz

/-- Full functional specification of `find` with enough fuel. -/
theorem find_spec {elems : List String} {p : List (String × String)}
    (hinv : DsuInv elems p) :
    ∀ (k : ℕ) (x : String) (fuel : ℕ), x ∈ elems →
      IsFix p ((parentFun p)^[k] x) → k < fuel →
      ∃ p', DisjointSet.find fuel p x =
          some ((parentFun p)^[k] x, p') ∧
        DsuInv elems p' ∧
        (∀ z ∈ elems, ∀ q, Root p z q ↔ Root p' z q) := by
  intro k
  induction k with
  | zero =>
    intro x fuel hx hfix hkf
    obtain ⟨fuel, rfl⟩ : ∃ m, fuel = m + 1 :=
      ⟨fuel - 1, by omega⟩
    have hfx : parentFun p x = x := hfix
    unfold DisjointSet.find
    cases hlk : alookup p x with
    | none =>
      exact absurd ((alookup_isSome_iff p x).mpr
        ((hinv.1 x).mpr hx)) (by rw [hlk]; simp)
    | some px =>
      have hpx : px = x := by
        have : parentFun p x = px := by
          unfold parentFun
          rw [hlk]
          rfl
        rw [← this, hfx]
      subst hpx
      dsimp only
      rw [if_pos rfl]
      exact ⟨p, rfl, hinv, fun z _ q => Iff.rfl⟩
  | succ k ih =>
    intro x fuel hx hfix hkf
    obtain ⟨fuel, rfl⟩ : ∃ m, fuel = m + 1 :=
      ⟨fuel - 1, by omega⟩
    unfold DisjointSet.find
    cases hlk : alookup p x with
    | none =>
      exact absurd ((alookup_isSome_iff p x).mpr
        ((hinv.1 x).mpr hx)) (by rw [hlk]; simp)
    | some px =>
      have hpx : parentFun p x = px := by
        unfold parentFun
        rw [hlk]
        rfl
      dsimp only
      by_cases hpxx : px = x
      · rw [if_pos hpxx]
        have hfx : IsFix p x := by
          unfold IsFix
          rw [hpx, hpxx]
        have hit : (parentFun p)^[k + 1] x = x := iterate_fix hfx (k + 1)
        rw [hit]
        exact ⟨p, rfl, hinv, fun z _ q => Iff.rfl⟩
      · rw [if_neg hpxx]
        have hpxmem : px ∈ elems := hpx ▸ hinv.2.1 x hx
        have hfix' : IsFix p ((parentFun p)^[k] px) := by
          have : (parentFun p)^[k] px = (parentFun p)^[k + 1] x := by
            rw [Function.iterate_succ_apply, hpx]
          rw [this]
          exact hfix
        obtain ⟨p'', hfind, hinv'', hpres''⟩ :=
          ih px fuel hpxmem hfix' (by omega)
        rw [hfind]
        set r := (parentFun p)^[k] px with hr
        have hrx : r = (parentFun p)^[k + 1] x := by
          rw [hr, Function.iterate_succ_apply, hpx]
        have hrootP : Root p x r := by
          refine Root_step hpx ⟨hfix', k, rfl⟩
        have hrootP'' : Root p'' x r := (hpres'' x hx r).mp hrootP
        refine ⟨aset p'' x r, ?_, ?_, ?_⟩
        · rw [hrx]
        · exact compress_inv hinv'' hx hrootP''
        · intro z hz q
          rw [hpres'' z hz q]
          exact compress_roots hinv'' hx hrootP'' z hz q

/-- `find` succeeds with exactly the representative. -/
theorem find_full {elems : List String} {p : List (String × String)}
    (hinv : DsuInv elems p) {x : String} (hx : x ∈ elems) :
    ∃ r p', DisjointSet.find (elems.length + 1) p x = some (r, p') ∧
      Root p x r ∧ DsuInv elems p' ∧
      (∀ z ∈ elems, ∀ q, Root p z q ↔ Root p' z q) := by
  obtain ⟨k, hk, hfix⟩ := stab_exists hinv hx
  obtain ⟨p', hfind, hinv', hpres⟩ :=
    find_spec hinv k x (elems.length + 1) hx hfix (by omega)
  exact ⟨_, p', hfind, ⟨hfix, k, rfl⟩, hinv', hpres⟩

/-- Re-pointing the root `rx` to the root `ry` re-maps representatives. -/
theorem union_aset_roots {elems : List String}
    {p : List (String × String)} (_hinv : DsuInv elems p) {rx ry : String}
    (hfx : IsFix p rx) (hfy : IsFix p ry) (hne : rx ≠ ry) :
    ∀ z ∈ elems, ∀ q, Root p z q →
      Root (aset p rx ry) z (if q = rx then ry else q) := by
  have hfixP' : ∀ w, w ≠ rx → IsFix p w → IsFix (aset p rx ry) w := by
    intro w hw hfw
    unfold IsFix
    rw [parentFun_aset, if_neg hw]
    exact hfw
  have hryP' : Root (aset p rx ry) rx ry := by
    refine Root_step (y := ry) ?_ (Root_of_fix (hfixP' ry ?_ hfy))
    · rw [parentFun_aset, if_pos rfl]
    · exact fun hc => hne hc.symm
  have hfwd : ∀ (m : ℕ) (z : String), ∀ q, IsFix p q →
      (parentFun p)^[m] z = q →
      Root (aset p rx ry) z (if q = rx then ry else q) := by
    intro m
    induction m with
    | zero =>
      intro z q hq hm
      have hzq : z = q := hm
      subst hzq
      by_cases hzx : z = rx
      · rw [if_pos hzx]
        subst hzx
        exact hryP'
      · rw [if_neg hzx]
        exact Root_of_fix (hfixP' z hzx hq)
    | succ m ih =>
      intro z q hq hm
      by_cases hzx : z = rx
      · have hroot_z : Root p z rx := by
          rw [hzx]
          exact Root_of_fix hfx
        have hzq : q = rx := Root_unique ⟨hq, m + 1, hm⟩ hroot_z
        rw [hzq, if_pos rfl, hzx]
        exact hryP'
      · have hstep : (parentFun p)^[m] (parentFun p z) = q := by
          rw [← Function.iterate_succ_apply]
          exact hm
        refine Root_step (y := parentFun p z) ?_
          (ih (parentFun p z) q hq hstep)
        rw [parentFun_aset, if_neg hzx]
  intro z hz q hroot
  obtain ⟨hq, m, hm⟩ := hroot
  exact hfwd m z q hq hm

/-- Re-pointing preserves the DSU invariant (a fresh rank function layers
the absorbed tree above its new root). -/
theorem union_aset_inv {elems : List String}
    {p : List (String × String)} (hinv : DsuInv elems p) {rx ry : String}
    (hrxm : rx ∈ elems) (hrym : ry ∈ elems)
    (hfx : IsFix p rx) (hfy : IsFix p ry) (hne : rx ≠ ry) :
    DsuInv elems (aset p rx ry) := by
  classical
  obtain ⟨hkeys, hcl, rank, hrk⟩ := hinv
  refine ⟨?_, ?_, ?_⟩
  · intro z
    rw [keysOf_aset_mem ((hkeys rx).mpr hrxm)]
    exact hkeys z
  · intro z hz
    rw [parentFun_aset]
    by_cases hzx : z = rx
    · rw [if_pos hzx]
      exact hrym
    · rw [if_neg hzx]
      exact hcl z hz
  · refine ⟨fun z => if Root p z rx then rank z + rank ry + 1
      else rank z, ?_⟩
    intro z hz
    rw [parentFun_aset]
    by_cases hzx : z = rx
    · rw [if_pos hzx, hzx]
      refine Or.inr ?_
      have h1 : Root p rx rx := Root_of_fix hfx
      have h2 : ¬ Root p ry rx := by
        intro hc
        exact hne (Root_unique (Root_of_fix hfy) hc).symm
      show (if Root p ry rx then rank ry + rank ry + 1 else rank ry) <
        (if Root p rx rx then rank rx + rank ry + 1 else rank rx)
      rw [if_pos h1, if_neg h2]
      omega
    · rw [if_neg hzx]
      by_cases hzfix : IsFix p z
      · exact Or.inl hzfix
      · refine Or.inr ?_
        have hlt : rank (parentFun p z) < rank z := by
          rcases hrk z hz with h1 | h1
          · exact absurd h1 hzfix
          · exact h1
        have hsame : Root p (parentFun p z) rx ↔ Root p z rx :=
          (root_parent_iff hzfix).symm
        show (if Root p (parentFun p z) rx then
            rank (parentFun p z) + rank ry + 1
          else rank (parentFun p z)) <
          (if Root p z rx then rank z + rank ry + 1 else rank z)
        by_cases hzr : Root p z rx
        · rw [if_pos hzr, if_pos (hsame.mpr hzr)]
          omega
        · rw [if_neg hzr, if_neg (fun hc => hzr (hsame.mp hc))]
          exact hlt

/-- Full functional specification of `union` with enough fuel. -/
theorem union_spec {elems : List String} {p : List (String × String)}
    (hinv : DsuInv elems p) {x y : String} (hx : x ∈ elems)
    (hy : y ∈ elems) :
    ∃ flag p', DisjointSet.union (elems.length + 1) p x y =
        some (flag, p') ∧
      DsuInv elems p' ∧
      ∃ rx ry, Root p x rx ∧ Root p y ry ∧ rx ∈ elems ∧ ry ∈ elems ∧
        ((flag = false ∧ rx = ry ∧
          (∀ z ∈ elems, ∀ q, Root p z q ↔ Root p' z q) ∧
          (∀ z ∈ elems, IsFix p z ↔ IsFix p' z)) ∨
         (flag = true ∧ rx ≠ ry ∧
          (∀ z ∈ elems, ∀ q, Root p z q →
            Root p' z (if q = rx then ry else q)) ∧
          (∀ z ∈ elems, IsFix p' z ↔ (IsFix p z ∧ z ≠ rx)))) := by
  obtain ⟨rx, p1, hfind1, hrootx, hinv1, hpres1⟩ := find_full hinv hx
  obtain ⟨ry, p2, hfind2, hrooty1, hinv2, hpres2⟩ := find_full hinv1 hy
  have hrootx2 : Root p2 x rx :=
    (hpres2 x hx rx).mp ((hpres1 x hx rx).mp hrootx)
  have hrooty : Root p y ry := (hpres1 y hy ry).mpr hrooty1
  have hrooty2 : Root p2 y ry := (hpres2 y hy ry).mp hrooty1
  have hrxm : rx ∈ elems := root_mem hinv.2.1 hx hrootx
  have hrym : ry ∈ elems := root_mem hinv.2.1 hy hrooty
  have hfix_iff : ∀ z ∈ elems, IsFix p z ↔ IsFix p2 z := by
    intro z hz
    rw [fix_iff_root_self, fix_iff_root_self]
    constructor
    · intro h
      exact (hpres2 z hz z).mp ((hpres1 z hz z).mp h)
    · intro h
      exact (hpres1 z hz z).mpr ((hpres2 z hz z).mpr h)
  have hu : DisjointSet.union (elems.length + 1) p x y =
      (if rx = ry then some (false, p2)
       else some (true, aset p2 rx ry)) := by
    unfold DisjointSet.union
    rw [hfind1]
    dsimp only
    rw [hfind2]
  by_cases hrr : rx = ry
  · refine ⟨false, p2, by rw [hu, if_pos hrr], hinv2, rx, ry, hrootx,
      hrooty, hrxm, hrym, Or.inl ⟨rfl, hrr, ?_, hfix_iff⟩⟩
    intro z hz q
    rw [hpres1 z hz q, hpres2 z hz q]
  · have hfx2 : IsFix p2 rx := hrootx2.1
    have hfy2 : IsFix p2 ry := hrooty2.1
    refine ⟨true, aset p2 rx ry, by rw [hu, if_neg hrr],
      union_aset_inv hinv2 hrxm hrym hfx2 hfy2 hrr,
      rx, ry, hrootx, hrooty, hrxm, hrym, Or.inr ⟨rfl, hrr, ?_, ?_⟩⟩
    · intro z hz q hq
      exact union_aset_roots hinv2 hfx2 hfy2 hrr z hz q
        ((hpres2 z hz q).mp ((hpres1 z hz q).mp hq))
    · intro z hz
      unfold IsFix
      rw [parentFun_aset]
      by_cases hzx : z = rx
      · subst hzx
        rw [if_pos rfl]
        constructor
        · intro hc
          exact absurd hc.symm hrr
        · rintro ⟨-, hc⟩
          exact absurd rfl hc
      · rw [if_neg hzx]
        constructor
        · intro hc
          exact ⟨(hfix_iff z hz).mpr hc, hzx⟩
        · rintro ⟨hc, -⟩
          exact (hfix_iff z hz).mp hc

/-! ## Correctness of `_rebuild_basis` -/

theorem reach_nil_eq {a c : String} (h : reach [] a c) : a = c := by
  induction h with
  | refl => rfl
  | tail _hab hstep _ih =>
    rcases hstep with h1 | h1 <;> exact absurd h1 (List.not_mem_nil _)

theorem reach_isolated {E : List EdgeId} {z : String}
    (hiso : ∀ e ∈ E, e.1 ≠ z ∧ e.2 ≠ z) {w : String}
    (h : reach E z w) : w = z := by
  induction h with
  | refl => rfl
  | tail _hab hstep ih =>
    rename_i b c
    rcases hstep with h1 | h1
    · exact absurd ih ((hiso (b, c) h1).1)
    · exact absurd ih ((hiso (c, b) h1).2)

theorem alookup_init {elems : List String} {x : String} (hx : x ∈ elems) :
    alookup (DisjointSet.init elems) x = some x := by
  induction elems with
  | nil => exact absurd hx (List.not_mem_nil x)
  | cons e rest ih =>
    show alookup ((e, e) :: DisjointSet.init rest) x = some x
    rw [alookup_cons]
    by_cases hex : e = x
    · rw [if_pos hex, hex]
    · rw [if_neg hex]
      rcases List.mem_cons.mp hx with h1 | h1
      · exact absurd h1.symm hex
      · exact ih h1

/-- Roots (fixpoints) among the elements. -/
def rootsF (elems : List String) (p : List (String × String)) :
    Finset String :=
  elems.toFinset.filter (fun z => parentFun p z = z)

/-- Invariant of the three candidate loops of `_rebuild_basis`: the DSU is
well formed, the accumulated basis is a forest of graph edges, components
of the DSU match connectivity of the accumulated basis, and the number of
DSU roots plus the basis size is the number of distinct nodes. -/
def RebuildInv (g : Graph) (p : List (String × String))
    (b : List EdgeId) : Prop :=
  DsuInv g.nodeIds p ∧ b.Nodup ∧ (∀ id ∈ b, id ∈ g.edgeIds) ∧
  (∀ id ∈ b, id.1 ∈ g.nodeIds ∧ id.2 ∈ g.nodeIds) ∧
  Acyclic b ∧
  (∀ a ∈ g.nodeIds, ∀ c ∈ g.nodeIds,
    ((∃ r, Root p a r ∧ Root p c r) ↔ reach b a c)) ∧
  (rootsF g.nodeIds p).card + b.length = g.nodeIds.toFinset.card

theorem rebuildInit_inv (g : Graph) :
    RebuildInv g (DisjointSet.init g.nodeIds) [] := by
  have hkeys : ∀ x, x ∈ keysOf (DisjointSet.init g.nodeIds) ↔
      x ∈ g.nodeIds := by
    intro x
    unfold keysOf DisjointSet.init
    rw [List.map_map]
    simp
  have hpar : ∀ x ∈ g.nodeIds,
      parentFun (DisjointSet.init g.nodeIds) x = x := by
    intro x hx
    unfold parentFun
    rw [alookup_init hx]
    rfl
  have hroot : ∀ x ∈ g.nodeIds, ∀ r,
      Root (DisjointSet.init g.nodeIds) x r → r = x := by
    intro x hx r hr
    exact (Root_unique (Root_of_fix (hpar x hx)) hr).symm
  refine ⟨⟨hkeys, ?_, ⟨fun _ => 0, ?_⟩⟩, List.nodup_nil, ?_, ?_, ?_, ?_,
    ?_⟩
  · intro x hx
    rw [hpar x hx]
    exact hx
  · intro x hx
    exact Or.inl (hpar x hx)
  · intro id hid
    exact absurd hid (List.not_mem_nil id)
  · intro id hid
    exact absurd hid (List.not_mem_nil id)
  · intro x hx
    exact absurd hx (List.not_mem_nil x)
  · intro a ha c hc
    constructor
    · rintro ⟨r, hra, hrc⟩
      have h1 := hroot a ha r hra
      have h2 := hroot c hc r hrc
      rw [← h1, h2]
      exact reach_refl _ _
    · intro hr
      have hac : a = c := reach_nil_eq hr
      subst hac
      exact ⟨a, Root_of_fix (hpar a ha), Root_of_fix (hpar a ha)⟩
  · unfold rootsF
    rw [List.length_nil, Nat.add_zero]
    congr 1
    refine Finset.filter_true_of_mem ?_
    intro z hz
    exact hpar z (List.mem_toFinset.mp hz)

theorem find_some_key {fuel : ℕ} {p : List (String × String)}
    {x : String} {pr : String × List (String × String)}
    (h : DisjointSet.find fuel p x = some pr) : x ∈ keysOf p := by
  cases fuel with
  | zero => exact absurd h (by simp [DisjointSet.find])
  | succ fuel =>
    unfold DisjointSet.find at h
    cases hlk : alookup p x with
    | none => rw [hlk] at h; exact Option.noConfusion h
    | some px =>
      exact (alookup_isSome_iff p x).mp (by rw [hlk]; rfl)

theorem union_some_mem {elems : List String} {p : List (String × String)}
    {x y : String} {fp : Bool × List (String × String)}
    (hinv : DsuInv elems p)
    (h : DisjointSet.union (elems.length + 1) p x y = some fp) :
    x ∈ elems ∧ y ∈ elems := by
  unfold DisjointSet.union at h
  have hx : x ∈ elems := by
    cases hf1 : DisjointSet.find (elems.length + 1) p x with
    | none => rw [hf1] at h; exact Option.noConfusion h
    | some pr1 => exact (hinv.1 x).mp (find_some_key hf1)
  obtain ⟨rx, p1, hfind1, -, hinv1, -⟩ := find_full hinv hx
  rw [hfind1] at h
  dsimp only at h
  have hy : y ∈ elems := by
    cases hf2 : DisjointSet.find (elems.length + 1) p1 y with
    | none => rw [hf2] at h; exact Option.noConfusion h
    | some pr2 => exact (hinv1.1 y).mp (find_some_key hf2)
  exact ⟨hx, hy⟩

theorem tryAddCandidate_inv {g : Graph} {p : List (String × String)}
    {b : List EdgeId} {id : EdgeId} {p' : List (String × String)}
    {b' : List EdgeId} (hid : id ∈ g.edgeIds) (hinv : RebuildInv g p b)
    (h : PhaseOneInitializer.tryAddCandidate (g.nodeIds.length + 1) p b
      id = some (p', b')) : RebuildInv g p' b' := by
  obtain ⟨hdsu, hnd, hsub, hends, hacy, hequiv, hcount⟩ := hinv
  unfold PhaseOneInitializer.tryAddCandidate at h
  cases hu : DisjointSet.union (g.nodeIds.length + 1) p id.1 id.2 with
  | none => rw [hu] at h; exact Option.noConfusion h
  | some fp =>
    obtain ⟨flag, p₂⟩ := fp
    obtain ⟨h1mem, h2mem⟩ := union_some_mem hdsu hu
    obtain ⟨flag', p'', hu', hdsu', rx, ry, hrx, hry, hrxm, hrym, hcase⟩ :=
      union_spec hdsu h1mem h2mem
    rw [hu] at hu'
    simp only [Option.some.injEq, Prod.mk.injEq] at hu'
    obtain ⟨h1e, h2e⟩ := hu'
    rw [hu] at h
    rw [h1e, h2e] at h
    rcases hcase with ⟨hflag, hrr, hpres, hfixiff⟩ |
        ⟨hflag, hrr, hmap, hfixchar⟩
    · -- roots already equal: basis unchanged
      subst hflag
      dsimp only at h
      simp only [Option.some.injEq, Prod.mk.injEq] at h
      obtain ⟨hpe, hbe⟩ := h
      subst hpe
      subst hbe
      refine ⟨hdsu', hnd, hsub, hends, hacy, ?_, ?_⟩
      · intro a ha c hc
        rw [← hequiv a ha c hc]
        constructor
        · rintro ⟨r, h1, h2⟩
          exact ⟨r, (hpres a ha r).mpr h1, (hpres c hc r).mpr h2⟩
        · rintro ⟨r, h1, h2⟩
          exact ⟨r, (hpres a ha r).mp h1, (hpres c hc r).mp h2⟩
      · have : rootsF g.nodeIds p'' = rootsF g.nodeIds p := by
          unfold rootsF
          refine Finset.filter_congr ?_
          intro z hz
          have := (hfixiff z (List.mem_toFinset.mp hz)).symm
          unfold IsFix at this
          simpa using this
        rw [this]
        exact hcount
    · -- distinct roots: the edge enters the basis
      subst hflag
      dsimp only at h
      simp only [Option.some.injEq, Prod.mk.injEq] at h
      obtain ⟨hpe, hbe⟩ := h
      subst hpe
      subst hbe
      have hnotb : id ∉ b := by
        intro hc
        have hrch : reach b id.1 id.2 := reach_of_mem hc
        obtain ⟨r, hr1, hr2⟩ :=
          (hequiv id.1 h1mem id.2 h2mem).mpr hrch
        exact hrr ((Root_unique hrx hr1).trans (Root_unique hr2 hry))
      have hmemAdd : ∀ y, y ∈ FlowUpdater.setAdd b id ↔
          y ∈ b ∨ y = (id.1, id.2) := by
        intro y
        rw [FlowUpdater.mem_setAdd]
      have hnr : ¬ reach b id.1 id.2 := by
        intro hc
        obtain ⟨r, hr1, hr2⟩ := (hequiv id.1 h1mem id.2 h2mem).mpr hc
        exact hrr ((Root_unique hrx hr1).trans (Root_unique hr2 hry))
      refine ⟨hdsu', setAdd_nodup hnd, ?_, ?_, acyclic_insert hacy hnr
        hmemAdd, ?_, ?_⟩
      · intro e he
        rcases (FlowUpdater.mem_setAdd _ _ _).mp he with h1 | rfl
        · exact hsub e h1
        · exact hid
      · intro e he
        rcases (FlowUpdater.mem_setAdd _ _ _).mp he with h1 | rfl
        · exact hends e h1
        · exact ⟨h1mem, h2mem⟩
      · -- connectivity correspondence after the merge
        intro a ha c hc
        have hidmem : id ∈ FlowUpdater.setAdd b id :=
          (FlowUpdater.mem_setAdd _ _ _).mpr (Or.inr rfl)
        have hbsub : ∀ y ∈ b, y ∈ FlowUpdater.setAdd b id := by
          intro y hy
          exact (FlowUpdater.mem_setAdd _ _ _).mpr (Or.inl hy)
        have hstep : reach (FlowUpdater.setAdd b id) id.1 id.2 :=
          reach_of_mem hidmem
        have hside : ∀ z ∈ g.nodeIds,
            (reach b z id.1 ∨ reach b z id.2) → Root p'' z ry := by
          intro z hz hzr
          rcases hzr with h1 | h1
          · obtain ⟨r', hrz, hr1⟩ := (hequiv z hz id.1 h1mem).mpr h1
            have heq : r' = rx := Root_unique hr1 hrx
            subst heq
            have h2 := hmap z hz r' hrz
            rw [if_pos rfl] at h2
            exact h2
          · obtain ⟨r', hrz, hr2⟩ := (hequiv z hz id.2 h2mem).mpr h1
            have heq : r' = ry := Root_unique hr2 hry
            subst heq
            have h2 := hmap z hz r' hrz
            rw [if_neg (fun hc' => hrr hc'.symm)] at h2
            exact h2
        constructor
        · rintro ⟨r, hra, hrc⟩
          obtain ⟨qa, hqa⟩ := root_exists hdsu ha
          obtain ⟨qc, hqc⟩ := root_exists hdsu hc
          have heqa : r = if qa = rx then ry else qa :=
            Root_unique hra (hmap a ha qa hqa)
          have heqc : r = if qc = rx then ry else qc :=
            Root_unique hrc (hmap c hc qc hqc)
          by_cases hqaqc : qa = qc
          · refine reach_mono hbsub ((hequiv a ha c hc).mp
              ⟨qa, hqa, ?_⟩)
            rw [hqaqc]
            exact hqc
          · by_cases hqa1 : qa = rx
            · rw [if_pos hqa1] at heqa
              have hqc1 : qc ≠ rx := fun h' => hqaqc (hqa1.trans h'.symm)
              rw [if_neg hqc1] at heqc
              have hqcry : qc = ry := by rw [← heqc, heqa]
              have hra1 : reach b a id.1 :=
                (hequiv a ha id.1 h1mem).mp ⟨rx, hqa1 ▸ hqa, hrx⟩
              have hrc2 : reach b c id.2 :=
                (hequiv c hc id.2 h2mem).mp ⟨ry, hqcry ▸ hqc, hry⟩
              exact reach_trans (reach_mono hbsub hra1)
                (reach_trans hstep (reach_symm (reach_mono hbsub hrc2)))
            · rw [if_neg hqa1] at heqa
              by_cases hqc1 : qc = rx
              · rw [if_pos hqc1] at heqc
                have hqary : qa = ry := by rw [← heqa, heqc]
                have hra2 : reach b a id.2 :=
                  (hequiv a ha id.2 h2mem).mp ⟨ry, hqary ▸ hqa, hry⟩
                have hrc1 : reach b c id.1 :=
                  (hequiv c hc id.1 h1mem).mp ⟨rx, hqc1 ▸ hqc, hrx⟩
                exact reach_trans (reach_mono hbsub hra2)
                  (reach_trans (reach_symm hstep)
                    (reach_symm (reach_mono hbsub hrc1)))
              · rw [if_neg hqc1] at heqc
                exact absurd (heqa.symm.trans heqc) hqaqc
        · intro hr
          have hedel : ∀ y, y ∈ edel (FlowUpdater.setAdd b id) id ↔
              y ∈ b := by
            intro y
            rw [mem_edel, FlowUpdater.mem_setAdd]
            constructor
            · rintro ⟨h1 | rfl, h2⟩
              · exact h1
              · exact absurd rfl h2
            · intro h1
              exact ⟨Or.inl h1, fun hc => hnotb (hc ▸ h1)⟩
          rcases reach_touch (x := id) hr with h1 | ⟨hsa, hsc⟩
          · obtain ⟨r, h1a, h1c⟩ := (hequiv a ha c hc).mpr
              ((reach_congr hedel).mp h1)
            exact ⟨if r = rx then ry else r, hmap a ha r h1a,
              hmap c hc r h1c⟩
          · have hsa' : reach b a id.1 ∨ reach b a id.2 := by
              rcases hsa with h1 | h1
              · exact Or.inl ((reach_congr hedel).mp h1)
              · exact Or.inr ((reach_congr hedel).mp h1)
            have hsc' : reach b c id.1 ∨ reach b c id.2 := by
              rcases hsc with h1 | h1
              · exact Or.inl ((reach_congr hedel).mp h1)
              · exact Or.inr ((reach_congr hedel).mp h1)
            exact ⟨ry, hside a ha hsa', hside c hc hsc'⟩
      · -- one fewer root, one more basis edge
        have hchar : rootsF g.nodeIds p'' =
            (rootsF g.nodeIds p).erase rx := by
          ext z
          rw [Finset.mem_erase]
          unfold rootsF
          rw [Finset.mem_filter, Finset.mem_filter]
          constructor
          · rintro ⟨hzm, hzf⟩
            have hz := (hfixchar z (List.mem_toFinset.mp hzm)).mp hzf
            exact ⟨hz.2, hzm, hz.1⟩
          · rintro ⟨hzne, hzm, hzf⟩
            exact ⟨hzm,
              (hfixchar z (List.mem_toFinset.mp hzm)).mpr ⟨hzf, hzne⟩⟩
        have hrxroots : rx ∈ rootsF g.nodeIds p :=
          Finset.mem_filter.mpr ⟨List.mem_toFinset.mpr hrxm, hrx.1⟩
        have hpos : 0 < (rootsF g.nodeIds p).card :=
          Finset.card_pos.mpr ⟨rx, hrxroots⟩
        rw [hchar, setAdd_length_of_not_mem hnotb,
          Finset.card_erase_of_mem hrxroots]
        omega

/-! ## The three candidate loops and the full rebuild -/

theorem rebuildAddAll_inv {g : Graph} :
    ∀ (ids : List EdgeId) (p : List (String × String)) (b : List EdgeId)
      (p' : List (String × String)) (b' : List EdgeId),
      (∀ id ∈ ids, id ∈ g.edgeIds) → RebuildInv g p b →
      PhaseOneInitializer.rebuildAddAll (g.nodeIds.length + 1) ids p b =
        some (p', b') →
      RebuildInv g p' b' := by
  intro ids
  induction ids with
  | nil =>
    intro p b p' b' _ hinv h
    simp only [PhaseOneInitializer.rebuildAddAll, Option.some.injEq,
      Prod.mk.injEq] at h
    obtain ⟨hpe, hbe⟩ := h
    subst hpe
    subst hbe
    exact hinv
  | cons id rest ih =>
    intro p b p' b' hids hinv h
    unfold PhaseOneInitializer.rebuildAddAll at h
    cases hta : PhaseOneInitializer.tryAddCandidate
        (g.nodeIds.length + 1) p b id with
    | none => rw [hta] at h; exact Option.noConfusion h
    | some pb =>
      obtain ⟨p₁, b₁⟩ := pb
      rw [hta] at h
      dsimp only at h
      exact ih p₁ b₁ p' b'
        (fun i hi => hids i (List.mem_cons_of_mem _ hi))
        (tryAddCandidate_inv (hids id (List.mem_cons_self _ _)) hinv hta)
        h

theorem rebuildAddUntil_inv {g : Graph} {required : ℕ} {checkMem : Bool} :
    ∀ (ids : List EdgeId) (p : List (String × String)) (b : List EdgeId)
      (p' : List (String × String)) (b' : List EdgeId),
      (∀ id ∈ ids, id ∈ g.edgeIds) → RebuildInv g p b →
      PhaseOneInitializer.rebuildAddUntil (g.nodeIds.length + 1) required
        checkMem ids p b = some (p', b') →
      RebuildInv g p' b' := by
  intro ids
  induction ids with
  | nil =>
    intro p b p' b' _ hinv h
    simp only [PhaseOneInitializer.rebuildAddUntil, Option.some.injEq,
      Prod.mk.injEq] at h
    obtain ⟨hpe, hbe⟩ := h
    subst hpe
    subst hbe
    exact hinv
  | cons id rest ih =>
    intro p b p' b' hids hinv h
    unfold PhaseOneInitializer.rebuildAddUntil at h
    by_cases hreq : required ≤ b.length
    · rw [if_pos hreq] at h
      simp only [Option.some.injEq, Prod.mk.injEq] at h
      obtain ⟨hpe, hbe⟩ := h
      subst hpe
      subst hbe
      exact hinv
    · rw [if_neg hreq] at h
      by_cases hskip : checkMem = true ∧ id ∈ b
      · rw [if_pos hskip] at h
        exact ih p b p' b'
          (fun i hi => hids i (List.mem_cons_of_mem _ hi)) hinv h
      · rw [if_neg hskip] at h
        cases hta : PhaseOneInitializer.tryAddCandidate
            (g.nodeIds.length + 1) p b id with
        | none => rw [hta] at h; exact Option.noConfusion h
        | some pb =>
          obtain ⟨p₁, b₁⟩ := pb
          rw [hta] at h
          dsimp only at h
          exact ih p₁ b₁ p' b'
            (fun i hi => hids i (List.mem_cons_of_mem _ hi))
            (tryAddCandidate_inv (hids id (List.mem_cons_self _ _)) hinv
              hta) h

/-- The rebuilt basis is a spanning tree of the graph built from graph
edges. -/
theorem rebuildBasis_spec {g : Graph} (hwf : GraphWf g)
    {partialB : List EdgeId} {flows : List (EdgeId × ℚ)}
    {basis : List EdgeId}
    (hpart : ∀ id ∈ partialB, id ∈ g.edgeIds)
    (h : PhaseOneInitializer.rebuildBasis g partialB flows = .ok basis) :
    basis.Nodup ∧ (∀ id ∈ basis, id ∈ g.edgeIds) ∧
    basis.length = g.nodes.length - 1 ∧ connOn g.nodeIds basis ∧
    Acyclic basis := by
  unfold PhaseOneInitializer.rebuildBasis at h
  dsimp only at h
  cases hr1 : PhaseOneInitializer.rebuildAddAll (g.nodeIds.length + 1)
      partialB (DisjointSet.init g.nodeIds) [] with
  | none => rw [hr1] at h; exact Except.noConfusion h
  | some pb1 =>
    obtain ⟨p1, b1⟩ := pb1
    rw [hr1] at h
    dsimp only at h
    have hinv1 : RebuildInv g p1 b1 :=
      rebuildAddAll_inv partialB _ _ _ _ hpart (rebuildInit_inv g) hr1
    have hstep2 : ∀ (p2 : List (String × String)) (b2 : List EdgeId),
        (if b1.length < g.nodes.length - 1 then
          PhaseOneInitializer.rebuildAddUntil (g.nodeIds.length + 1)
            (g.nodes.length - 1) false
            (g.edgeIds.filter (fun id => decide (id ∉ b1) &&
              decide (EPSILON < alookupD flows id 0))) p1 b1
         else some (p1, b1)) = some (p2, b2) → RebuildInv g p2 b2 := by
      intro p2 b2 h2
      by_cases hlt : b1.length < g.nodes.length - 1
      · rw [if_pos hlt] at h2
        refine rebuildAddUntil_inv _ _ _ _ _ ?_ hinv1 h2
        intro i hi
        exact (List.mem_filter.mp hi).1
      · rw [if_neg hlt] at h2
        simp only [Option.some.injEq, Prod.mk.injEq] at h2
        obtain ⟨hpe, hbe⟩ := h2
        subst hpe
        subst hbe
        exact hinv1
    cases h2 : (if b1.length < g.nodes.length - 1 then
        PhaseOneInitializer.rebuildAddUntil (g.nodeIds.length + 1)
          (g.nodes.length - 1) false
          (g.edgeIds.filter (fun id => decide (id ∉ b1) &&
            decide (EPSILON < alookupD flows id 0))) p1 b1
       else some (p1, b1)) with
    | none => rw [h2] at h; exact Except.noConfusion h
    | some pb2 =>
      obtain ⟨p2, b2⟩ := pb2
      rw [h2] at h
      dsimp only at h
      have hinv2 : RebuildInv g p2 b2 := hstep2 p2 b2 h2
      have hstep3 : ∀ (p3 : List (String × String)) (b3 : List EdgeId),
          (if b2.length < g.nodes.length - 1 then
            PhaseOneInitializer.rebuildAddUntil (g.nodeIds.length + 1)
              (g.nodes.length - 1) true g.edgeIds p2 b2
           else some (p2, b2)) = some (p3, b3) → RebuildInv g p3 b3 := by
        intro p3 b3 h3
        by_cases hlt : b2.length < g.nodes.length - 1
        · rw [if_pos hlt] at h3
          exact rebuildAddUntil_inv _ _ _ _ _ (fun i hi => hi) hinv2 h3
        · rw [if_neg hlt] at h3
          simp only [Option.some.injEq, Prod.mk.injEq] at h3
          obtain ⟨hpe, hbe⟩ := h3
          subst hpe
          subst hbe
          exact hinv2
      cases h3 : (if b2.length < g.nodes.length - 1 then
          PhaseOneInitializer.rebuildAddUntil (g.nodeIds.length + 1)
            (g.nodes.length - 1) true g.edgeIds p2 b2
         else some (p2, b2)) with
      | none => rw [h3] at h; exact Except.noConfusion h
      | some pb3 =>
        obtain ⟨p3, b3⟩ := pb3
        rw [h3] at h
        dsimp only at h
        have hinv3 : RebuildInv g p3 b3 := hstep3 p3 b3 h3
        by_cases hfin : b3.length < g.nodes.length - 1
        · rw [if_pos hfin] at h
          exact Except.noConfusion h
        · rw [if_neg hfin] at h
          injection h with hbe
          subst hbe
          obtain ⟨hdsu, hnd, hsub, hends, hacy, hequiv, hcount⟩ := hinv3
          have hnodesnd : g.nodeIds.Nodup := hwf.1
          have hcardn : g.nodeIds.toFinset.card = g.nodes.length := by
            rw [List.toFinset_card_of_nodup hnodesnd]
            unfold Graph.nodeIds
            exact List.length_map _ _
          rw [hcardn] at hcount
          by_cases hn0 : g.nodes.length = 0
          · have hlen0 : b3.length = 0 := by omega
            refine ⟨hnd, hsub, by omega, ?_, hacy⟩
            intro a ha
            have : g.nodeIds.length = 0 := by
              unfold Graph.nodeIds
              rw [List.length_map]
              exact hn0
            rw [List.length_eq_zero.mp this] at ha
            exact absurd ha (List.not_mem_nil a)
          · -- at least one node: the root count must be positive
            have hne : g.nodeIds ≠ [] := by
              intro hc
              have : g.nodeIds.length = 0 := by rw [hc]; rfl
              unfold Graph.nodeIds at this
              rw [List.length_map] at this
              exact hn0 this
            obtain ⟨a0, ha0⟩ := List.exists_mem_of_ne_nil _ hne
            obtain ⟨r0, hr0⟩ := root_exists hdsu ha0
            have hr0mem : r0 ∈ rootsF g.nodeIds p3 :=
              Finset.mem_filter.mpr
                ⟨List.mem_toFinset.mpr (root_mem hdsu.2.1 ha0 hr0),
                 hr0.1⟩
            have hpos : 0 < (rootsF g.nodeIds p3).card :=
              Finset.card_pos.mpr ⟨r0, hr0mem⟩
            have hlen : b3.length = g.nodes.length - 1 := by omega
            have hcard1 : (rootsF g.nodeIds p3).card = 1 := by omega
            refine ⟨hnd, hsub, hlen, ?_, hacy⟩
            intro a ha c hc
            obtain ⟨ra, hra⟩ := root_exists hdsu ha
            obtain ⟨rc, hrc⟩ := root_exists hdsu hc
            have hram : ra ∈ rootsF g.nodeIds p3 :=
              Finset.mem_filter.mpr
                ⟨List.mem_toFinset.mpr (root_mem hdsu.2.1 ha hra),
                 hra.1⟩
            have hrcm : rc ∈ rootsF g.nodeIds p3 :=
              Finset.mem_filter.mpr
                ⟨List.mem_toFinset.mpr (root_mem hdsu.2.1 hc hrc),
                 hrc.1⟩
            have hrarc : ra = rc :=
              Finset.card_le_one.mp (le_of_eq hcard1) ra hram rc hrcm
            exact (hequiv a ha c hc).mp ⟨ra, hra, hrarc ▸ hrc⟩

/-! ## The auxiliary graph and the artificial star basis of phase one -/

/-- The id of the artificial edge attached to a node: the direction depends
on the sign test `balance > EPSILON` shared by `_create_auxiliary_graph` and
`_setup_initial_state`. -/
def starId (p : String × ℚ) : EdgeId :=
  if EPSILON < p.2 then (p.1, PhaseOneInitializer.ROOT_NODE_ID)
  else (PhaseOneInitializer.ROOT_NODE_ID, p.1)

theorem foldlM_graph_cons {α : Type} (f : Graph → α → Except Err Graph)
    (acc : Graph) (a : α) (l : List α) :
    List.foldlM f acc (a :: l) =
      match f acc a with
      | .error e => .error e
      | .ok acc' => List.foldlM f acc' l := by
  show Except.bind (f acc a) (fun acc' => List.foldlM f acc' l) = _
  cases f acc a with
  | error e => rfl
  | ok acc' => rfl

/-- The node-adding fold of `_create_auxiliary_graph`: nodes are appended,
edges untouched, and success means every added id is fresh (in particular
the ids are mutually distinct). -/
theorem nodeFold_ok :
    ∀ (l : List (String × ℚ)) (acc g' : Graph), GraphWf acc →
      List.foldlM (fun (a : Graph) p => a.add_node p.1 p.2) acc l =
        .ok g' →
      GraphWf g' ∧ g'.edges = acc.edges ∧
      g'.nodeIds = acc.nodeIds ++ l.map Prod.fst ∧
      (l.map Prod.fst).Nodup ∧
      (∀ x ∈ l.map Prod.fst, x ∉ acc.nodeIds) := by
  intro l
  induction l with
  | nil =>
    intro acc g' hwf h
    have h' : (Except.ok acc : Except Err Graph) = .ok g' := h
    injection h' with he
    subst he
    exact ⟨hwf, rfl, by simp, List.nodup_nil, by simp⟩
  | cons p rest ih =>
    intro acc g' hwf h
    rw [foldlM_graph_cons] at h
    cases hadd : acc.add_node p.1 p.2 with
    | error e => rw [hadd] at h; exact Except.noConfusion h
    | ok acc1 =>
      rw [hadd] at h
      dsimp only at h
      obtain ⟨hwf1, hedges1, hnodes1, hfresh1⟩ := add_node_wf hwf hadd
      obtain ⟨hwfg, hedg, hnodes, hnd, hfresh⟩ := ih acc1 g' hwf1 h
      refine ⟨hwfg, hedg ▸ hedges1, ?_, ?_, ?_⟩
      · rw [hnodes, hnodes1, List.append_assoc]
        rfl
      · rw [List.map_cons, List.nodup_cons]
        refine ⟨?_, hnd⟩
        intro hc
        exact hfresh p.1 hc (hnodes1 ▸ List.mem_append_right _
          (List.mem_singleton.mpr rfl))
      · intro x hx
        rcases List.mem_cons.mp hx with rfl | hx'
        · exact hfresh1
        · intro hc
          exact hfresh x hx' (hnodes1 ▸ List.mem_append_left _ hc)

/-- The original-edge fold: when every record's endpoints agree with its
key (well-formedness of the source graph), the added edge ids are exactly
the original keys, in order. -/
theorem edgeFold_ok :
    ∀ (l : List (EdgeId × EdgeRec)) (acc g' : Graph), GraphWf acc →
      (∀ p ∈ l, p.2.from_node = p.1.1 ∧ p.2.to_node = p.1.2) →
      List.foldlM (fun (a : Graph) p =>
        a.add_edge p.2.from_node p.2.to_node 0 p.2.capacity) acc l =
        .ok g' →
      GraphWf g' ∧ g'.nodes = acc.nodes ∧
      g'.edgeIds = acc.edgeIds ++ l.map Prod.fst := by
  intro l
  induction l with
  | nil =>
    intro acc g' hwf _ h
    have h' : (Except.ok acc : Except Err Graph) = .ok g' := h
    injection h' with he
    subst he
    exact ⟨hwf, rfl, by simp⟩
  | cons p rest ih =>
    intro acc g' hwf hends h
    rw [foldlM_graph_cons] at h
    cases hadd : acc.add_edge p.2.from_node p.2.to_node 0 p.2.capacity with
    | error e => rw [hadd] at h; exact Except.noConfusion h
    | ok acc1 =>
      rw [hadd] at h
      dsimp only at h
      obtain ⟨hwf1, hnodes1, hedges1, -, -, -⟩ := add_edge_wf hwf hadd
      obtain ⟨hwfg, hnod, hedg⟩ := ih acc1 g' hwf1
        (fun q hq => hends q (List.mem_cons_of_mem _ hq)) h
      obtain ⟨hf, ht⟩ := hends p (List.mem_cons_self _ _)
      have hid1 : acc1.edgeIds = acc.edgeIds ++ [p.1] := by
        unfold Graph.edgeIds
        rw [hedges1, List.map_append]
        simp only [List.map_cons, List.map_nil]
        rw [hf, ht]
      refine ⟨hwfg, hnod ▸ hnodes1, ?_⟩
      rw [hedg, hid1, List.append_assoc]
      rfl

/-- The artificial-edge fold: the added edge ids are exactly the per-node
star ids, in order. -/
theorem starFold_ok :
    ∀ (l : List (String × ℚ)) (acc g' : Graph), GraphWf acc →
      List.foldlM (fun (a : Graph) p =>
        if EPSILON < p.2 then
          a.add_edge p.1 PhaseOneInitializer.ROOT_NODE_ID 1 .inf
        else a.add_edge PhaseOneInitializer.ROOT_NODE_ID p.1 1 .inf)
        acc l = .ok g' →
      GraphWf g' ∧ g'.nodes = acc.nodes ∧
      g'.edgeIds = acc.edgeIds ++ l.map starId := by
  intro l
  induction l with
  | nil =>
    intro acc g' hwf h
    have h' : (Except.ok acc : Except Err Graph) = .ok g' := h
    injection h' with he
    subst he
    exact ⟨hwf, rfl, by simp⟩
  | cons p rest ih =>
    intro acc g' hwf h
    rw [foldlM_graph_cons] at h
    by_cases hb : EPSILON < p.2
    · rw [if_pos hb] at h
      cases hadd : acc.add_edge p.1 PhaseOneInitializer.ROOT_NODE_ID
          1 .inf with
      | error e => rw [hadd] at h; exact Except.noConfusion h
      | ok acc1 =>
        rw [hadd] at h
        dsimp only at h
        obtain ⟨hwf1, hnodes1, hedges1, -, -, -⟩ := add_edge_wf hwf hadd
        obtain ⟨hwfg, hnod, hedg⟩ := ih acc1 g' hwf1 h
        have hid1 : acc1.edgeIds = acc.edgeIds ++ [starId p] := by
          unfold Graph.edgeIds
          rw [hedges1, List.map_append]
          simp only [List.map_cons, List.map_nil]
          unfold starId
          rw [if_pos hb]
        refine ⟨hwfg, hnod ▸ hnodes1, ?_⟩
        rw [hedg, hid1, List.append_assoc]
        rfl
    · rw [if_neg hb] at h
      cases hadd : acc.add_edge PhaseOneInitializer.ROOT_NODE_ID p.1
          1 .inf with
      | error e => rw [hadd] at h; exact Except.noConfusion h
      | ok acc1 =>
        rw [hadd] at h
        dsimp only at h
        obtain ⟨hwf1, hnodes1, hedges1, -, -, -⟩ := add_edge_wf hwf hadd
        obtain ⟨hwfg, hnod, hedg⟩ := ih acc1 g' hwf1 h
        have hid1 : acc1.edgeIds = acc.edgeIds ++ [starId p] := by
          unfold Graph.edgeIds
          rw [hedges1, List.map_append]
          simp only [List.map_cons, List.map_nil]
          unfold starId
          rw [if_neg hb]
        refine ⟨hwfg, hnod ▸ hnodes1, ?_⟩
        rw [hedg, hid1, List.append_assoc]
        rfl

/-- Flow side of one `_setup_initial_state` step. -/
def starUpd (acc : List EdgeId × List (EdgeId × ℚ)) (p : String × ℚ) :
    List (EdgeId × ℚ) :=
  if EPSILON < p.2 then aset acc.2 (starId p) p.2
  else if p.2 < -EPSILON then aset acc.2 (starId p) |p.2|
  else aset acc.2 (starId p) 0

/-- `_setup_initial_state` as a fold whose basis side adds the star id of
each node. -/
theorem setup_fold_eq (g : Graph) :
    PhaseOneInitializer.setupInitialState g =
      List.foldl (fun acc p =>
        (FlowUpdater.setAdd acc.1 (starId p), starUpd acc p))
        ([], (sortIds g.edgeIds).map (fun id => (id, (0 : ℚ))))
        (PhaseOneInitializer.sortNodeItems g.nodes) := by
  unfold PhaseOneInitializer.setupInitialState
  dsimp only
  apply List.foldl_ext
  intro acc p _
  unfold starUpd starId
  by_cases hb : EPSILON < p.2
  · rw [if_pos hb, if_pos hb, if_pos hb]
  · rw [if_neg hb, if_neg hb, if_neg hb]

/-- Basis side of the `_setup_initial_state` fold: with fresh, mutually
distinct star ids, `set.add` appends each one. -/
theorem star_fst :
    ∀ (l : List (String × ℚ)) (acc : List EdgeId × List (EdgeId × ℚ)),
      (∀ p ∈ l, starId p ∉ acc.1) → (l.map starId).Nodup →
      (List.foldl (fun acc p =>
        (FlowUpdater.setAdd acc.1 (starId p), starUpd acc p)) acc l).1 =
        acc.1 ++ l.map starId := by
  intro l
  induction l with
  | nil => intro acc _ _; simp
  | cons p rest ih =>
    intro acc hfresh hnd
    rw [List.map_cons] at hnd
    rw [List.foldl_cons]
    rw [ih (FlowUpdater.setAdd acc.1 (starId p), starUpd acc p)]
    · show FlowUpdater.setAdd acc.1 (starId p) ++ rest.map starId = _
      unfold FlowUpdater.setAdd
      rw [if_neg (hfresh p (List.mem_cons_self _ _)), List.append_assoc]
      rfl
    · intro q hq
      show starId q ∉ FlowUpdater.setAdd acc.1 (starId p)
      rw [FlowUpdater.mem_setAdd]
      rintro (hc | hc)
      · exact hfresh q (List.mem_cons_of_mem _ hq) hc
      · exact (List.nodup_cons.mp hnd).1 (hc ▸ List.mem_map_of_mem starId hq)
    · exact (List.nodup_cons.mp hnd).2

/-- Keys determine entries in a list with distinct keys. -/
theorem nodup_key_inj {α β : Type} {l : List (α × β)}
    (hnd : (l.map Prod.fst).Nodup) {p q : α × β} (hp : p ∈ l)
    (hq : q ∈ l) (h : p.1 = q.1) : p = q := by
  induction l with
  | nil => exact absurd hp (List.not_mem_nil _)
  | cons a rest ih =>
    rw [List.map_cons, List.nodup_cons] at hnd
    rcases List.mem_cons.mp hp with rfl | hp'
    · rcases List.mem_cons.mp hq with rfl | hq'
      · rfl
      · exact absurd (h ▸ List.mem_map_of_mem Prod.fst hq') hnd.1
    · rcases List.mem_cons.mp hq with rfl | hq'
      · exact absurd (h ▸ List.mem_map_of_mem Prod.fst hp') hnd.1
      · exact ih hnd.2 hp' hq'

/-- The non-root end of a star id recovers the node, so distinct nodes give
distinct star edges. -/
theorem starId_fst {l : List (String × ℚ)}
    (hroot : ∀ p ∈ l, p.1 ≠ PhaseOneInitializer.ROOT_NODE_ID)
    {p q : String × ℚ} (hp : p ∈ l) (hq : q ∈ l)
    (h : starId p = starId q) : p.1 = q.1 := by
  have hpr := hroot p hp
  have hqr := hroot q hq
  unfold starId at h
  by_cases h1 : EPSILON < p.2 <;> by_cases h2 : EPSILON < q.2
  · rw [if_pos h1, if_pos h2] at h
    exact (Prod.mk.injEq .. ▸ h).1
  · rw [if_pos h1, if_neg h2] at h
    exact absurd (Prod.mk.injEq .. ▸ h).1 hpr
  · rw [if_neg h1, if_pos h2] at h
    exact absurd ((Prod.mk.injEq .. ▸ h).1).symm hqr
  · rw [if_neg h1, if_neg h2] at h
    exact (Prod.mk.injEq .. ▸ h).2

theorem starIds_nodup {l : List (String × ℚ)}
    (hnd : (l.map Prod.fst).Nodup)
    (hroot : ∀ p ∈ l, p.1 ≠ PhaseOneInitializer.ROOT_NODE_ID) :
    (l.map starId).Nodup := by
  induction l with
  | nil => exact List.nodup_nil
  | cons p rest ih =>
    rw [List.map_cons, List.nodup_cons] at hnd ⊢
    refine ⟨?_, ih hnd.2 (fun q hq => hroot q (List.mem_cons_of_mem _ hq))⟩
    intro hc
    obtain ⟨q, hq, hqe⟩ := List.mem_map.mp hc
    have hq1 : q.1 = p.1 := starId_fst hroot
      (List.mem_cons_of_mem _ hq) (List.mem_cons_self _ _) hqe
    exact hnd.1 (hq1 ▸ List.mem_map_of_mem Prod.fst hq)

theorem starId_cases (p : String × ℚ) :
    ((starId p).1 = p.1 ∧ (starId p).2 = PhaseOneInitializer.ROOT_NODE_ID)
    ∨ ((starId p).1 = PhaseOneInitializer.ROOT_NODE_ID ∧
       (starId p).2 = p.1) := by
  unfold starId
  by_cases hb : EPSILON < p.2
  · rw [if_pos hb]
    exact Or.inl ⟨rfl, rfl⟩
  · rw [if_neg hb]
    exact Or.inr ⟨rfl, rfl⟩

theorem bind_ok_inv {ε α β : Type} {x : Except ε α} {f : α → Except ε β}
    {b : β} (h : Except.bind x f = .ok b) :
    ∃ a, x = .ok a ∧ f a = .ok b := by
  cases x with
  | error e => exact Except.noConfusion h
  | ok a => exact ⟨a, rfl, h⟩

/-- Inversion of `_create_auxiliary_graph`: the four construction stages
all succeed. -/
theorem createAux_inv {g : Graph} {aux : Graph}
    (h : PhaseOneInitializer.createAuxiliaryGraph g = .ok aux) :
    ∃ a0 a1 a2,
      Graph.empty.add_node PhaseOneInitializer.ROOT_NODE_ID 0 = .ok a0 ∧
      List.foldlM (fun (a : Graph) p => a.add_node p.1 p.2) a0
        (PhaseOneInitializer.sortNodeItems g.nodes) = .ok a1 ∧
      List.foldlM (fun (a : Graph) p =>
        a.add_edge p.2.from_node p.2.to_node 0 p.2.capacity) a1
        (PhaseOneInitializer.sortEdgeItems g.edges) = .ok a2 ∧
      List.foldlM (fun (a : Graph) p =>
        if EPSILON < p.2 then
          a.add_edge p.1 PhaseOneInitializer.ROOT_NODE_ID 1 .inf
        else a.add_edge PhaseOneInitializer.ROOT_NODE_ID p.1 1 .inf)
        a2 (PhaseOneInitializer.sortNodeItems g.nodes) = .ok aux := by
  unfold PhaseOneInitializer.createAuxiliaryGraph at h
  obtain ⟨a0, h0, h⟩ := bind_ok_inv h
  obtain ⟨a1, h1, h⟩ := bind_ok_inv h
  obtain ⟨a2, h2, h⟩ := bind_ok_inv h
  obtain ⟨a3, h3, hp⟩ := bind_ok_inv h
  have hp' : (Except.ok a3 : Except Err Graph) = .ok aux := hp
  injection hp' with he
  subst he
  exact ⟨a0, a1, a2, h0, h1, h2, h3⟩

/-- Structure of the auxiliary graph: well formed, one node more than the
original (the artificial root, absent from the original), and edge keys the
original keys followed by the star ids. -/
theorem createAux_spec {g : Graph} (hwf : GraphWf g) {aux : Graph}
    (h : PhaseOneInitializer.createAuxiliaryGraph g = .ok aux) :
    GraphWf aux ∧
    aux.nodes.length = g.nodes.length + 1 ∧
    (∀ x, x ∈ aux.nodeIds ↔
      x = PhaseOneInitializer.ROOT_NODE_ID ∨ x ∈ g.nodeIds) ∧
    (∀ p ∈ g.nodes, p.1 ≠ PhaseOneInitializer.ROOT_NODE_ID) ∧
    aux.edgeIds = (PhaseOneInitializer.sortEdgeItems g.edges).map Prod.fst
      ++ (PhaseOneInitializer.sortNodeItems g.nodes).map starId := by
  obtain ⟨a0, a1, a2, h0, h1, h2, h3⟩ := createAux_inv h
  obtain ⟨hwf0, hedges0, hnodes0, -⟩ := add_node_wf empty_wf h0
  obtain ⟨hwf1, hedges1, hnodes1, hnd1, hfresh1⟩ :=
    nodeFold_ok _ a0 a1 hwf0 h1
  have hperm : List.Perm (PhaseOneInitializer.sortNodeItems g.nodes)
      g.nodes := List.perm_insertionSort _ _
  have hpermE : List.Perm (PhaseOneInitializer.sortEdgeItems g.edges)
      g.edges := List.perm_insertionSort _ _
  have hroot : ∀ p ∈ g.nodes,
      p.1 ≠ PhaseOneInitializer.ROOT_NODE_ID := by
    intro p hp hc
    refine hfresh1 p.1 (List.mem_map_of_mem Prod.fst
      (hperm.mem_iff.mpr hp)) ?_
    rw [hnodes0, hc]
    show PhaseOneInitializer.ROOT_NODE_ID ∈
      Graph.empty.nodeIds ++ [PhaseOneInitializer.ROOT_NODE_ID]
    exact List.mem_append_right _ (List.mem_singleton.mpr rfl)
  have hends : ∀ p ∈ PhaseOneInitializer.sortEdgeItems g.edges,
      p.2.from_node = p.1.1 ∧ p.2.to_node = p.1.2 := by
    intro p hp
    obtain ⟨hf, ht, -, -⟩ := hwf.2.2 p (hpermE.mem_iff.mp hp)
    exact ⟨hf, ht⟩
  obtain ⟨hwf2, hnodes2, hedge2⟩ := edgeFold_ok _ a1 a2 hwf1 hends h2
  obtain ⟨hwf3, hnodes3, hedge3⟩ := starFold_ok _ a2 aux hwf2 h3
  have hnodesAux : aux.nodeIds = PhaseOneInitializer.ROOT_NODE_ID ::
      (PhaseOneInitializer.sortNodeItems g.nodes).map Prod.fst := by
    have h21 : a2.nodeIds = a1.nodeIds := by
      unfold Graph.nodeIds
      rw [hnodes2]
    have h32 : aux.nodeIds = a2.nodeIds := by
      unfold Graph.nodeIds
      rw [hnodes3]
    rw [h32, h21, hnodes1, hnodes0]
    rfl
  have hnodesLen : aux.nodes.length = g.nodes.length + 1 := by
    have hlen : aux.nodeIds.length =
        ((PhaseOneInitializer.sortNodeItems g.nodes).map
          Prod.fst).length + 1 := by
      rw [hnodesAux]
      rfl
    unfold Graph.nodeIds at hlen
    rw [List.length_map, List.length_map] at hlen
    rw [hlen, hperm.length_eq]
  refine ⟨hwf3, hnodesLen, ?_, hroot, ?_⟩
  · intro x
    rw [hnodesAux, List.mem_cons]
    constructor
    · rintro (rfl | hx)
      · exact Or.inl rfl
      · obtain ⟨p, hp, rfl⟩ := List.mem_map.mp hx
        exact Or.inr (List.mem_map_of_mem Prod.fst (hperm.mem_iff.mp hp))
    · rintro (rfl | hx)
      · exact Or.inl rfl
      · obtain ⟨p, hp, rfl⟩ := List.mem_map.mp hx
        exact Or.inr (List.mem_map_of_mem Prod.fst (hperm.mem_iff.mpr hp))
  · rw [hedge3, hedge2]
    have ha1e : a1.edgeIds = [] := by
      unfold Graph.edgeIds
      rw [hedges1, hedges0]
      rfl
    rw [ha1e]
    rfl

/-- The artificial star of phase one is a spanning-tree basis of the
auxiliary graph, and every non-artificial auxiliary edge is an original
edge. -/
theorem auxStar_props {g : Graph} (hwf : GraphWf g) {aux : Graph}
    (h : PhaseOneInitializer.createAuxiliaryGraph g = .ok aux) :
    GraphWf aux ∧
    BasisProps aux (PhaseOneInitializer.setupInitialState g).1
      (FlowUpdater.setDiff aux.edgeIds
        (PhaseOneInitializer.setupInitialState g).1) ∧
    (∀ id ∈ aux.edgeIds, id ∈ g.edgeIds ∨
      id.1 = PhaseOneInitializer.ROOT_NODE_ID ∨
      id.2 = PhaseOneInitializer.ROOT_NODE_ID) := by
  obtain ⟨hwfA, hlen, hmemN, hrootfree, hedgeA⟩ := createAux_spec hwf h
  have hperm : List.Perm (PhaseOneInitializer.sortNodeItems g.nodes)
      g.nodes := List.perm_insertionSort _ _
  have hpermE : List.Perm (PhaseOneInitializer.sortEdgeItems g.edges)
      g.edges := List.perm_insertionSort _ _
  have hndIds : ((PhaseOneInitializer.sortNodeItems g.nodes).map
      Prod.fst).Nodup := (hperm.map Prod.fst).nodup_iff.mpr hwf.1
  have hrootS : ∀ p ∈ PhaseOneInitializer.sortNodeItems g.nodes,
      p.1 ≠ PhaseOneInitializer.ROOT_NODE_ID :=
    fun p hp => hrootfree p (hperm.mem_iff.mp hp)
  have hndStar : ((PhaseOneInitializer.sortNodeItems g.nodes).map
      starId).Nodup := starIds_nodup hndIds hrootS
  have hstar : (PhaseOneInitializer.setupInitialState g).1 =
      (PhaseOneInitializer.sortNodeItems g.nodes).map starId := by
    rw [setup_fold_eq, star_fst _ _
      (fun p _ => List.not_mem_nil (starId p)) hndStar]
    rfl
  refine ⟨hwfA, ?_, ?_⟩
  · rw [hstar]
    have hsub : ∀ id ∈ (PhaseOneInitializer.sortNodeItems g.nodes).map
        starId, id ∈ aux.edgeIds := by
      intro id hid
      rw [hedgeA]
      exact List.mem_append_right _ hid
    have hconnRoot : ∀ x ∈ aux.nodeIds,
        reach ((PhaseOneInitializer.sortNodeItems g.nodes).map starId) x
          PhaseOneInitializer.ROOT_NODE_ID := by
      intro x hx
      rcases (hmemN x).mp hx with rfl | hxg
      · exact reach_refl _ _
      · have hxg' : x ∈ g.nodes.map Prod.fst := hxg
        obtain ⟨p, hp, rfl⟩ := List.mem_map.mp hxg'
        have hpS : p ∈ PhaseOneInitializer.sortNodeItems g.nodes :=
          hperm.mem_iff.mpr hp
        have hmemS : starId p ∈
            (PhaseOneInitializer.sortNodeItems g.nodes).map starId :=
          List.mem_map_of_mem starId hpS
        rcases starId_cases p with ⟨h1, h2⟩ | ⟨h1, h2⟩
        · refine reach_step (Or.inl ?_)
          rw [← h1, ← h2]
          exact hmemS
        · refine reach_step (Or.inr ?_)
          rw [← h1, ← h2]
          exact hmemS
    refine ⟨hndStar, hsub, ?_, ?_, ?_, ?_⟩
    · intro id
      exact FlowUpdater.mem_setDiff _ _ _
    · rw [List.length_map, hperm.length_eq, hlen]
      rfl
    · intro a ha b hb
      exact reach_trans (hconnRoot a ha) (reach_symm (hconnRoot b hb))
    · intro x hx hreach
      obtain ⟨p, hp, rfl⟩ := List.mem_map.mp hx
      have hiso : ∀ e ∈ edel ((PhaseOneInitializer.sortNodeItems
          g.nodes).map starId) (starId p), e.1 ≠ p.1 ∧ e.2 ≠ p.1 := by
        intro e he
        obtain ⟨heS, hne⟩ := mem_edel.mp he
        obtain ⟨q, hq, rfl⟩ := List.mem_map.mp heS
        have hq1 : q.1 ≠ p.1 := by
          intro hc
          exact hne (congrArg starId (nodup_key_inj hndIds hq hp hc))
        rcases starId_cases q with ⟨h1, h2⟩ | ⟨h1, h2⟩
        · exact ⟨h1 ▸ hq1, h2 ▸ (hrootS p hp).symm⟩
        · exact ⟨h1 ▸ (hrootS p hp).symm, h2 ▸ hq1⟩
      rcases starId_cases p with ⟨h1, h2⟩ | ⟨h1, h2⟩
      · rw [h1, h2] at hreach
        exact (hrootS p hp) (reach_isolated hiso hreach).symm
      · rw [h1, h2] at hreach
        exact (hrootS p hp) (reach_isolated hiso
          (reach_symm hreach)).symm
  · intro id hid
    rw [hedgeA] at hid
    rcases List.mem_append.mp hid with h1 | h1
    · obtain ⟨q, hq, rfl⟩ := List.mem_map.mp h1
      exact Or.inl (List.mem_map_of_mem Prod.fst (hpermE.mem_iff.mp hq))
    · obtain ⟨p, hp, rfl⟩ := List.mem_map.mp h1
      rcases starId_cases p with ⟨-, h2⟩ | ⟨h1, -⟩
      · exact Or.inr (Or.inr h2)
      · exact Or.inr (Or.inl h1)

theorem handleNestedSolve_ok {r : Except Err (SolutionState × ℕ)}
    {v : SolutionState × ℕ}
    (h : PhaseOneInitializer.handleNestedSolve r = .ok v) : r = .ok v := by
  unfold PhaseOneInitializer.handleNestedSolve at h
  cases r with
  | error e => exact Except.noConfusion h
  | ok w => exact h

/-- The full phase-one contract behind claim C4: a successful default
initialization delivers a basis/non-basis pair satisfying the spanning-tree
shape invariant for the original graph. -/
theorem phaseOne_basisProps {g : Graph} (hwf : GraphWf g)
    {br : BasisResult} (h : PhaseOneInitializer.execute g = .ok br) :
    BasisProps g br.basis_edges br.non_basis_edges := by
  unfold PhaseOneInitializer.execute at h
  by_cases hbal : EPSILON < |g.totalBalance|
  · rw [if_pos hbal] at h
    exact Except.noConfusion h
  · rw [if_neg hbal] at h
    cases hca : PhaseOneInitializer.createAuxiliaryGraph g with
    | error e => rw [hca] at h; exact Except.noConfusion h
    | ok aux =>
      rw [hca] at h
      dsimp only at h
      obtain ⟨hauxwf, hstarbp, hclass⟩ := auxStar_props hwf hca
      cases hns : PhaseOneInitializer.handleNestedSolve
          (PhaseOneInitializer.nestedSolve aux
            (PhaseOneInitializer.setupInitialState g).1
            (PhaseOneInitializer.setupInitialState g).2) with
      | error e => rw [hns] at h; exact Except.noConfusion h
      | ok fs =>
        rw [hns] at h
        dsimp only at h
        obtain ⟨finalState, iters⟩ := fs
        have hsolve : TransportSolver.solveStepByStep aux
            (fun ag => .ok (PrebuiltInitializer.execute
              (PhaseOneInitializer.setupInitialState g).1
              (PhaseOneInitializer.setupInitialState g).2 ag)) =
            .ok (finalState, iters) := handleNestedSolve_ok hns
        have hinit : ∀ br', (fun (ag : Graph) =>
            (.ok (PrebuiltInitializer.execute
              (PhaseOneInitializer.setupInitialState g).1
              (PhaseOneInitializer.setupInitialState g).2 ag) :
              Except Err BasisResult)) aux = .ok br' →
            BasisProps aux br'.basis_edges br'.non_basis_edges := by
          intro br' hbr'
          have hbr'' : (Except.ok (PrebuiltInitializer.execute
              (PhaseOneInitializer.setupInitialState g).1
              (PhaseOneInitializer.setupInitialState g).2 aux) :
              Except Err BasisResult) = .ok br' := hbr'
          injection hbr'' with he
          subst he
          exact hstarbp
        obtain ⟨-, B, N, hbeq, -, hbpAux⟩ :=
          solveStepByStep_inv hauxwf hinit hsolve
        -- `h` is now the `_extract_original_solution` call
        unfold PhaseOneInitializer.extractOriginalSolution at h
        cases hfl : finalState.flows with
        | none => rw [hfl] at h; exact Except.noConfusion h
        | some fflows =>
          rw [hfl] at h
          dsimp only at h
          by_cases hart : EPSILON < fflows.foldl
              (fun acc p =>
                if p.1.1 = PhaseOneInitializer.ROOT_NODE_ID ∨
                    p.1.2 = PhaseOneInitializer.ROOT_NODE_ID then
                  acc + p.2
                else acc) 0
          · rw [if_pos hart] at h
            exact Except.noConfusion h
          · rw [if_neg hart] at h
            rw [hbeq] at h
            dsimp only at h
            have hpart : ∀ id ∈ B.filter (fun id =>
                decide (¬ (id.1 = PhaseOneInitializer.ROOT_NODE_ID ∨
                  id.2 = PhaseOneInitializer.ROOT_NODE_ID))),
                id ∈ g.edgeIds := by
              intro id hid
              rw [List.mem_filter] at hid
              obtain ⟨hidB, hpred⟩ := hid
              have hnr : ¬ (id.1 = PhaseOneInitializer.ROOT_NODE_ID ∨
                  id.2 = PhaseOneInitializer.ROOT_NODE_ID) :=
                of_decide_eq_true hpred
              rcases hclass id (hbpAux.2.1 id hidB) with h1 | h1
              · exact h1
              · exact absurd h1 hnr
            cases hrb : PhaseOneInitializer.rebuildBasis g
                (B.filter (fun id =>
                  decide (¬ (id.1 = PhaseOneInitializer.ROOT_NODE_ID ∨
                    id.2 = PhaseOneInitializer.ROOT_NODE_ID))))
                (g.edgeIds.map
                  (fun id => (id, alookupD fflows id 0))) with
            | error e => rw [hrb] at h; exact Except.noConfusion h
            | ok basis =>
              rw [hrb] at h
              dsimp only at h
              injection h with he
              subst he
              obtain ⟨hnd, hsub, hlen, hconn, hacy⟩ :=
                rebuildBasis_spec hwf hpart hrb
              refine ⟨hnd, hsub, ?_, hlen, hconn, hacy⟩
              intro id
              exact FlowUpdater.mem_setDiff _ _ _

/-- Repeated `solver.step()` calls: the reachable-state relation of the
solver. -/
def Solver.iterate : ℕ → Solver → Except Err Solver
  | 0, s => .ok s
  | k + 1, s =>
    match s.step with
    | .error e => .error e
    | .ok s' => Solver.iterate k s'

/-- The stage invariant holds along every successful run of a default
(phase-one initialized) solver. -/
theorem solverIterate_inv {g : Graph} (hwf : GraphWf g) :
    ∀ (k : ℕ) (s sv : Solver), s.graph = g → s.init = .phaseOne →
      StateInv g s.current → Solver.iterate k s = .ok sv →
      sv.graph = g ∧ sv.init = .phaseOne ∧ StateInv g sv.current := by
  intro k
  induction k with
  | zero =>
    intro s sv hg hi hinv h
    have h' : (Except.ok s : Except Err Solver) = .ok sv := h
    injection h' with he
    subst he
    exact ⟨hg, hi, hinv⟩
  | succ k ih =>
    intro s sv hg hi hinv h
    unfold Solver.iterate at h
    cases hstep : s.step with
    | error e => rw [hstep] at h; exact Except.noConfusion h
    | ok s1 =>
      rw [hstep] at h
      dsimp only at h
      unfold Solver.step at hstep
      obtain ⟨r, hcore, hmap⟩ := exceptMap_ok hstep
      rw [hg, hi] at hcore
      have hcore' : TransportSolver.stepCore g PhaseOneInitializer.execute
          s.iteration s.current = .ok (r.1, r.2) := hcore
      have hinv1 : StateInv g r.1 := stepCore_inv hwf
        (fun br hbr => phaseOne_basisProps hwf hbr) hinv hcore'
      have hs1c : s1.current = r.1 := by rw [← hmap]
      have hs1g : s1.graph = g := by rw [← hmap]; exact hg
      have hs1i : s1.init = .phaseOne := by rw [← hmap]; exact hi
      exact ih s1 sv hs1g hs1i (hs1c ▸ hinv1) h

/-- **C4**: in every state of a default solver reachable after
initialization (any snapshot whose stage is past `INITIAL_STATE`, i.e. from
the `INITIAL_BASIS` snapshot onward, the invariant being preserved by every
transition of the step relation), the basis has exactly `|nodes| − 1` edges
(truncated at zero), basis and non-basis edges partition the edge set, and
the basis edges form a connected, acyclic undirected spanning tree over all
nodes. -/
theorem basis_spanning_tree_invariant {g : Graph} (hwf : GraphWf g)
    {k : ℕ} {sv : Solver}
    (h : Solver.iterate k (Solver.mkDefault g) = .ok sv)
    (hne : sv.current.step_type ≠ .INITIAL_STATE) :
    ∃ B N, sv.current.basis_edges = some B ∧
      sv.current.non_basis_edges = some N ∧ BasisProps g B N := by
  have h0 : StateInv g (Solver.mkDefault g).current := by
    intro hc
    exact absurd rfl hc
  obtain ⟨-, -, hinv⟩ :=
    solverIterate_inv hwf k (Solver.mkDefault g) sv rfl rfl h0 h
  obtain ⟨B, N, hb, hn, hbp, -, -, -⟩ := hinv hne
  exact ⟨B, N, hb, hn, hbp⟩

/-- A balanced two-node instance for exercising the invariant. -/
def gC4W : Graph :=
  ⟨[("a", 1), ("b", -1)], [(("a", "b"), ⟨"a", "b", 1, .inf⟩)]⟩

/-- The state of the default solver on `gC4W` after one step (the
`INITIAL_BASIS` snapshot produced by phase one). -/
def svC4W : Solver :=
  ⟨gC4W, .phaseOne, 0,
   { step_type := .INITIAL_BASIS, iteration := 0,
     basis_edges := some [("a", "b")], non_basis_edges := some [],
     potentials := some [], deltas := some [],
     flows := some [(("a", "b"), 1)], objective_value := 1 }⟩

/-- Witness: the spanning-tree invariant instantiated on the concrete
post-initialization snapshot of `gC4W`. -/
theorem basis_spanning_tree_invariant_witness :
    GraphWf gC4W ∧
    Solver.iterate 1 (Solver.mkDefault gC4W) = .ok svC4W ∧
    svC4W.current.step_type ≠ .INITIAL_STATE ∧
    (∃ B N, svC4W.current.basis_edges = some B ∧
      svC4W.current.non_basis_edges = some N ∧ BasisProps gC4W B N) :=
  ⟨by decide, by decide, by decide,
   @basis_spanning_tree_invariant gC4W (by decide) 1 svC4W (by decide)
     (by decide)⟩

end NetworkTransport
